import Mathlib

/-!
# Covariant Script basic components: a shallow embedding

Embedding of `include/covscript/core/components.hpp`:
the static stack `cs::stack_type`, the buffer pool `cs::allocator_type`,
the binary tree `cs::tree_type` and its iterator.

Conventions.
* A member function that may throw is a function from the state before the
  call to a `result`: `ok a s` (returns `a`, state `s` afterwards),
  `throw e s` (a `cov::error` with code `e` leaves the function, the state at
  the point of the throw is `s`), `fault` (the C++ code dereferences a null or
  dangling pointer or writes outside an array: undefined behaviour), and
  `diverge` (a recursion through node pointers did not finish in the given
  number of nested calls).
* Pointers are offsets or addresses in `Nat`/`Int`; `nullptr` is `none`.
-/

set_option autoImplicit false

namespace cov

/-- The codes with which `cov::error` is thrown in `components.hpp`. -/
inductive error where
  | E000E
  | E000H
  | E000I
deriving DecidableEq, Repr

end cov

namespace cs

/-- Outcome of a call of a member function on a state of type `σ`. -/
inductive result (σ α : Type) where
  | ok (a : α) (s : σ)
  | throw (e : cov.error) (s : σ)
  | fault
  | diverge
deriving DecidableEq, Repr

/-- The state in which a call leaves the object, when the call returns or throws. -/
def result.state {σ α : Type} : result σ α → Option σ
  | .ok _ s => some s
  | .throw _ s => some s
  | .fault => none
  | .diverge => none

/-! ## Static Stack -/

/-- Embedding of `stack_type<T, m_size>`. The field `m_data` lists the objects that are
alive in the storage, slot 0 (at `m_start`) first; the slots from `m_current` on hold no
object. `m_start` and `m_current` are kept as offsets into the storage. -/
structure stack_type (T : Type) (m_size : Nat) where
  m_data : List T
deriving DecidableEq, Repr

namespace stack_type

variable {T : Type} {m_size : Nat}

/-- Offset of `m_start` in the storage. -/
def m_start (_s : stack_type T m_size) : Int := 0

/-- Offset of `m_current` in the storage: one past the last live object. -/
def m_current (s : stack_type T m_size) : Int := s.m_data.length

/-- Embedding of `stack_type()`: `m_current(m_start)`, no live object. -/
def new : stack_type T m_size := ⟨[]⟩

/-- Embedding of `*p` for a pointer `p` into the storage, given as an offset:
the object alive in that slot, if any. -/
def load (s : stack_type T m_size) (p : Int) : Option T :=
  if p < 0 then none else s.m_data[p.toNat]?

/-- Embedding of `empty()`: `m_current == m_start`. -/
def empty (s : stack_type T m_size) : Bool := s.m_current == s.m_start

/-- Embedding of `size()`: `m_current - m_start`. -/
def size (s : stack_type T m_size) : Nat := (s.m_current - s.m_start).toNat

/-- Embedding of `full()`: `m_current - m_start == m_size`. -/
def full (s : stack_type T m_size) : Bool := s.m_current - s.m_start == (m_size : Int)

/-- Embedding of `top()`: throws `E000H` when empty, else returns `*(m_current - 1)`. -/
def top (s : stack_type T m_size) : result (stack_type T m_size) T :=
  if s.empty then .throw .E000H s
  else match s.load (s.m_current - 1) with
    | some v => .ok v s
    | none => .fault

/-- Embedding of `push(args...)`: throws `E000I` when full, else constructs the value in
the slot `m_current` and advances `m_current`. The slot must lie inside
`m_data[m_size]`; a write past the array is a fault. -/
def push (s : stack_type T m_size) (v : T) : result (stack_type T m_size) Unit :=
  if s.full then .throw .E000I s
  else if s.m_current < (m_size : Int) then .ok () ⟨s.m_data ++ [v]⟩
  else .fault

/-- Embedding of `pop()`: throws `E000H` when empty, else steps `m_current` back, moves the
object out of that slot, destructs the slot and returns the object. -/
def pop (s : stack_type T m_size) : result (stack_type T m_size) T :=
  if s.empty then .throw .E000H s
  else match s.load (s.m_current - 1) with
    | some data => .ok data ⟨s.m_data.dropLast⟩
    | none => .fault

/-- Embedding of `pop_no_return()`: throws `E000H` when empty, else steps `m_current` back
and destructs the object in that slot. -/
def pop_no_return (s : stack_type T m_size) : result (stack_type T m_size) Unit :=
  if s.empty then .throw .E000H s
  else .ok () ⟨s.m_data.dropLast⟩

/-- Embedding of `stack_type::iterator`: the pointer `m_ptr`, as an offset. -/
structure iterator where
  m_ptr : Int
deriving DecidableEq, Repr

/-- Embedding of `iterator::operator++()`: `--m_ptr`. -/
def iterator.next (it : iterator) : iterator := ⟨it.m_ptr - 1⟩

/-- Embedding of `iterator::operator*()`: `*m_ptr`. -/
def iterator.deref (s : stack_type T m_size) (it : iterator) : Option T := s.load it.m_ptr

/-- Embedding of `begin()`: `iterator(m_current - 1)`. -/
def begin (s : stack_type T m_size) : iterator := ⟨s.m_current - 1⟩

/-- Embedding of `end()`: `iterator(m_start - 1)`. -/
def end_ (s : stack_type T m_size) : iterator := ⟨s.m_start - 1⟩

/-- The loop `for (it = from; it != end(); ++it) visit(it)`: the iterators visited, in
order; `none` when the loop has not reached `end()` after `fuel` rounds. -/
def walk (s : stack_type T m_size) : Nat → iterator → Option (List iterator)
  | 0, it => if it = s.end_ then some [] else none
  | fuel + 1, it =>
    if it = s.end_ then some []
    else (walk s fuel it.next).map (fun rest => it :: rest)

/-- Pushes the values of a list one after the other, first element first; stops at the
first call that does not return. -/
def push_all (s : stack_type T m_size) : List T → result (stack_type T m_size) Unit
  | [] => .ok () s
  | v :: vs =>
    match s.push v with
    | .ok _ s1 => push_all s1 vs
    | r => r

/-- Calls `pop()` the given number of times and lists the returned values, first
returned first; stops at the first call that does not return. -/
def pop_n (s : stack_type T m_size) : Nat → result (stack_type T m_size) (List T)
  | 0 => .ok [] s
  | n + 1 =>
    match s.pop with
    | .ok v s1 =>
      match pop_n s1 n with
      | .ok vs s2 => .ok (v :: vs) s2
      | r => r
    | .throw e s1 => .throw e s1
    | .fault => .fault
    | .diverge => .diverge

/-- The calls a client can make on a stack. -/
inductive call (T : Type) where
  | push (v : T)
  | pop
  | pop_no_return
  | top
deriving DecidableEq, Repr

/-- The state after one call, whether it returns or throws; `none` after a fault. -/
def exec (s : stack_type T m_size) : call T → Option (stack_type T m_size)
  | .push v => (s.push v).state
  | .pop => s.pop.state
  | .pop_no_return => s.pop_no_return.state
  | .top => s.top.state

/-- The state after a sequence of calls. -/
def run (s : stack_type T m_size) : List (call T) → Option (stack_type T m_size)
  | [] => some s
  | c :: cs => (s.exec c).bind (fun s1 => run s1 cs)

end stack_type

/-! ## Buffer Pool -/

/-- Modelled from the spec: the backing allocation strategy `allocator_t<T>` is a template
parameter of `allocator_type`; it is taken to be the allocation-counting strategy the
specification observes the pool with. It counts the calls of `allocate(1)` and of
`deallocate(p, 1)`, hands out fresh addresses, and records the objects constructed in
the storage it handed out. -/
structure counting_allocator (T : Type) where
  allocated : Nat
  deallocated : Nat
  objects : List (Nat × T)
deriving DecidableEq, Repr

namespace counting_allocator

variable {T : Type}

/-- A backing allocator that has not been called yet. -/
def new : counting_allocator T := ⟨0, 0, []⟩

/-- The call `allocate(1)`: a fresh address, and the allocator after the call. -/
def allocate (m : counting_allocator T) : Nat × counting_allocator T :=
  (m.allocated, { m with allocated := m.allocated + 1 })

/-- The call `deallocate(ptr, 1)`. -/
def deallocate (m : counting_allocator T) (_ptr : Nat) : counting_allocator T :=
  { m with deallocated := m.deallocated + 1 }

/-- The call `construct(ptr, args...)`: an object with the given value lives at `ptr`. -/
def construct (m : counting_allocator T) (ptr : Nat) (v : T) : counting_allocator T :=
  { m with objects := (ptr, v) :: m.objects }

/-- The call `destroy(ptr)`: no object lives at `ptr` any more. -/
def destroy (m : counting_allocator T) (ptr : Nat) : counting_allocator T :=
  { m with objects := m.objects.filter (fun o => o.1 ≠ ptr) }

/-- Backing allocations minus backing deallocations. -/
def net (m : counting_allocator T) : Int := (m.allocated : Int) - (m.deallocated : Int)

end counting_allocator

/-- Embedding of `allocator_type<T, blck_size, allocator_t>`: the array `mPool` (entry `i`
is `mPool i`; every access the code makes is at an index below `blck_size` as long as
`mOffset ≤ blck_size`), the backing allocator `mAlloc` and the count `mOffset` of pooled
slots. -/
structure allocator_type (T : Type) (blck_size : Nat) where
  mPool : Nat → Nat
  mAlloc : counting_allocator T
  mOffset : Nat

namespace allocator_type

variable {T : Type} {blck_size : Nat}

/-- The loop of the constructor, `while (mOffset < 0.5 * blck_size)
mPool[mOffset++] = mAlloc.allocate(1);`, run for at most `fuel` rounds. The comparison
in `double` is the comparison `2 * mOffset < blck_size` of integers. -/
def ctor_loop : Nat → allocator_type T blck_size → allocator_type T blck_size
  | 0, a => a
  | fuel + 1, a =>
    if 2 * a.mOffset < blck_size then
      ctor_loop fuel
        { mPool := Function.update a.mPool a.mOffset a.mAlloc.allocate.1
          mAlloc := a.mAlloc.allocate.2
          mOffset := a.mOffset + 1 }
    else a

/-- Embedding of `allocator_type()`: `mOffset = 0`, then the loop; `blck_size` rounds are
enough for the loop to finish. -/
def new : allocator_type T blck_size :=
  ctor_loop blck_size ⟨fun _ => 0, counting_allocator.new, 0⟩

/-- Embedding of `alloc(args...)`: takes `mPool[--mOffset]` when `mOffset > 0`, else
`mAlloc.allocate(1)`; constructs the object there and returns the pointer. -/
def alloc (a : allocator_type T blck_size) (v : T) : Nat × allocator_type T blck_size :=
  if 0 < a.mOffset then
    let ptr := a.mPool (a.mOffset - 1)
    (ptr, { a with mOffset := a.mOffset - 1, mAlloc := a.mAlloc.construct ptr v })
  else
    let ptr := a.mAlloc.allocate.1
    (ptr, { a with mAlloc := a.mAlloc.allocate.2.construct ptr v })

/-- Embedding of `free(ptr)`: destroys the object, then `mPool[mOffset++] = ptr` when
`mOffset < blck_size`, else `mAlloc.deallocate(ptr, 1)`. -/
def free (a : allocator_type T blck_size) (ptr : Nat) : allocator_type T blck_size :=
  let m := a.mAlloc.destroy ptr
  if a.mOffset < blck_size then
    { mPool := Function.update a.mPool a.mOffset ptr, mAlloc := m, mOffset := a.mOffset + 1 }
  else
    { a with mAlloc := m.deallocate ptr }

/-- The calls a client can make on a pool. -/
inductive call (T : Type) where
  | alloc (v : T)
  | free (ptr : Nat)
deriving DecidableEq, Repr

/-- The pool after one call. -/
def exec (a : allocator_type T blck_size) : call T → allocator_type T blck_size
  | .alloc v => (a.alloc v).2
  | .free ptr => a.free ptr

/-- The pool after a sequence of calls. -/
def run (a : allocator_type T blck_size) : List (call T) → allocator_type T blck_size
  | [] => a
  | c :: cs => run (a.exec c) cs

/-- A pool together with its client: `live` lists the pointers `alloc` has returned and
that have not been given to `free` since. -/
structure client (T : Type) (blck_size : Nat) where
  pool : allocator_type T blck_size
  live : List Nat

/-- A client that has just constructed its pool. -/
def client.new : client T blck_size := ⟨allocator_type.new, []⟩

/-- One call by the client; `none` when `free` is given a pointer that is not live. -/
def client.step (c : client T blck_size) : call T → Option (client T blck_size)
  | .alloc v => some ⟨(c.pool.alloc v).2, (c.pool.alloc v).1 :: c.live⟩
  | .free ptr => if ptr ∈ c.live then some ⟨c.pool.free ptr, c.live.erase ptr⟩ else none

/-- The states the client goes through in a sequence of calls, the starting state first;
`none` when some `free` is given a pointer that is not live. -/
def client.states (c : client T blck_size) : List (call T) → Option (List (client T blck_size))
  | [] => some [c]
  | x :: xs => (c.step x).bind (fun c1 => (client.states c1 xs).map (fun l => c :: l))

/-- The bookkeeping of a pool and its client: the pooled count is at most `blck_size`, and
the storage obtained from the backing allocator and not given back is either pooled or
live. -/
def client.balanced (c : client T blck_size) : Prop :=
  c.pool.mOffset ≤ blck_size ∧
  c.pool.mAlloc.net = (c.pool.mOffset : Int) + (c.live.length : Int)

instance (c : client T blck_size) : Decidable c.balanced := by
  unfold client.balanced
  infer_instance

end allocator_type

/-! ## Binary Tree -/

/-- Embedding of `tree_type<T>::tree_node`: the parent link `root`, the child links `left`
and `right` (addresses in the free store, `none` for `nullptr`) and the payload. -/
structure tree_node (T : Type) where
  root : Option Nat
  left : Option Nat
  right : Option Nat
  data : T
deriving DecidableEq, Repr

/-- The free store the nodes live in: the cell at address `p` holds `some n` while a node
allocated with `new` is alive there and `none` once it has been deleted. -/
abbrev heap (T : Type) := List (Option (tree_node T))

namespace heap

variable {T : Type}

/-- The node a pointer points to, if that node is alive. -/
def read (h : heap T) (p : Nat) : Option (tree_node T) := (h[p]?).join

/-- Embedding of `new tree_node(...)`: the node is placed at a fresh address. -/
def alloc (h : heap T) (n : tree_node T) : Nat × heap T := (h.length, h ++ [some n])

/-- Embedding of `p->root = x`; `none` when `p` points to no live node. -/
def set_root (h : heap T) (p : Nat) (x : Option Nat) : Option (heap T) :=
  (h.read p).map (fun n => h.set p (some { n with root := x }))

/-- Embedding of `p->left = x`; `none` when `p` points to no live node. -/
def set_left (h : heap T) (p : Nat) (x : Option Nat) : Option (heap T) :=
  (h.read p).map (fun n => h.set p (some { n with left := x }))

/-- Embedding of `p->right = x`; `none` when `p` points to no live node. -/
def set_right (h : heap T) (p : Nat) (x : Option Nat) : Option (heap T) :=
  (h.read p).map (fun n => h.set p (some { n with right := x }))

/-- Embedding of `delete p`; `none` when `p` points to no live node. -/
def delete (h : heap T) (p : Nat) : Option (heap T) :=
  (h.read p).map (fun _ => h.set p none)

end heap

/-- A computation on node pointers that returns normally or hits a fault. -/
def result.of_option {σ α : Type} : Option (α × σ) → result σ α
  | some (a, s) => .ok a s
  | none => .fault

/-- Continues with `k` after a call that returned; a throw, a fault or a divergence of
the call ends the caller as well. -/
def result.and_then {σ τ α β : Type} (r : result σ α) (on_throw : σ → τ)
    (k : α → σ → result τ β) : result τ β :=
  match r with
  | .ok a s => k a s
  | .throw e s => .throw e (on_throw s)
  | .fault => .fault
  | .diverge => .diverge

/-- Embedding of `tree_type<T>`: the pointer `mRoot`. -/
structure tree_type (T : Type) where
  mRoot : Option Nat
deriving DecidableEq, Repr

namespace tree_type

variable {T : Type}

/-- Embedding of the static `copy(raw, root)`, with at most `fuel` nested calls. -/
def copy : Nat → heap T → Option Nat → Option Nat → result (heap T) (Option Nat)
  | _, h, none, _ => .ok none h
  | 0, _, some _, _ => .diverge
  | fuel + 1, h, some raw, root =>
    match h.read raw with
    | none => .fault
    | some r =>
      let (node, h1) := h.alloc ⟨root, none, none, r.data⟩
      match (h1.read raw).map (fun r1 => copy fuel h1 r1.left (some node)) with
      | none => .fault
      | some (.ok l h2) =>
        match h2.set_left node l with
        | none => .fault
        | some h3 =>
          match (h3.read raw).map (fun r3 => copy fuel h3 r3.right (some node)) with
          | none => .fault
          | some (.ok r h4) =>
            match h4.set_right node r with
            | none => .fault
            | some h5 => .ok (some node) h5
          | some other => other
      | some other => other

/-- Embedding of the static `destroy(raw)`, with at most `fuel` nested calls. -/
def destroy : Nat → heap T → Option Nat → result (heap T) Unit
  | _, h, none => .ok () h
  | 0, _, some _ => .diverge
  | fuel + 1, h, some raw =>
    match (h.read raw).map (fun r => destroy fuel h r.left) with
    | none => .fault
    | some (.ok _ h1) =>
      match (h1.read raw).map (fun r1 => destroy fuel h1 r1.right) with
      | none => .fault
      | some (.ok _ h2) =>
        match h2.delete raw with
        | none => .fault
        | some h3 => .ok () h3
      | some other => other
    | some other => other

/-- Embedding of `tree_type<T>::iterator`: the pointer `mData`. -/
structure iterator where
  mData : Option Nat
deriving DecidableEq, Repr

namespace iterator

/-- Embedding of `usable()`: `mData != nullptr`. -/
def usable (it : iterator) : Bool := it.mData != none

/-- Embedding of `data()`: throws `E000E` on an unusable handle, else `mData->data`. -/
def data (h : heap T) (it : iterator) : result (heap T) T :=
  if !it.usable then .throw .E000E h
  else result.of_option (do
    let p ← it.mData
    let n ← h.read p
    pure (n.data, h))

/-- Embedding of `root()`: throws `E000E` on an unusable handle, else `mData->root`. -/
def root (h : heap T) (it : iterator) : result (heap T) iterator :=
  if !it.usable then .throw .E000E h
  else result.of_option (do
    let p ← it.mData
    let n ← h.read p
    pure (⟨n.root⟩, h))

/-- Embedding of `left()`: throws `E000E` on an unusable handle, else `mData->left`. -/
def left (h : heap T) (it : iterator) : result (heap T) iterator :=
  if !it.usable then .throw .E000E h
  else result.of_option (do
    let p ← it.mData
    let n ← h.read p
    pure (⟨n.left⟩, h))

/-- Embedding of `right()`: throws `E000E` on an unusable handle, else `mData->right`. -/
def right (h : heap T) (it : iterator) : result (heap T) iterator :=
  if !it.usable then .throw .E000E h
  else result.of_option (do
    let p ← it.mData
    let n ← h.read p
    pure (⟨n.right⟩, h))

end iterator

/-- Embedding of `tree_type()`: `mRoot = nullptr`. -/
def new : tree_type T := ⟨none⟩

/-- Embedding of `empty()`: `mRoot == nullptr`. -/
def empty (t : tree_type T) : Bool := t.mRoot == none

/-- Embedding of `root()`: a handle on `mRoot`. -/
def root (t : tree_type T) : iterator := ⟨t.mRoot⟩

/-- Embedding of `insert_root_left(it, data)`: when `it.mData == mRoot` the new node becomes
`mRoot` with the old `mRoot` as its left child; else throws `E000E` on an unusable handle;
else the new node is put between the node of `it` and its parent.
The source writes the last assignment as `it.mData.root = node` (line 526), which is
ill-formed for the pointer `mData`: the member function cannot be instantiated, so no
compiled program calls it. The definition is the body with this line repaired to
`it.mData->root = node`, as `emplace_root_left` has it; what holds of a running program is
stated on `emplace_root_left`. -/
def insert_root_left (h : heap T) (t : tree_type T) (it : iterator) (data : T) :
    result (heap T × tree_type T) iterator :=
  if it.mData = t.mRoot then
    let (node, h1) := h.alloc ⟨none, t.mRoot, none, data⟩
    .ok ⟨some node⟩ (h1, ⟨some node⟩)
  else if !it.usable then .throw .E000E (h, t)
  else result.of_option (do
    let p ← it.mData
    let n ← h.read p
    let (node, h1) := h.alloc ⟨n.root, some p, none, data⟩
    let r ← (← h1.read p).root
    let rn ← h1.read r
    let h2 ← if rn.left = some p then h1.set_left r (some node) else h1.set_right r (some node)
    let h3 ← h2.set_root p (some node)
    pure (⟨some node⟩, (h3, t)))

/-- Embedding of `insert_root_right(it, data)`: when `it.mData == mRoot` the new node becomes
`mRoot` with the old `mRoot` as its right child; else throws `E000E` on an unusable handle;
else the new node is put between the node of `it` and its parent.
The source writes the last assignment as `it.mData.root = node` (line 543), which is
ill-formed for the pointer `mData`: the member function cannot be instantiated, so no
compiled program calls it. The definition is the body with this line repaired to
`it.mData->root = node`, as `emplace_root_right` has it; what holds of a running program is
stated on `emplace_root_right`. -/
def insert_root_right (h : heap T) (t : tree_type T) (it : iterator) (data : T) :
    result (heap T × tree_type T) iterator :=
  if it.mData = t.mRoot then
    let (node, h1) := h.alloc ⟨none, none, t.mRoot, data⟩
    .ok ⟨some node⟩ (h1, ⟨some node⟩)
  else if !it.usable then .throw .E000E (h, t)
  else result.of_option (do
    let p ← it.mData
    let n ← h.read p
    let (node, h1) := h.alloc ⟨n.root, none, some p, data⟩
    let r ← (← h1.read p).root
    let rn ← h1.read r
    let h2 ← if rn.left = some p then h1.set_left r (some node) else h1.set_right r (some node)
    let h3 ← h2.set_root p (some node)
    pure (⟨some node⟩, (h3, t)))

/-- Embedding of `insert_left_left(it, data)`: throws `E000E` on an unusable handle; else the
new node takes the left child of the node of `it` as its left child and becomes the left
child of that node. -/
def insert_left_left (h : heap T) (t : tree_type T) (it : iterator) (data : T) :
    result (heap T × tree_type T) iterator :=
  if !it.usable then .throw .E000E (h, t)
  else result.of_option (do
    let p ← it.mData
    let n ← h.read p
    let (node, h1) := h.alloc ⟨some p, n.left, none, data⟩
    let h2 ← match (← h1.read p).left with
      | none => some h1
      | some c => h1.set_root c (some node)
    let h3 ← h2.set_left p (some node)
    pure (⟨some node⟩, (h3, t)))

/-- Embedding of `insert_left_right(it, data)`: throws `E000E` on an unusable handle; else the
new node takes the left child of the node of `it` as its right child and becomes the left
child of that node. -/
def insert_left_right (h : heap T) (t : tree_type T) (it : iterator) (data : T) :
    result (heap T × tree_type T) iterator :=
  if !it.usable then .throw .E000E (h, t)
  else result.of_option (do
    let p ← it.mData
    let n ← h.read p
    let (node, h1) := h.alloc ⟨some p, none, n.left, data⟩
    let h2 ← match (← h1.read p).left with
      | none => some h1
      | some c => h1.set_root c (some node)
    let h3 ← h2.set_left p (some node)
    pure (⟨some node⟩, (h3, t)))

/-- Embedding of `insert_right_left(it, data)`: throws `E000E` on an unusable handle; else the
new node takes the right child of the node of `it` as its left child and becomes the right
child of that node. -/
def insert_right_left (h : heap T) (t : tree_type T) (it : iterator) (data : T) :
    result (heap T × tree_type T) iterator :=
  if !it.usable then .throw .E000E (h, t)
  else result.of_option (do
    let p ← it.mData
    let n ← h.read p
    let (node, h1) := h.alloc ⟨some p, n.right, none, data⟩
    let h2 ← match (← h1.read p).right with
      | none => some h1
      | some c => h1.set_root c (some node)
    let h3 ← h2.set_right p (some node)
    pure (⟨some node⟩, (h3, t)))

/-- Embedding of `insert_right_right(it, data)`: throws `E000E` on an unusable handle; else the
new node takes the right child of the node of `it` as its right child and becomes the right
child of that node. -/
def insert_right_right (h : heap T) (t : tree_type T) (it : iterator) (data : T) :
    result (heap T × tree_type T) iterator :=
  if !it.usable then .throw .E000E (h, t)
  else result.of_option (do
    let p ← it.mData
    let n ← h.read p
    let (node, h1) := h.alloc ⟨some p, none, n.right, data⟩
    let h2 ← match (← h1.read p).right with
      | none => some h1
      | some c => h1.set_root c (some node)
    let h3 ← h2.set_right p (some node)
    pure (⟨some node⟩, (h3, t)))

/-- Embedding of `emplace_root_left(it, args...)`: when `it.mData == mRoot` the new node becomes
`mRoot` with the old `mRoot` as its left child; else throws `E000E` on an unusable handle;
else the new node is put between the node of `it` and its parent. -/
def emplace_root_left (h : heap T) (t : tree_type T) (it : iterator) (data : T) :
    result (heap T × tree_type T) iterator :=
  if it.mData = t.mRoot then
    let (node, h1) := h.alloc ⟨none, t.mRoot, none, data⟩
    .ok ⟨some node⟩ (h1, ⟨some node⟩)
  else if !it.usable then .throw .E000E (h, t)
  else result.of_option (do
    let p ← it.mData
    let n ← h.read p
    let (node, h1) := h.alloc ⟨n.root, some p, none, data⟩
    let r ← (← h1.read p).root
    let rn ← h1.read r
    let h2 ← if rn.left = some p then h1.set_left r (some node) else h1.set_right r (some node)
    let h3 ← h2.set_root p (some node)
    pure (⟨some node⟩, (h3, t)))

/-- Embedding of `emplace_root_right(it, args...)`: when `it.mData == mRoot` the new node becomes
`mRoot` with the old `mRoot` as its right child; else throws `E000E` on an unusable handle;
else the new node is put between the node of `it` and its parent. -/
def emplace_root_right (h : heap T) (t : tree_type T) (it : iterator) (data : T) :
    result (heap T × tree_type T) iterator :=
  if it.mData = t.mRoot then
    let (node, h1) := h.alloc ⟨none, none, t.mRoot, data⟩
    .ok ⟨some node⟩ (h1, ⟨some node⟩)
  else if !it.usable then .throw .E000E (h, t)
  else result.of_option (do
    let p ← it.mData
    let n ← h.read p
    let (node, h1) := h.alloc ⟨n.root, none, some p, data⟩
    let r ← (← h1.read p).root
    let rn ← h1.read r
    let h2 ← if rn.left = some p then h1.set_left r (some node) else h1.set_right r (some node)
    let h3 ← h2.set_root p (some node)
    pure (⟨some node⟩, (h3, t)))

/-- Embedding of `emplace_left_left(it, args...)`: throws `E000E` on an unusable handle; else the
new node takes the left child of the node of `it` as its left child and becomes the left
child of that node. -/
def emplace_left_left (h : heap T) (t : tree_type T) (it : iterator) (data : T) :
    result (heap T × tree_type T) iterator :=
  if !it.usable then .throw .E000E (h, t)
  else result.of_option (do
    let p ← it.mData
    let n ← h.read p
    let (node, h1) := h.alloc ⟨some p, n.left, none, data⟩
    let h2 ← match (← h1.read p).left with
      | none => some h1
      | some c => h1.set_root c (some node)
    let h3 ← h2.set_left p (some node)
    pure (⟨some node⟩, (h3, t)))

/-- Embedding of `emplace_left_right(it, args...)`: throws `E000E` on an unusable handle; else the
new node takes the left child of the node of `it` as its right child and becomes the left
child of that node. -/
def emplace_left_right (h : heap T) (t : tree_type T) (it : iterator) (data : T) :
    result (heap T × tree_type T) iterator :=
  if !it.usable then .throw .E000E (h, t)
  else result.of_option (do
    let p ← it.mData
    let n ← h.read p
    let (node, h1) := h.alloc ⟨some p, none, n.left, data⟩
    let h2 ← match (← h1.read p).left with
      | none => some h1
      | some c => h1.set_root c (some node)
    let h3 ← h2.set_left p (some node)
    pure (⟨some node⟩, (h3, t)))

/-- Embedding of `emplace_right_left(it, args...)`: throws `E000E` on an unusable handle; else the
new node takes the right child of the node of `it` as its left child and becomes the right
child of that node. -/
def emplace_right_left (h : heap T) (t : tree_type T) (it : iterator) (data : T) :
    result (heap T × tree_type T) iterator :=
  if !it.usable then .throw .E000E (h, t)
  else result.of_option (do
    let p ← it.mData
    let n ← h.read p
    let (node, h1) := h.alloc ⟨some p, n.right, none, data⟩
    let h2 ← match (← h1.read p).right with
      | none => some h1
      | some c => h1.set_root c (some node)
    let h3 ← h2.set_right p (some node)
    pure (⟨some node⟩, (h3, t)))

/-- Embedding of `emplace_right_right(it, args...)`: throws `E000E` on an unusable handle; else the
new node takes the right child of the node of `it` as its right child and becomes the right
child of that node. -/
def emplace_right_right (h : heap T) (t : tree_type T) (it : iterator) (data : T) :
    result (heap T × tree_type T) iterator :=
  if !it.usable then .throw .E000E (h, t)
  else result.of_option (do
    let p ← it.mData
    let n ← h.read p
    let (node, h1) := h.alloc ⟨some p, none, n.right, data⟩
    let h2 ← match (← h1.read p).right with
      | none => some h1
      | some c => h1.set_root c (some node)
    let h3 ← h2.set_right p (some node)
    pure (⟨some node⟩, (h3, t)))

/-- Embedding of `erase(it)`: throws `E000E` on an unusable handle; when `it.mData == mRoot`
destroys the whole tree and clears `mRoot`; else clears the child slot of the parent (when
the parent link is not null) and calls `destroy` on the node of `it`. -/
def erase (fuel : Nat) (h : heap T) (t : tree_type T) (it : iterator) :
    result (heap T × tree_type T) iterator :=
  if !it.usable then .throw .E000E (h, t)
  else if it.mData = t.mRoot then
    (destroy fuel h t.mRoot).and_then (fun h1 => (h1, t)) (fun _ h1 => .ok ⟨none⟩ (h1, ⟨none⟩))
  else
    match (do
      let p ← it.mData
      let n ← h.read p
      let root := n.root
      let h1 ← match root with
        | none => some h
        | some r => do
          let rn ← h.read r
          if some p = rn.left then h.set_left r none else h.set_right r none
      pure (p, root, h1)) with
    | none => .fault
    | some (p, root, h1) =>
      (destroy fuel h1 (some p)).and_then (fun h2 => (h2, t)) (fun _ h2 => .ok ⟨root⟩ (h2, t))

/-- Embedding of `reserve_left(it)`: throws `E000E` on an unusable handle; else clears
the left link of the node of `it`, gives the former left child the parent of that node,
puts it in the parent's child slot, calls `destroy` on the node of `it` and moves `mRoot`
to the child when the node was `mRoot`. -/
def reserve_left (fuel : Nat) (h : heap T) (t : tree_type T) (it : iterator) :
    result (heap T × tree_type T) iterator :=
  if !it.usable then .throw .E000E (h, t)
  else
    match (do
      let p ← it.mData
      let n ← h.read p
      let reserve := n.left
      let root := n.root
      let h1 ← h.set_left p none
      let h2 ← h1.set_root (← reserve) root
      let h3 ← match root with
        | none => some h2
        | some r => do
          let rn ← h2.read r
          if some p = rn.left then h2.set_left r reserve else h2.set_right r reserve
      pure (p, reserve, h3)) with
    | none => .fault
    | some (p, reserve, h3) =>
      (destroy fuel h3 (some p)).and_then (fun h4 => (h4, t)) (fun _ h4 =>
        .ok ⟨reserve⟩ (h4, if some p = t.mRoot then ⟨reserve⟩ else t))

/-- Embedding of `reserve_right(it)`: throws `E000E` on an unusable handle; else clears
the right link of the node of `it`, gives the former right child the parent of that node,
puts it in the parent's child slot, calls `destroy` on the node of `it` and moves `mRoot`
to the child when the node was `mRoot`. -/
def reserve_right (fuel : Nat) (h : heap T) (t : tree_type T) (it : iterator) :
    result (heap T × tree_type T) iterator :=
  if !it.usable then .throw .E000E (h, t)
  else
    match (do
      let p ← it.mData
      let n ← h.read p
      let reserve := n.right
      let root := n.root
      let h1 ← h.set_right p none
      let h2 ← h1.set_root (← reserve) root
      let h3 ← match root with
        | none => some h2
        | some r => do
          let rn ← h2.read r
          if some p = rn.left then h2.set_left r reserve else h2.set_right r reserve
      pure (p, reserve, h3)) with
    | none => .fault
    | some (p, reserve, h3) =>
      (destroy fuel h3 (some p)).and_then (fun h4 => (h4, t)) (fun _ h4 =>
        .ok ⟨reserve⟩ (h4, if some p = t.mRoot then ⟨reserve⟩ else t))

/-- Embedding of `erase_left(it)`: throws `E000E` on an unusable handle; else calls
`destroy` on the left child of the node of `it` and clears the left link. -/
def erase_left (fuel : Nat) (h : heap T) (t : tree_type T) (it : iterator) :
    result (heap T × tree_type T) iterator :=
  if !it.usable then .throw .E000E (h, t)
  else
    match (do
      let p ← it.mData
      let n ← h.read p
      pure (p, n.left)) with
    | none => .fault
    | some (p, c) =>
      (destroy fuel h c).and_then (fun h1 => (h1, t)) (fun _ h1 =>
        match h1.set_left p none with
        | none => .fault
        | some h2 => .ok it (h2, t))

/-- Embedding of `erase_right(it)`: throws `E000E` on an unusable handle; else calls
`destroy` on the right child of the node of `it` and clears the right link. -/
def erase_right (fuel : Nat) (h : heap T) (t : tree_type T) (it : iterator) :
    result (heap T × tree_type T) iterator :=
  if !it.usable then .throw .E000E (h, t)
  else
    match (do
      let p ← it.mData
      let n ← h.read p
      pure (p, n.right)) with
    | none => .fault
    | some (p, c) =>
      (destroy fuel h c).and_then (fun h1 => (h1, t)) (fun _ h1 =>
        match h1.set_right p none with
        | none => .fault
        | some h2 => .ok it (h2, t))

/-- Embedding of `merge(it, tree)`: throws `E000E` on an unusable handle; else copies the
nodes of `tree` with the parent of the node of `it` as the parent of the copy, puts the
copy in the parent's child slot, calls `destroy` on the node of `it` and moves `mRoot` to
the copy when the node was `mRoot`. -/
def merge (fuel : Nat) (h : heap T) (t : tree_type T) (it : iterator) (tree : tree_type T) :
    result (heap T × tree_type T) iterator :=
  if !it.usable then .throw .E000E (h, t)
  else
    match (do
      let p ← it.mData
      let n ← h.read p
      pure (p, n.root)) with
    | none => .fault
    | some (p, root) =>
      (copy fuel h tree.mRoot root).and_then (fun h1 => (h1, t)) (fun subroot h1 =>
        match (match root with
          | none => some h1
          | some r => do
            let rn ← h1.read r
            if some p = rn.left then h1.set_left r subroot else h1.set_right r subroot) with
        | none => .fault
        | some h2 =>
          (destroy fuel h2 (some p)).and_then (fun h3 => (h3, t)) (fun _ h3 =>
            .ok ⟨subroot⟩ (h3, if some p = t.mRoot then ⟨subroot⟩ else t)))

/-- Addresses reached from a node pointer through `left` and `right` links: the node,
then its left subtree, then its right subtree; at most `fuel` levels deep. -/
def nodes : Nat → heap T → Option Nat → List Nat
  | _, _, none => []
  | 0, _, some _ => []
  | fuel + 1, h, some p =>
    p :: (match h.read p with
      | none => []
      | some n => nodes fuel h n.left ++ nodes fuel h n.right)

/-- The link condition at the node at address `p` of the tree `t`: the node is alive; if it
is `mRoot` its parent link is null, else its parent link points to a live node that has
`p` as its left or right child. -/
def link_ok (h : heap T) (t : tree_type T) (p : Nat) : Bool :=
  match h.read p with
  | none => false
  | some n =>
    if some p = t.mRoot then n.root == none
    else
      match n.root with
      | none => false
      | some q =>
        match h.read q with
        | none => false
        | some qn => qn.left == some p || qn.right == some p

/-- The link invariant of the tree `t`: the link condition holds at every node reached
from `mRoot`. -/
def link_invariant (fuel : Nat) (h : heap T) (t : tree_type T) : Bool :=
  (nodes fuel h t.mRoot).all (link_ok h t)

/-- Embedding of `swap(t)`: the two trees exchange their `mRoot`; the result is this tree
and `t` after the call. -/
def swap (this t : tree_type T) : tree_type T × tree_type T := (⟨t.mRoot⟩, ⟨this.mRoot⟩)

/-- Embedding of `tree_type(iterator it)`: `mRoot(copy(it.mData))`. -/
def from_iterator (fuel : Nat) (h : heap T) (it : iterator) : result (heap T) (tree_type T) :=
  (copy fuel h it.mData none).and_then id (fun r h1 => .ok ⟨r⟩ h1)

/-- Embedding of the copy constructor `tree_type(const tree_type &t)`: `mRoot(copy(t.mRoot))`. -/
def copy_ctor (fuel : Nat) (h : heap T) (t : tree_type T) : result (heap T) (tree_type T) :=
  (copy fuel h t.mRoot none).and_then id (fun r h1 => .ok ⟨r⟩ h1)

/-- Embedding of the move constructor `tree_type(tree_type &&t)`: `mRoot(nullptr)`, then
`swap(t)`; the result is the new tree and `t` after the call. -/
def move_ctor (t : tree_type T) : tree_type T × tree_type T := swap ⟨none⟩ t

/-- Embedding of `~tree_type()`: `destroy(mRoot)`. -/
def dtor (fuel : Nat) (h : heap T) (t : tree_type T) : result (heap T) Unit :=
  destroy fuel h t.mRoot

/-- Embedding of `operator=(const tree_type &t)`; the argument is `none` when `t` is this
tree itself (`&t == this`), and then nothing happens; else `destroy(mRoot)` and
`mRoot = copy(t.mRoot)`. -/
def copy_assign (fuel : Nat) (h : heap T) (this : tree_type T) :
    Option (tree_type T) → result (heap T × tree_type T) Unit
  | none => .ok () (h, this)
  | some t =>
    (destroy fuel h this.mRoot).and_then (fun h1 => (h1, this)) (fun _ h1 =>
      (copy fuel h1 t.mRoot none).and_then (fun h2 => (h2, this)) (fun r h2 =>
        .ok () (h2, ⟨r⟩)))

/-- Embedding of `operator=(tree_type &&t)`: `swap(t)`. -/
def move_assign (this t : tree_type T) : tree_type T × tree_type T := swap this t

/-- Embedding of `assign(t)`: the body of `operator=(const tree_type &t)`. -/
def assign (fuel : Nat) (h : heap T) (this : tree_type T) :
    Option (tree_type T) → result (heap T × tree_type T) Unit
  | none => .ok () (h, this)
  | some t =>
    (destroy fuel h this.mRoot).and_then (fun h1 => (h1, this)) (fun _ h1 =>
      (copy fuel h1 t.mRoot none).and_then (fun h2 => (h2, this)) (fun r h2 =>
        .ok () (h2, ⟨r⟩)))

/-- Embedding of `clear()`: `destroy(mRoot)`, then `mRoot = nullptr`. -/
def clear (fuel : Nat) (h : heap T) (t : tree_type T) : result (heap T × tree_type T) Unit :=
  (destroy fuel h t.mRoot).and_then (fun h1 => (h1, t)) (fun _ h1 => .ok () (h1, ⟨none⟩))

end tree_type

/-! ## Internal Garbage Collection -/

/-- Embedding of `garbage_collector<T>`: the lists `table_new` and `table_delete` of
pointers, front first. -/
structure garbage_collector where
  table_new : List Nat
  table_delete : List Nat
deriving DecidableEq, Repr

namespace garbage_collector

/-- Embedding of `garbage_collector()`: both lists empty. -/
def new : garbage_collector := ⟨[], []⟩

/-- Embedding of `add(ptr)`: `table_new.push_front(ptr)`. -/
def add (g : garbage_collector) (ptr : Nat) : garbage_collector :=
  { g with table_new := ptr :: g.table_new }

/-- Embedding of `remove(ptr)`: `table_delete.push_front(ptr)`. -/
def remove (g : garbage_collector) (ptr : Nat) : garbage_collector :=
  { g with table_delete := ptr :: g.table_delete }

/-- Embedding of `~garbage_collector()`: for every pointer of `table_delete`, front first,
`table_new.remove(ptr)` drops every entry equal to it; then `delete` is called on every
pointer left in `table_new`, front first. The result lists the pointers `delete` is
called on, in the order of the calls. -/
def dtor (g : garbage_collector) : List Nat :=
  g.table_delete.foldl (fun tn ptr => tn.filter (fun q => q ≠ ptr)) g.table_new

end garbage_collector

namespace garbage_collector

/-- The calls a client can make on a collector before it is destroyed. -/
inductive call where
  | add (ptr : Nat)
  | remove (ptr : Nat)
deriving DecidableEq, Repr

/-- The collector after one call, and the pointers `delete` was called on during the call:
neither `add` nor `remove` contains a `delete`. -/
def exec (g : garbage_collector) : call → garbage_collector × List Nat
  | .add ptr => (g.add ptr, [])
  | .remove ptr => (g.remove ptr, [])

/-- The collector after a sequence of calls, and the pointers `delete` was called on
during the calls. -/
def run (g : garbage_collector) : List call → garbage_collector × List Nat
  | [] => (g, [])
  | c :: cs => (((g.exec c).1.run cs).1, (g.exec c).2 ++ ((g.exec c).1.run cs).2)

/-- The pointers passed to `add` in a sequence of calls, in the order of the calls. -/
def added : List call → List Nat
  | [] => []
  | .add ptr :: cs => ptr :: added cs
  | .remove _ :: cs => added cs

/-- The pointers passed to `remove` in a sequence of calls, in the order of the calls. -/
def removed : List call → List Nat
  | [] => []
  | .add _ :: cs => removed cs
  | .remove ptr :: cs => ptr :: removed cs

end garbage_collector

/-! ## Trees as values

The shape a `tree_type` has in the free store is described by a value of `btree`: which
node sits at which address, with which payload and which children. -/

/-- A binary tree of nodes, each with its address in the free store and its payload. -/
inductive btree (T : Type) where
  | leaf
  | node (a : Nat) (d : T) (l r : btree T)
deriving DecidableEq, Repr

namespace btree

variable {T : Type}

/-- The pointer to the root node of the tree: `none` for the empty tree. -/
def ptr : btree T → Option Nat
  | leaf => none
  | node a _ _ _ => some a

/-- The addresses of the nodes: the root, then the left subtree, then the right subtree. -/
def addrs : btree T → List Nat
  | leaf => []
  | node a _ l r => a :: (l.addrs ++ r.addrs)

/-- The number of nodes. -/
def size : btree T → Nat
  | leaf => 0
  | node _ _ l r => 1 + l.size + r.size

/-- The number of nodes on the longest way down from the root. -/
def height : btree T → Nat
  | leaf => 0
  | node _ _ l r => 1 + max l.height r.height

/-- The tree without the addresses: the shape and the payloads. -/
def shape : btree T → btree T
  | leaf => leaf
  | node _ d l r => node 0 d l.shape r.shape

/-- The payloads in the order root, left subtree, right subtree. -/
def payloads : btree T → List T
  | leaf => []
  | node _ d l r => d :: (l.payloads ++ r.payloads)

/-- The tree with its nodes at the addresses `base`, `base + 1`, ... in the order root,
left subtree, right subtree: the addresses `copy` gives the nodes it creates in a store
of `base` cells. -/
def relabel (base : Nat) : btree T → btree T
  | leaf => leaf
  | node _ d l r => node base d (l.relabel (base + 1)) (r.relabel (base + 1 + l.size))

end btree

/-- One step on the way from a node up to the root: the parent node, given by its address,
its payload and its other subtree, and the side on which the way comes up. -/
inductive frame (T : Type) where
  | left (a : Nat) (d : T) (r : btree T)
  | right (a : Nat) (d : T) (l : btree T)
deriving DecidableEq, Repr

namespace frame

variable {T : Type}

/-- The address of the parent node. -/
def addr : frame T → Nat
  | left a _ _ => a
  | right a _ _ => a

/-- The other subtree of the parent node. -/
def sibling : frame T → btree T
  | left _ _ r => r
  | right _ _ l => l

/-- The parent node with the subtree `s` put in the open child slot. -/
def fill : frame T → btree T → btree T
  | left a d r, s => .node a d s r
  | right a d l, s => .node a d l s

/-- The cell of the parent node when its own parent link is `par` and the open child slot
holds the pointer `x`. -/
def cell : frame T → Option Nat → Option Nat → tree_node T
  | left _ d r, par, x => ⟨par, x, r.ptr, d⟩
  | right _ d l, par, x => ⟨par, l.ptr, x, d⟩

/-- The addresses of the parent node and of its other subtree. -/
def addrs (f : frame T) : List Nat := f.addr :: f.sibling.addrs

end frame

/-- The way from a node up to the root of its tree, the parent of the node first. -/
abbrev path (T : Type) := List (frame T)

namespace path

variable {T : Type}

/-- The tree around the subtree `s`: each step of the way puts its parent node on top. -/
def plug : path T → btree T → btree T
  | [], s => s
  | f :: rest, s => plug rest (f.fill s)

/-- The parent link of the node the way starts from, when the root of the whole tree has
the parent link `par`. -/
def parent : path T → Option Nat → Option Nat
  | [], par => par
  | f :: _, _ => some f.addr

/-- The addresses of all nodes on the way and in their other subtrees. -/
def addrs : path T → List Nat
  | [] => []
  | f :: rest => f.addrs ++ addrs rest

end path

/-- The store `h` holds the tree `tr` below a parent link `par`: every node of `tr` is alive
at its address, with its payload, with the pointers to its children, and with the parent
link `par` at the root and the address of the parent elsewhere. -/
def owns {T : Type} (h : heap T) : Option Nat → btree T → Prop
  | _, .leaf => True
  | par, .node a d l r =>
    h.read a = some ⟨par, l.ptr, r.ptr, d⟩ ∧ owns h (some a) l ∧ owns h (some a) r

/-- The store `h` holds the nodes on the way `ctx`, the child slot at the start of the way
holding the pointer `x`, and their other subtrees. -/
def owns_path {T : Type} (h : heap T) (par : Option Nat) : path T → Option Nat → Prop
  | [], _ => True
  | f :: rest, x =>
    h.read f.addr = some (f.cell (path.parent rest par) x) ∧
    owns h (some f.addr) f.sibling ∧ owns_path h par rest (some f.addr)

/-- The tree object `t` is the tree `tr` in the store `h`: `mRoot` points to the root of
`tr`, the store holds `tr` with a null parent link at the root, and no address occurs
twice in `tr`. -/
def tree_type.represents {T : Type} (h : heap T) (t : tree_type T) (tr : btree T) : Prop :=
  t.mRoot = tr.ptr ∧ owns h none tr ∧ tr.addrs.Nodup

namespace tree_type

variable {T : Type}

/-- Embedding of `it.data() = v`, a write to the payload through the reference that
`data()` returns: throws `E000E` on an unusable handle, else stores `v` in `mData->data`. -/
def iterator.write (h : heap T) (it : iterator) (v : T) : result (heap T) Unit :=
  if !it.usable then .throw .E000E h
  else result.of_option (do
    let p ← it.mData
    let n ← h.read p
    pure ((), h.set p (some { n with data := v })))

/-- The calls that change the payloads or the structure of a tree. -/
inductive call (T : Type) where
  | write (it : iterator) (v : T)
  | insert_root_left (it : iterator) (v : T)
  | insert_root_right (it : iterator) (v : T)
  | insert_left_left (it : iterator) (v : T)
  | insert_left_right (it : iterator) (v : T)
  | insert_right_left (it : iterator) (v : T)
  | insert_right_right (it : iterator) (v : T)
  | emplace_root_left (it : iterator) (v : T)
  | emplace_root_right (it : iterator) (v : T)
  | emplace_left_left (it : iterator) (v : T)
  | emplace_left_right (it : iterator) (v : T)
  | emplace_right_left (it : iterator) (v : T)
  | emplace_right_right (it : iterator) (v : T)
  | erase (it : iterator)
  | erase_left (it : iterator)
  | erase_right (it : iterator)
  | reserve_left (it : iterator)
  | reserve_right (it : iterator)
  | merge (it : iterator) (tree : tree_type T)
  | clear

/-- The handle a call is made with. -/
def call.handle : call T → iterator
  | .write it _ => it
  | .insert_root_left it _ => it
  | .insert_root_right it _ => it
  | .insert_left_left it _ => it
  | .insert_left_right it _ => it
  | .insert_right_left it _ => it
  | .insert_right_right it _ => it
  | .emplace_root_left it _ => it
  | .emplace_root_right it _ => it
  | .emplace_left_left it _ => it
  | .emplace_left_right it _ => it
  | .emplace_right_left it _ => it
  | .emplace_right_right it _ => it
  | .erase it => it
  | .erase_left it => it
  | .erase_right it => it
  | .reserve_left it => it
  | .reserve_right it => it
  | .merge it _ => it
  | .clear => ⟨none⟩

/-- The store and the tree after one call, whether it returns or throws; `none` after a
fault or a divergence. -/
def exec (fuel : Nat) (h : heap T) (t : tree_type T) : call T → Option (heap T × tree_type T)
  | .write it v => ((iterator.write h it v).and_then (fun h1 => (h1, t))
      (fun _ h1 => (.ok () (h1, t) : result (heap T × tree_type T) Unit))).state
  | .insert_root_left it v => (insert_root_left h t it v).state
  | .insert_root_right it v => (insert_root_right h t it v).state
  | .insert_left_left it v => (insert_left_left h t it v).state
  | .insert_left_right it v => (insert_left_right h t it v).state
  | .insert_right_left it v => (insert_right_left h t it v).state
  | .insert_right_right it v => (insert_right_right h t it v).state
  | .emplace_root_left it v => (emplace_root_left h t it v).state
  | .emplace_root_right it v => (emplace_root_right h t it v).state
  | .emplace_left_left it v => (emplace_left_left h t it v).state
  | .emplace_left_right it v => (emplace_left_right h t it v).state
  | .emplace_right_left it v => (emplace_right_left h t it v).state
  | .emplace_right_right it v => (emplace_right_right h t it v).state
  | .erase it => (erase fuel h t it).state
  | .erase_left it => (erase_left fuel h t it).state
  | .erase_right it => (erase_right fuel h t it).state
  | .reserve_left it => (reserve_left fuel h t it).state
  | .reserve_right it => (reserve_right fuel h t it).state
  | .merge it tree => (merge fuel h t it tree).state
  | .clear => (clear fuel h t).state

/-- The store and the tree after a sequence of calls. -/
def run (fuel : Nat) : heap T → tree_type T → List (call T) → Option (heap T × tree_type T)
  | h, t, [] => some (h, t)
  | h, t, c :: cs => (exec fuel h t c).bind (fun s => run fuel s.1 s.2 cs)

/-- The store holds the tree `tr`: every node of `tr` is a live cell with the payload and
the child links of `tr`; nothing is asked of the parent links. -/
def holds (h : heap T) : btree T → Prop
  | .leaf => True
  | .node a d l r =>
    (∃ par, h.read a = some ⟨par, l.ptr, r.ptr, d⟩) ∧ holds h l ∧ holds h r

/-- The pointer `x` is null or points into the set `R` of addresses. -/
def ptr_in (R : Nat → Prop) (x : Option Nat) : Prop := ∀ a, x = some a → R a

/-- The set `R` of addresses is closed in the store `h`: it contains every address that is
not allocated yet, and the links of every live node at an address of `R` are null or point
into `R`. -/
def closed_region (R : Nat → Prop) (h : heap T) : Prop :=
  (∀ a, h.length ≤ a → R a) ∧
  ∀ a n, R a → h.read a = some n → ptr_in R n.root ∧ ptr_in R n.left ∧ ptr_in R n.right

/-- The state `s` reached from the store `h` stays inside the set `R`: `R` is closed in
the new store, `mRoot` is null or points into `R`, and every cell outside `R` is as in
`h`. -/
def confined (R : Nat → Prop) (h : heap T) (s : heap T × tree_type T) : Prop :=
  closed_region R s.1 ∧ ptr_in R s.2.mRoot ∧ ∀ a, ¬ R a → heap.read s.1 a = heap.read h a

/-- Every link of a live node of the store is null or the address of a cell that was
allocated (live or deleted). -/
def links_allocated (h : heap T) : Prop :=
  ∀ a n, h.read a = some n →
    ptr_in (fun x => x < h.length) n.root ∧ ptr_in (fun x => x < h.length) n.left ∧
      ptr_in (fun x => x < h.length) n.right

end tree_type

end cs

/-! # Theorems -/

namespace cs

namespace stack_type

variable {T : Type} {m_size : Nat}

theorem size_eq (s : stack_type T m_size) : s.size = s.m_data.length := by
  simp [size, m_current, m_start]

theorem empty_iff (s : stack_type T m_size) : s.empty = true ↔ s.size = 0 := by
  simp [empty, size, m_current, m_start]

theorem full_iff (s : stack_type T m_size) : s.full = true ↔ s.size = m_size := by
  simp [full, size, m_current, m_start]

theorem load_snoc (l : List T) (v : T) :
    (⟨l ++ [v]⟩ : stack_type T m_size).load ((⟨l ++ [v]⟩ : stack_type T m_size).m_current - 1)
      = some v := by
  have h : ¬ ((l.length : Int) + 1 - 1 < 0) := by omega
  simp [load, m_current, h]

theorem empty_snoc (l : List T) (v : T) : (⟨l ++ [v]⟩ : stack_type T m_size).empty = false := by
  simp [empty, m_current, m_start]
  omega

theorem top_snoc (l : List T) (v : T) :
    (⟨l ++ [v]⟩ : stack_type T m_size).top = .ok v ⟨l ++ [v]⟩ := by
  rw [top, empty_snoc, load_snoc]
  simp

theorem pop_snoc (l : List T) (v : T) :
    (⟨l ++ [v]⟩ : stack_type T m_size).pop = .ok v ⟨l⟩ := by
  rw [pop, empty_snoc, load_snoc]
  simp

theorem pop_no_return_snoc (l : List T) (v : T) :
    (⟨l ++ [v]⟩ : stack_type T m_size).pop_no_return = .ok () ⟨l⟩ := by
  rw [pop_no_return, empty_snoc]
  simp

theorem push_of_lt (s : stack_type T m_size) (v : T) (h : s.size < m_size) :
    s.push v = .ok () ⟨s.m_data ++ [v]⟩ := by
  rw [size_eq] at h
  have h1 : ¬ ((s.m_data.length : Int) = (m_size : Int)) := by omega
  have h2 : (s.m_data.length : Int) < (m_size : Int) := by omega
  simp [push, full, m_current, m_start, h1, h2]

theorem push_of_full (s : stack_type T m_size) (v : T) (h : s.size = m_size) :
    s.push v = .throw .E000I s := by
  rw [size_eq] at h
  simp [push, full, m_current, m_start, h]

theorem push_all_ok (vs : List T) :
    ∀ l : List T, l.length + vs.length ≤ m_size →
      (⟨l⟩ : stack_type T m_size).push_all vs = .ok () ⟨l ++ vs⟩ := by
  induction vs with
  | nil => intro l _; simp [push_all]
  | cons v vs ih =>
    intro l h
    have hlt : (⟨l⟩ : stack_type T m_size).size < m_size := by
      rw [size_eq]; simp at h ⊢; omega
    rw [push_all, push_of_lt _ _ hlt]
    simp only
    rw [ih (l ++ [v]) (by simp at h ⊢; omega)]
    simp

theorem pop_n_ok (vs : List T) :
    ∀ l : List T, (⟨l ++ vs.reverse⟩ : stack_type T m_size).pop_n vs.length = .ok vs ⟨l⟩ := by
  induction vs with
  | nil => intro l; simp [pop_n]
  | cons v vs ih =>
    intro l
    have e : l ++ (v :: vs).reverse = (l ++ vs.reverse) ++ [v] := by simp
    rw [e, List.length_cons, pop_n, pop_snoc]
    simp only
    rw [ih l]

/-- C1 (stack LIFO order): pushing `v1, ..., vn` (with `n ≤ m_size`) onto a freshly
constructed stack succeeds, and `n` calls of `pop()` then all succeed and return
`vn, ..., v1` in that order, leaving the stack empty with `size() = 0`. -/
theorem stack_lifo_order (vs : List T) (h : vs.length ≤ m_size) :
    ∃ s s1 : stack_type T m_size,
      (new : stack_type T m_size).push_all vs = .ok () s ∧
      s.pop_n vs.length = .ok vs.reverse s1 ∧
      s1.size = 0 ∧ s1.empty = true := by
  refine ⟨⟨vs⟩, ⟨[]⟩, ?_, ?_, ?_, ?_⟩
  · have := @push_all_ok T m_size vs [] (by simpa using h)
    simpa [new] using this
  · have := @pop_n_ok T m_size vs.reverse []
    simpa using this
  · simp [size_eq]
  · simp [empty, m_current, m_start]

/-- Witness of C1 on the values 5, 6, 7 and a stack of capacity 4. -/
theorem stack_lifo_order_witness :
    [5, 6, 7].length ≤ 4 ∧
    ∃ s s1 : stack_type Nat 4,
      (new : stack_type Nat 4).push_all [5, 6, 7] = .ok () s ∧
      s.pop_n [5, 6, 7].length = .ok [5, 6, 7].reverse s1 ∧
      s1.size = 0 ∧ s1.empty = true :=
  ⟨by decide, stack_lifo_order [5, 6, 7] (by decide)⟩

theorem top_nil : (⟨[]⟩ : stack_type T m_size).top = .throw .E000H ⟨[]⟩ := by
  simp [top, empty, m_current, m_start]

theorem pop_nil : (⟨[]⟩ : stack_type T m_size).pop = .throw .E000H ⟨[]⟩ := by
  simp [pop, empty, m_current, m_start]

theorem pop_no_return_nil :
    (⟨[]⟩ : stack_type T m_size).pop_no_return = .throw .E000H ⟨[]⟩ := by
  simp [pop_no_return, empty, m_current, m_start]

theorem empty_nil : (⟨[]⟩ : stack_type T m_size).empty = true := by
  simp [empty, m_current, m_start]

theorem push_cases (s : stack_type T m_size) (v : T) :
    (s.size = m_size ∧ s.push v = .throw .E000I s) ∨
    (s.size < m_size ∧ s.push v = .ok () ⟨s.m_data ++ [v]⟩) ∨
    (m_size < s.size ∧ s.push v = .fault) := by
  rcases Nat.lt_trichotomy s.size m_size with h | h | h
  · exact Or.inr (Or.inl ⟨h, push_of_lt s v h⟩)
  · exact Or.inl ⟨h, push_of_full s v h⟩
  · refine Or.inr (Or.inr ⟨h, ?_⟩)
    rw [size_eq] at h
    have h1 : ¬ ((s.m_data.length : Int) = (m_size : Int)) := by omega
    have h2 : ¬ (s.m_data.length : Int) < (m_size : Int) := by omega
    simp [push, full, m_current, m_start, h1, h2]

/-- C2 (push and the capacity): `push` throws, with code `E000I`, exactly when the stack is
full, that is when `size() = m_size`, and the stack is then unchanged; when `push` returns,
`size()` has grown by one, `top()` is the pushed value and the elements below are the
earlier ones; `push` returns whenever `size() < m_size`; and pushing `m_size + 1` values
onto a fresh stack succeeds `m_size` times and throws `E000I` on the last push. -/
theorem push_capacity_exceeded (s : stack_type T m_size) (v : T) :
    (s.push v = .throw .E000I s ↔ s.full = true) ∧
    (s.full = true ↔ s.size = m_size) ∧
    (∀ e s1, s.push v = .throw e s1 → e = .E000I ∧ s1 = s ∧ s.full = true) ∧
    (∀ u s1, s.push v = .ok u s1 →
      s1.size = s.size + 1 ∧ s1.top = .ok v s1 ∧ s1.m_data = s.m_data ++ [v] ∧
      ∀ i, i < s.size → s1.m_data[i]? = s.m_data[i]?) ∧
    (s.size < m_size → ∃ s1, s.push v = .ok () s1) ∧
    (∀ vs : List T, vs.length = m_size →
      (new : stack_type T m_size).push_all vs = .ok () ⟨vs⟩ ∧
      (⟨vs⟩ : stack_type T m_size).push v = .throw .E000I ⟨vs⟩ ∧
      (new : stack_type T m_size).push_all (vs ++ [v]) = .throw .E000I ⟨vs⟩) := by
  have hf := full_iff s
  refine ⟨?_, hf, ?_, ?_, ?_, ?_⟩
  · rcases push_cases s v with ⟨h, e⟩ | ⟨h, e⟩ | ⟨h, e⟩
    · simp [e, hf, h]
    · rw [e, hf]; simp; omega
    · rw [e, hf]; simp; omega
  · intro e s1 h
    rcases push_cases s v with ⟨h1, e1⟩ | ⟨h1, e1⟩ | ⟨h1, e1⟩
    · rw [e1] at h
      injection h with h2 h3
      exact ⟨h2.symm, h3.symm, hf.2 h1⟩
    · rw [e1] at h; cases h
    · rw [e1] at h; cases h
  · intro u s1 h
    rcases push_cases s v with ⟨h1, e1⟩ | ⟨h1, e1⟩ | ⟨h1, e1⟩
    · rw [e1] at h; cases h
    · rw [e1] at h
      injection h with h2 h3
      subst h3
      refine ⟨by simp [size_eq], top_snoc _ _, rfl, ?_⟩
      intro i hi
      rw [size_eq] at hi
      simp [List.getElem?_append_left hi]
    · rw [e1] at h; cases h
  · intro h
    exact ⟨_, push_of_lt s v h⟩
  · intro vs hvs
    have h1 : (new : stack_type T m_size).push_all vs = .ok () ⟨vs⟩ := by
      have := @push_all_ok T m_size vs [] (by simp [hvs])
      simpa [new] using this
    have h2 : (⟨vs⟩ : stack_type T m_size).push v = .throw .E000I ⟨vs⟩ :=
      push_of_full _ _ (by simp [size_eq, hvs])
    refine ⟨h1, h2, ?_⟩
    have h3 : ∀ (ws : List T) (l : List T), l.length + ws.length = m_size →
        (⟨l⟩ : stack_type T m_size).push_all (ws ++ [v]) = .throw .E000I ⟨l ++ ws⟩ := by
      intro ws
      induction ws with
      | nil =>
        intro l hl
        have : (⟨l⟩ : stack_type T m_size).push v = .throw .E000I ⟨l⟩ :=
          push_of_full _ _ (by simpa [size_eq] using hl)
        simp [push_all, this]
      | cons w ws ih =>
        intro l hl
        have hlt : (⟨l⟩ : stack_type T m_size).size < m_size := by
          rw [size_eq]; simp at hl ⊢; omega
        rw [List.cons_append, push_all, push_of_lt _ _ hlt]
        simp only
        rw [ih (l ++ [w]) (by simp at hl ⊢; omega)]
        simp
    have := h3 vs [] (by simp [hvs])
    simpa [new] using this

/-- Witness of C2 on a stack of capacity 2: the third push throws and leaves the two
elements; a push on the one-element stack returns. -/
theorem push_capacity_exceeded_witness :
    ((⟨[1, 2]⟩ : stack_type Nat 2).push 3 = .throw .E000I ⟨[1, 2]⟩) ∧
    ((new : stack_type Nat 2).push_all ([1, 2] ++ [3]) = .throw .E000I ⟨[1, 2]⟩) ∧
    (∃ s1, (⟨[1]⟩ : stack_type Nat 2).push 3 = .ok () s1) :=
  ⟨(push_capacity_exceeded (⟨[1, 2]⟩ : stack_type Nat 2) 3).1.2 (by decide),
   ((push_capacity_exceeded (⟨[1, 2]⟩ : stack_type Nat 2) 3).2.2.2.2.2 [1, 2] (by decide)).2.2,
   (push_capacity_exceeded (⟨[1]⟩ : stack_type Nat 2) 3).2.2.2.2.1 (by decide)⟩

/-- C3 (pop, pop_no_return and top on the empty stack): each of them throws, with code
`E000H`, exactly when the stack is empty, and the stack is then unchanged; on a non-empty
stack `top` returns the top element and leaves the stack as it is, and `pop` and
`pop_no_return` leave the same stack, the previous one without its top element and with
`size()` reduced by one, `pop` returning the removed element. -/
theorem pop_top_empty_container (s : stack_type T m_size) :
    (s.top = .throw .E000H s ↔ s.empty = true) ∧
    (s.pop = .throw .E000H s ↔ s.empty = true) ∧
    (s.pop_no_return = .throw .E000H s ↔ s.empty = true) ∧
    (∀ e s1, s.top = .throw e s1 ∨ s.pop = .throw e s1 ∨ s.pop_no_return = .throw e s1 →
      e = .E000H ∧ s1 = s ∧ s.empty = true) ∧
    (s.empty = false → ∃ (l : List T) (v : T),
      s.m_data = l ++ [v] ∧
      s.top = .ok v s ∧
      s.pop = .ok v ⟨l⟩ ∧
      s.pop_no_return = .ok () ⟨l⟩ ∧
      (⟨l⟩ : stack_type T m_size).size + 1 = s.size) := by
  obtain ⟨l⟩ := s
  rcases List.eq_nil_or_concat l with rfl | ⟨l0, v, hl⟩
  case mk.inr.intro.intro =>
    rw [List.concat_eq_append] at hl
    subst hl
    refine ⟨?_, ?_, ?_, ?_, ?_⟩
    · simp [top_snoc, empty_snoc]
    · simp [pop_snoc, empty_snoc]
    · simp [pop_no_return_snoc, empty_snoc]
    · intro e s1 h
      rw [top_snoc, pop_snoc, pop_no_return_snoc] at h
      rcases h with h | h | h <;> cases h
    · intro _
      exact ⟨l0, v, rfl, top_snoc _ _, pop_snoc _ _, pop_no_return_snoc _ _, by simp [size_eq]⟩
  · refine ⟨?_, ?_, ?_, ?_, ?_⟩
    · simp [top_nil, empty_nil]
    · simp [pop_nil, empty_nil]
    · simp [pop_no_return_nil, empty_nil]
    · intro e s1 h
      rw [top_nil, pop_nil, pop_no_return_nil] at h
      have h1 : (result.throw cov.error.E000H (⟨[]⟩ : stack_type T m_size) : result _ T)
          = .throw e s1 ∨
          (result.throw cov.error.E000H (⟨[]⟩ : stack_type T m_size) : result _ Unit)
          = .throw e s1 := by
        rcases h with h | h | h
        · exact Or.inl h
        · exact Or.inl h
        · exact Or.inr h
      rcases h1 with h | h <;>
      · injection h with h2 h3
        exact ⟨h2.symm, h3.symm, empty_nil⟩
    · intro h
      rw [empty_nil] at h
      cases h

/-- Witness of C3: on the empty stack the three calls throw, and on the stack holding
1, 2 the top element 2 is returned or removed. -/
theorem pop_top_empty_container_witness :
    ((⟨[]⟩ : stack_type Nat 4).pop = .throw .E000H ⟨[]⟩) ∧
    (∃ (l : List Nat) (v : Nat),
      (⟨[1, 2]⟩ : stack_type Nat 4).m_data = l ++ [v] ∧
      (⟨[1, 2]⟩ : stack_type Nat 4).top = .ok v ⟨[1, 2]⟩ ∧
      (⟨[1, 2]⟩ : stack_type Nat 4).pop = .ok v ⟨l⟩ ∧
      (⟨[1, 2]⟩ : stack_type Nat 4).pop_no_return = .ok () ⟨l⟩ ∧
      (⟨l⟩ : stack_type Nat 4).size + 1 = (⟨[1, 2]⟩ : stack_type Nat 4).size) :=
  ⟨(pop_top_empty_container (⟨[]⟩ : stack_type Nat 4)).2.1.2 (by decide),
   (pop_top_empty_container (⟨[1, 2]⟩ : stack_type Nat 4)).2.2.2.2 (by decide)⟩

theorem exec_size_le (s : stack_type T m_size) (c : call T) (h : s.size ≤ m_size) :
    ∃ s1, s.exec c = some s1 ∧ s1.size ≤ m_size := by
  cases c with
  | push v =>
    rcases push_cases s v with ⟨_, e⟩ | ⟨h1, e⟩ | ⟨h1, _⟩
    · exact ⟨s, by simp [exec, e, result.state], h⟩
    · refine ⟨⟨s.m_data ++ [v]⟩, by simp [exec, e, result.state], ?_⟩
      rw [size_eq] at h1 ⊢
      simp
      omega
    · omega
  | pop =>
    obtain ⟨l⟩ := s
    rcases List.eq_nil_or_concat l with rfl | ⟨l0, v, hl⟩
    · exact ⟨⟨[]⟩, by simp [exec, pop_nil, result.state], h⟩
    · rw [List.concat_eq_append] at hl
      subst hl
      refine ⟨⟨l0⟩, by simp [exec, pop_snoc, result.state], ?_⟩
      rw [size_eq] at h ⊢
      simp at h ⊢
      omega
  | pop_no_return =>
    obtain ⟨l⟩ := s
    rcases List.eq_nil_or_concat l with rfl | ⟨l0, v, hl⟩
    · exact ⟨⟨[]⟩, by simp [exec, pop_no_return_nil, result.state], h⟩
    · rw [List.concat_eq_append] at hl
      subst hl
      refine ⟨⟨l0⟩, by simp [exec, pop_no_return_snoc, result.state], ?_⟩
      rw [size_eq] at h ⊢
      simp at h ⊢
      omega
  | top =>
    obtain ⟨l⟩ := s
    rcases List.eq_nil_or_concat l with rfl | ⟨l0, v, hl⟩
    · exact ⟨⟨[]⟩, by simp [exec, top_nil, result.state], h⟩
    · rw [List.concat_eq_append] at hl
      subst hl
      exact ⟨⟨l0 ++ [v]⟩, by simp [exec, top_snoc, result.state], h⟩

theorem run_size_le (calls : List (call T)) :
    ∀ s : stack_type T m_size, s.size ≤ m_size →
      ∃ s1, s.run calls = some s1 ∧ s1.size ≤ m_size := by
  induction calls with
  | nil => intro s h; exact ⟨s, rfl, h⟩
  | cons c cs ih =>
    intro s h
    obtain ⟨s1, e1, h1⟩ := exec_size_le s c h
    obtain ⟨s2, e2, h2⟩ := ih s1 h1
    exact ⟨s2, by simp [run, e1, e2], h2⟩

/-- C4 (stack cursor invariant): after any sequence of `push`, `pop`, `pop_no_return` and
`top` calls on a freshly constructed stack, calls that throw included, no call has hit a
fault and the offset `m_current - m_start`, which is `size()`, lies between 0 and `m_size`;
`empty()` holds exactly when `size() = 0` and `full()` exactly when `size() = m_size`. -/
theorem stack_cursor_invariant (calls : List (call T)) :
    ∃ s : stack_type T m_size,
      (new : stack_type T m_size).run calls = some s ∧
      0 ≤ s.m_current - s.m_start ∧ s.m_current - s.m_start ≤ (m_size : Int) ∧
      ((s.size : Int) = s.m_current - s.m_start) ∧ s.size ≤ m_size ∧
      (s.empty = true ↔ s.size = 0) ∧ (s.full = true ↔ s.size = m_size) := by
  obtain ⟨s, e, h⟩ := run_size_le calls (new : stack_type T m_size) (by simp [size_eq, new])
  refine ⟨s, e, ?_, ?_, ?_, h, empty_iff s, full_iff s⟩
  · simp [m_current, m_start]
  · rw [size_eq] at h
    simp [m_current, m_start]
    omega
  · simp [size_eq, m_current, m_start]

theorem walk_down (vs : List T) :
    ∀ j fuel : Nat, j ≤ vs.length → j ≤ fuel →
      ∃ its, (⟨vs⟩ : stack_type T m_size).walk fuel ⟨(j : Int) - 1⟩ = some its ∧
        its.map (iterator.deref (⟨vs⟩ : stack_type T m_size)) = (vs.take j).reverse.map some := by
  intro j
  induction j with
  | zero =>
    intro fuel _ _
    refine ⟨[], ?_, by simp⟩
    cases fuel <;> simp [walk, end_, m_start]
  | succ j ih =>
    intro fuel hj hf
    obtain ⟨fuel, rfl⟩ : ∃ k, fuel = k + 1 := ⟨fuel - 1, by omega⟩
    obtain ⟨its, e, hm⟩ := ih fuel (by omega) (by omega)
    have hne : (⟨((j + 1 : Nat) : Int) - 1⟩ : iterator) ≠ (⟨vs⟩ : stack_type T m_size).end_ := by
      intro hc
      have := congrArg iterator.m_ptr hc
      simp only [end_, m_start] at this
      omega
    have hnext : (⟨((j + 1 : Nat) : Int) - 1⟩ : iterator).next = ⟨(j : Int) - 1⟩ := by
      simp [iterator.next]
    refine ⟨⟨((j + 1 : Nat) : Int) - 1⟩ :: its, ?_, ?_⟩
    · rw [walk, if_neg hne, hnext, e]
      rfl
    · have hlt : j < vs.length := by omega
      have hd : iterator.deref (⟨vs⟩ : stack_type T m_size) ⟨((j + 1 : Nat) : Int) - 1⟩
          = some vs[j] := by
        have h0 : ¬ (((j + 1 : Nat) : Int) - 1 < 0) := by omega
        have h1 : (((j + 1 : Nat) : Int) - 1).toNat = j := by omega
        simp only [iterator.deref, load, if_neg h0, h1]
        exact List.getElem?_eq_getElem hlt
      have ht : vs.take (j + 1) = vs.take j ++ [vs[j]] := by
        rw [List.take_succ, List.getElem?_eq_getElem hlt]
        rfl
      rw [List.map_cons, hd, hm, ht]
      simp only [List.reverse_append, List.reverse_singleton, List.map_append, List.map_cons,
        List.map_nil, List.singleton_append]

/-- C5 (stack iteration order): on a stack that holds `v1, ..., vn`, pushed in that order,
the loop from `begin()` with `operator++` reaches `end()` (with any fuel of at least `n`
rounds) after visiting exactly `n` iterators, whose elements are `vn, ..., v1` in that
order; such a stack is what pushing `v1, ..., vn` onto a fresh stack gives when
`n ≤ m_size`; and on the empty stack `begin()` equals `end()`. -/
theorem stack_iteration_order (vs : List T) (k : Nat) :
    (∃ its, (⟨vs⟩ : stack_type T m_size).walk (vs.length + k)
        (⟨vs⟩ : stack_type T m_size).begin = some its ∧
      its.length = vs.length ∧
      its.map (iterator.deref (⟨vs⟩ : stack_type T m_size)) = vs.reverse.map some) ∧
    (vs.length ≤ m_size → (new : stack_type T m_size).push_all vs = .ok () ⟨vs⟩) ∧
    ((new : stack_type T m_size).begin = (new : stack_type T m_size).end_) := by
  refine ⟨?_, ?_, ?_⟩
  · obtain ⟨its, e, hm⟩ := @walk_down T m_size vs vs.length (vs.length + k)
      (le_refl _) (by omega)
    refine ⟨its, by simpa [begin, m_current] using e, ?_, by simpa using hm⟩
    have := congrArg List.length hm
    simpa using this
  · intro h
    have := @push_all_ok T m_size vs [] (by simpa using h)
    simpa [new] using this
  · simp [begin, end_, new, m_current, m_start]

/-- Witness of C5 on the stack holding 1, 2, 3: pushing them succeeds. -/
theorem stack_iteration_order_witness :
    (new : stack_type Nat 3).push_all [1, 2, 3] = .ok () ⟨[1, 2, 3]⟩ :=
  (@stack_iteration_order Nat 3 [1, 2, 3] 0).2.1 (by decide)

end stack_type

namespace allocator_type

variable {T : Type} {blck_size : Nat}

theorem alloc_pos (a : allocator_type T blck_size) (v : T) (h : 0 < a.mOffset) :
    (a.alloc v).2.mOffset = a.mOffset - 1 ∧
    (a.alloc v).2.mAlloc.allocated = a.mAlloc.allocated ∧
    (a.alloc v).2.mAlloc.deallocated = a.mAlloc.deallocated ∧
    (a.alloc v).1 = a.mPool (a.mOffset - 1) := by
  simp [alloc, h, counting_allocator.construct]

theorem alloc_zero (a : allocator_type T blck_size) (v : T) (h : a.mOffset = 0) :
    (a.alloc v).2.mOffset = 0 ∧
    (a.alloc v).2.mAlloc.allocated = a.mAlloc.allocated + 1 ∧
    (a.alloc v).2.mAlloc.deallocated = a.mAlloc.deallocated ∧
    (a.alloc v).1 = a.mAlloc.allocated := by
  simp [alloc, h, counting_allocator.construct, counting_allocator.allocate]

theorem free_lt (a : allocator_type T blck_size) (ptr : Nat) (h : a.mOffset < blck_size) :
    (a.free ptr).mOffset = a.mOffset + 1 ∧
    (a.free ptr).mAlloc.allocated = a.mAlloc.allocated ∧
    (a.free ptr).mAlloc.deallocated = a.mAlloc.deallocated ∧
    (a.free ptr).mPool a.mOffset = ptr := by
  simp [free, h, counting_allocator.destroy]

theorem free_ge (a : allocator_type T blck_size) (ptr : Nat) (h : blck_size ≤ a.mOffset) :
    (a.free ptr).mOffset = a.mOffset ∧
    (a.free ptr).mAlloc.allocated = a.mAlloc.allocated ∧
    (a.free ptr).mAlloc.deallocated = a.mAlloc.deallocated + 1 ∧
    (a.free ptr).mPool = a.mPool := by
  have h1 : ¬ a.mOffset < blck_size := by omega
  simp [free, h1, counting_allocator.destroy, counting_allocator.deallocate]

theorem ctor_loop_inv (fuel : Nat) :
    ∀ a : allocator_type T blck_size, a.mOffset ≤ blck_size →
      (ctor_loop fuel a).mOffset ≤ blck_size ∧
      (ctor_loop fuel a).mAlloc.net - ((ctor_loop fuel a).mOffset : Int)
        = a.mAlloc.net - (a.mOffset : Int) := by
  induction fuel with
  | zero => intro a h; exact ⟨h, rfl⟩
  | succ fuel ih =>
    intro a h
    by_cases hc : 2 * a.mOffset < blck_size
    · rw [ctor_loop, if_pos hc]
      obtain ⟨h1, h2⟩ := ih
        { mPool := Function.update a.mPool a.mOffset a.mAlloc.allocate.1
          mAlloc := a.mAlloc.allocate.2
          mOffset := a.mOffset + 1 } (by simp only; omega)
      refine ⟨h1, ?_⟩
      rw [h2]
      simp [counting_allocator.net, counting_allocator.allocate]
      omega
    · rw [ctor_loop, if_neg hc]
      exact ⟨h, rfl⟩

theorem new_inv :
    (new : allocator_type T blck_size).mOffset ≤ blck_size ∧
    (new : allocator_type T blck_size).mAlloc.net = ((new : allocator_type T blck_size).mOffset : Int) := by
  obtain ⟨h1, h2⟩ := @ctor_loop_inv T blck_size blck_size
    ⟨fun _ => 0, counting_allocator.new, 0⟩ (Nat.zero_le _)
  refine ⟨h1, ?_⟩
  have h0 : (counting_allocator.new : counting_allocator T).net = 0 := by
    simp [counting_allocator.net, counting_allocator.new]
  rw [h0] at h2
  simp only [new]
  push_cast at h2
  omega

theorem exec_mOffset_le (a : allocator_type T blck_size) (c : call T)
    (h : a.mOffset ≤ blck_size) : (a.exec c).mOffset ≤ blck_size := by
  cases c with
  | alloc v =>
    rcases Nat.eq_zero_or_pos a.mOffset with h0 | h0
    · simp [exec, (alloc_zero a v h0).1]
    · simp only [exec, (alloc_pos a v h0).1]; omega
  | free ptr =>
    rcases Nat.lt_or_ge a.mOffset blck_size with h0 | h0
    · simp only [exec, (free_lt a ptr h0).1]; omega
    · simp only [exec, (free_ge a ptr h0).1]; omega

theorem run_mOffset_le (calls : List (call T)) :
    ∀ a : allocator_type T blck_size, a.mOffset ≤ blck_size →
      (a.run calls).mOffset ≤ blck_size := by
  induction calls with
  | nil => intro a h; exact h
  | cons c cs ih => intro a h; exact ih _ (exec_mOffset_le a c h)

theorem client.balanced_new : (client.new : client T blck_size).balanced := by
  obtain ⟨h1, h2⟩ := @new_inv T blck_size
  exact ⟨h1, by simp [client.new, h2]⟩

theorem client.step_balanced (c c1 : client T blck_size) (x : call T)
    (hb : c.balanced) (hs : c.step x = some c1) :
    c1.balanced ∧
    (c1.pool.mAlloc.net ≤ c.pool.mAlloc.net ∨ c1.pool.mAlloc.net = (c1.live.length : Int)) := by
  obtain ⟨hb1, hb2⟩ := hb
  cases x with
  | alloc v =>
    simp only [client.step, Option.some.injEq] at hs
    subst hs
    simp only [client.balanced, counting_allocator.net, List.length_cons] at hb2 ⊢
    rcases Nat.eq_zero_or_pos c.pool.mOffset with h0 | h0
    · obtain ⟨e1, e2, e3, _⟩ := alloc_zero c.pool v h0
      rw [e1, e2, e3]
      refine ⟨⟨Nat.zero_le _, ?_⟩, Or.inr ?_⟩ <;> push_cast <;> omega
    · obtain ⟨e1, e2, e3, _⟩ := alloc_pos c.pool v h0
      rw [e1, e2, e3]
      refine ⟨⟨by omega, ?_⟩, Or.inl (le_refl _)⟩
      push_cast
      omega
  | free ptr =>
    simp only [client.step] at hs
    by_cases hm : ptr ∈ c.live
    · rw [if_pos hm] at hs
      simp only [Option.some.injEq] at hs
      subst hs
      have hl : (c.live.erase ptr).length + 1 = c.live.length := by
        rw [List.length_erase_of_mem hm]
        have : 0 < c.live.length := List.length_pos_of_mem hm
        omega
      simp only [client.balanced, counting_allocator.net] at hb2 ⊢
      rcases Nat.lt_or_ge c.pool.mOffset blck_size with h0 | h0
      · obtain ⟨e1, e2, e3, _⟩ := free_lt c.pool ptr h0
        rw [e1, e2, e3]
        refine ⟨⟨by omega, ?_⟩, Or.inl (le_refl _)⟩
        push_cast
        omega
      · obtain ⟨e1, e2, e3, _⟩ := free_ge c.pool ptr h0
        rw [e1, e2, e3]
        refine ⟨⟨by omega, ?_⟩, Or.inl ?_⟩ <;> push_cast <;> omega
    · rw [if_neg hm] at hs
      cases hs

theorem client.states_bound (calls : List (call T)) :
    ∀ (c : client T blck_size) (l : List (client T blck_size)),
      client.states c calls = some l → c.balanced →
      c.pool.mAlloc.net ≤ (blck_size : Int) →
      (∀ c1 ∈ l, c1.live.length ≤ blck_size) →
      ∀ c1 ∈ l, c1.balanced ∧ c1.pool.mAlloc.net ≤ (blck_size : Int) := by
  induction calls with
  | nil =>
    intro c l hs hb hn _ c1 hc1
    simp only [client.states, Option.some.injEq] at hs
    subst hs
    simp only [List.mem_singleton] at hc1
    subst hc1
    exact ⟨hb, hn⟩
  | cons x xs ih =>
    intro c l hs hb hn hlive c1 hc1
    simp only [client.states] at hs
    cases hstep : c.step x with
    | none => rw [hstep] at hs; cases hs
    | some c2 =>
      rw [hstep] at hs
      simp only [Option.some_bind] at hs
      cases hrest : client.states c2 xs with
      | none => rw [hrest] at hs; cases hs
      | some l2 =>
        rw [hrest] at hs
        simp only [Option.map_some', Option.some.injEq] at hs
        subst hs
        rcases List.mem_cons.1 hc1 with rfl | hc1
        · exact ⟨hb, hn⟩
        · obtain ⟨hb2, hn2⟩ := client.step_balanced c c2 x hb hstep
          have hc2 : c2 ∈ l2 := by
            cases xs with
            | nil =>
              simp only [client.states, Option.some.injEq] at hrest
              subst hrest
              exact List.mem_singleton.2 rfl
            | cons y ys =>
              simp only [client.states] at hrest
              cases hy : c2.step y with
              | none => rw [hy] at hrest; cases hrest
              | some c3 =>
                rw [hy] at hrest
                simp only [Option.some_bind] at hrest
                cases hz : client.states c3 ys with
                | none => rw [hz] at hrest; cases hrest
                | some l3 =>
                  rw [hz] at hrest
                  simp only [Option.map_some', Option.some.injEq] at hrest
                  subst hrest
                  exact List.mem_cons_self _ _
          have hlive2 : c2.live.length ≤ blck_size :=
            hlive c2 (List.mem_cons_of_mem _ hc2)
          have hn3 : c2.pool.mAlloc.net ≤ (blck_size : Int) := by
            rcases hn2 with h | h
            · omega
            · rw [h]; exact_mod_cast hlive2
          exact ih c2 l2 hrest hb2 hn3
            (fun c3 h3 => hlive c3 (List.mem_cons_of_mem _ h3)) c1 hc1

theorem client.states_length (calls : List (call T)) :
    ∀ (c : client T blck_size) (l : List (client T blck_size)),
      client.states c calls = some l → l.length = calls.length + 1 := by
  induction calls with
  | nil =>
    intro c l hs
    simp only [client.states, Option.some.injEq] at hs
    subst hs
    rfl
  | cons x xs ih =>
    intro c l hs
    simp only [client.states] at hs
    cases hstep : c.step x with
    | none => rw [hstep] at hs; cases hs
    | some c2 =>
      rw [hstep] at hs
      simp only [Option.some_bind] at hs
      cases hrest : client.states c2 xs with
      | none => rw [hrest] at hs; cases hs
      | some l2 =>
        rw [hrest] at hs
        simp only [Option.map_some', Option.some.injEq] at hs
        subst hs
        simp [ih c2 l2 hrest]

/-- C6 (pool reuse bound): take a freshly constructed pool with `blck_size ≥ 1` and a
sequence of `alloc` and `free` calls in which every `free` is given a pointer that `alloc`
returned and that has not been freed since (so the run `states` is defined, and it lists
one state per prefix of the calls). If the number of live objects is at most `blck_size`
in every state, then in every state the backing allocations (those of the constructor
included) minus the backing deallocations are at most `blck_size`. And an `alloc` that
directly follows a `free` performs no backing allocation. -/
theorem pool_reuse_bound (hB : 1 ≤ blck_size) (calls : List (call T))
    (l : List (client T blck_size))
    (hrun : client.states (client.new : client T blck_size) calls = some l)
    (hlive : ∀ c ∈ l, c.live.length ≤ blck_size) :
    l.length = calls.length + 1 ∧
    (∀ c ∈ l, c.pool.mAlloc.net ≤ (blck_size : Int)) ∧
    (∀ (a : allocator_type T blck_size) (ptr : Nat) (v : T),
      ((a.free ptr).alloc v).2.mAlloc.allocated = (a.free ptr).mAlloc.allocated ∧
      ((a.free ptr).alloc v).2.mAlloc.net = (a.free ptr).mAlloc.net) := by
  refine ⟨client.states_length calls _ l hrun, ?_, ?_⟩
  · intro c hc
    have hb := @client.balanced_new T blck_size
    have hn : (client.new : client T blck_size).pool.mAlloc.net ≤ (blck_size : Int) := by
      obtain ⟨h1, h2⟩ := hb
      simp only [client.new, List.length_nil] at h1 h2 ⊢
      rw [h2]
      push_cast
      omega
    exact (client.states_bound calls _ l hrun hb hn hlive c hc).2
  · intro a ptr v
    have hpos : 0 < (a.free ptr).mOffset := by
      rcases Nat.lt_or_ge a.mOffset blck_size with h0 | h0
      · rw [(free_lt a ptr h0).1]; omega
      · rw [(free_ge a ptr h0).1]; omega
    obtain ⟨_, e2, e3, _⟩ := alloc_pos (a.free ptr) v hpos
    exact ⟨e2, by simp only [counting_allocator.net, e2, e3]⟩

/-- Witness of C6 on a pool with `blck_size = 2`: two objects are allocated, the first is
freed and a third one is allocated. -/
theorem pool_reuse_bound_witness :
    1 ≤ 2 ∧
    ∃ l : List (client Nat 2),
      client.states (client.new : client Nat 2) [.alloc 7, .alloc 8, .free 0, .alloc 9] = some l ∧
      (∀ c ∈ l, c.live.length ≤ 2) ∧
      l.length = 5 ∧
      (∀ c ∈ l, c.pool.mAlloc.net ≤ 2) :=
  ⟨by decide,
   (client.states (client.new : client Nat 2) [.alloc 7, .alloc 8, .free 0, .alloc 9]).get
     (by decide),
   by simp,
   by decide,
   (pool_reuse_bound (by decide) [.alloc 7, .alloc 8, .free 0, .alloc 9] _ (by simp)
     (by decide)).1,
   (pool_reuse_bound (by decide) [.alloc 7, .alloc 8, .free 0, .alloc 9] _ (by simp)
     (by decide)).2.1⟩

/-- C7 (pool alloc/free transitions): in every state `a` a freshly constructed pool reaches
by `alloc` and `free` calls, the pooled count `mOffset` is at most `blck_size`; `alloc`
takes the pointer `mPool[mOffset - 1]` and lowers `mOffset` by one without a backing
allocation when `mOffset > 0`, and performs exactly one backing allocation, leaving
`mOffset = 0`, when the pool is empty, so it calls the backing allocator exactly when
`mOffset = 0`; `free` stores the pointer in `mPool[mOffset]` and raises `mOffset` by one
without a backing deallocation when `mOffset < blck_size`, and performs exactly one backing
deallocation, leaving `mOffset`, when `mOffset = blck_size`, so it releases to the backing
allocator exactly when `mOffset = blck_size`; `alloc` never deallocates and `free` never
allocates. -/
theorem pool_transitions (calls : List (call T)) (v : T) (ptr : Nat) :
    let a := (new : allocator_type T blck_size).run calls
    a.mOffset ≤ blck_size ∧
    (0 < a.mOffset →
      (a.alloc v).2.mOffset = a.mOffset - 1 ∧
      (a.alloc v).2.mAlloc.allocated = a.mAlloc.allocated ∧
      (a.alloc v).1 = a.mPool (a.mOffset - 1)) ∧
    (a.mOffset = 0 →
      (a.alloc v).2.mOffset = 0 ∧
      (a.alloc v).2.mAlloc.allocated = a.mAlloc.allocated + 1) ∧
    ((a.alloc v).2.mAlloc.allocated ≠ a.mAlloc.allocated ↔ a.mOffset = 0) ∧
    (a.alloc v).2.mAlloc.deallocated = a.mAlloc.deallocated ∧
    (a.mOffset < blck_size →
      (a.free ptr).mOffset = a.mOffset + 1 ∧
      (a.free ptr).mAlloc.deallocated = a.mAlloc.deallocated ∧
      (a.free ptr).mPool a.mOffset = ptr) ∧
    (a.mOffset = blck_size →
      (a.free ptr).mOffset = a.mOffset ∧
      (a.free ptr).mAlloc.deallocated = a.mAlloc.deallocated + 1) ∧
    ((a.free ptr).mAlloc.deallocated ≠ a.mAlloc.deallocated ↔ a.mOffset = blck_size) ∧
    (a.free ptr).mAlloc.allocated = a.mAlloc.allocated := by
  intro a
  have hle : a.mOffset ≤ blck_size :=
    run_mOffset_le calls _ (@new_inv T blck_size).1
  refine ⟨hle, ?_, ?_, ?_, ?_, ?_, ?_, ?_, ?_⟩
  · intro h
    obtain ⟨e1, e2, _, e4⟩ := alloc_pos a v h
    exact ⟨e1, e2, e4⟩
  · intro h
    obtain ⟨e1, e2, _, _⟩ := alloc_zero a v h
    exact ⟨e1, e2⟩
  · rcases Nat.eq_zero_or_pos a.mOffset with h0 | h0
    · rw [(alloc_zero a v h0).2.1]; simp [h0]
    · rw [(alloc_pos a v h0).2.1]; simp; omega
  · rcases Nat.eq_zero_or_pos a.mOffset with h0 | h0
    · exact (alloc_zero a v h0).2.2.1
    · exact (alloc_pos a v h0).2.2.1
  · intro h
    obtain ⟨e1, _, e3, e4⟩ := free_lt a ptr h
    exact ⟨e1, e3, e4⟩
  · intro h
    obtain ⟨e1, _, e3, _⟩ := free_ge a ptr (by omega)
    exact ⟨e1, e3⟩
  · rcases Nat.lt_or_ge a.mOffset blck_size with h0 | h0
    · rw [(free_lt a ptr h0).2.2.1]; simp; omega
    · rw [(free_ge a ptr h0).2.2.1]; simp; omega
  · rcases Nat.lt_or_ge a.mOffset blck_size with h0 | h0
    · exact (free_lt a ptr h0).2.1
    · exact (free_ge a ptr h0).2.1

/-- Witness of C7 on a pool with `blck_size = 2` after one `alloc`: the pool is empty, so
the next `alloc` performs a backing allocation. -/
theorem pool_transitions_witness :
    (((new : allocator_type Nat 2).run [.alloc 7]).alloc 8).2.mOffset = 0 ∧
    (((new : allocator_type Nat 2).run [.alloc 7]).alloc 8).2.mAlloc.allocated
      = ((new : allocator_type Nat 2).run [.alloc 7]).mAlloc.allocated + 1 :=
  (@pool_transitions Nat 2 [.alloc 7] 8 0).2.2.1 (by decide)

end allocator_type

namespace tree_type

variable {T : Type}

/-- C8 (handle safety): on a handle that denotes no node, each of `data()`, `root()`,
`left()` and `right()` throws `E000E` and leaves the store as it is; on a usable handle none
of them throws, and when the handle denotes the live node `n`, `data()` returns the payload
of `n` and `root()`, `left()`, `right()` return handles on the parent, the left child and
the right child of `n`, which are unusable exactly when that link is null. -/
theorem handle_safety (h : heap T) (it : iterator) :
    (it.usable = false →
      iterator.data h it = .throw .E000E h ∧ iterator.root h it = .throw .E000E h ∧
      iterator.left h it = .throw .E000E h ∧ iterator.right h it = .throw .E000E h) ∧
    (it.usable = true →
      (∀ e s, iterator.data h it ≠ .throw e s ∧ iterator.root h it ≠ .throw e s ∧
        iterator.left h it ≠ .throw e s ∧ iterator.right h it ≠ .throw e s) ∧
      (∀ p n, it.mData = some p → h.read p = some n →
        iterator.data h it = .ok n.data h ∧
        iterator.root h it = .ok ⟨n.root⟩ h ∧
        iterator.left h it = .ok ⟨n.left⟩ h ∧
        iterator.right h it = .ok ⟨n.right⟩ h ∧
        (iterator.usable ⟨n.root⟩ = false ↔ n.root = none) ∧
        (iterator.usable ⟨n.left⟩ = false ↔ n.left = none) ∧
        (iterator.usable ⟨n.right⟩ = false ↔ n.right = none))) := by
  obtain ⟨m⟩ := it
  cases m with
  | none =>
    refine ⟨fun _ => ?_, fun hu => ?_⟩
    · simp [iterator.data, iterator.root, iterator.left, iterator.right, iterator.usable]
    · simp [iterator.usable] at hu
  | some p =>
    refine ⟨fun hu => ?_, fun _ => ⟨?_, ?_⟩⟩
    · simp [iterator.usable] at hu
    · intro e s
      cases hr : h.read p <;>
        simp [iterator.data, iterator.root, iterator.left, iterator.right, iterator.usable,
          result.of_option, hr]
    · intro q n hq hn
      simp only [Option.some.injEq] at hq
      subst hq
      simp [iterator.data, iterator.root, iterator.left, iterator.right, iterator.usable,
        result.of_option, hn]

/-- Witness of C8: the unusable handle, and a handle on the only node of a one-node
store. -/
theorem handle_safety_witness :
    (iterator.data ([some ⟨none, none, none, 7⟩] : heap Nat) ⟨none⟩
        = .throw .E000E [some ⟨none, none, none, 7⟩] ∧
      iterator.root ([some ⟨none, none, none, 7⟩] : heap Nat) ⟨none⟩
        = .throw .E000E [some ⟨none, none, none, 7⟩] ∧
      iterator.left ([some ⟨none, none, none, 7⟩] : heap Nat) ⟨none⟩
        = .throw .E000E [some ⟨none, none, none, 7⟩] ∧
      iterator.right ([some ⟨none, none, none, 7⟩] : heap Nat) ⟨none⟩
        = .throw .E000E [some ⟨none, none, none, 7⟩]) ∧
    iterator.data ([some ⟨none, none, none, 7⟩] : heap Nat) ⟨some 0⟩
      = .ok 7 [some ⟨none, none, none, 7⟩] :=
  ⟨(handle_safety ([some ⟨none, none, none, 7⟩] : heap Nat) ⟨none⟩).1 (by decide),
   (((handle_safety ([some ⟨none, none, none, 7⟩] : heap Nat) ⟨some 0⟩).2 (by decide)).2
      0 ⟨none, none, none, 7⟩ (by decide) (by decide)).1⟩

/-- C9, as the code has it: called with a handle that denotes no node, every structural
operation that can be instantiated throws `E000E` and leaves the store and the tree as
they are, in every state, except `emplace_root_left` and `emplace_root_right` on an empty
tree: there the null handle equals `mRoot`, the call does not throw and creates the first
node of the tree, which becomes `mRoot`. `insert_root_left` and `insert_root_right` are
left out: their bodies are ill-formed (lines 526 and 543), so they are never called. -/
theorem null_handle_throws (fuel : Nat) (h : heap T) (t : tree_type T) (v : T)
    (tree : tree_type T) :
    insert_left_left h t ⟨none⟩ v = .throw .E000E (h, t) ∧
    insert_left_right h t ⟨none⟩ v = .throw .E000E (h, t) ∧
    insert_right_left h t ⟨none⟩ v = .throw .E000E (h, t) ∧
    insert_right_right h t ⟨none⟩ v = .throw .E000E (h, t) ∧
    emplace_left_left h t ⟨none⟩ v = .throw .E000E (h, t) ∧
    emplace_left_right h t ⟨none⟩ v = .throw .E000E (h, t) ∧
    emplace_right_left h t ⟨none⟩ v = .throw .E000E (h, t) ∧
    emplace_right_right h t ⟨none⟩ v = .throw .E000E (h, t) ∧
    erase fuel h t ⟨none⟩ = .throw .E000E (h, t) ∧
    erase_left fuel h t ⟨none⟩ = .throw .E000E (h, t) ∧
    erase_right fuel h t ⟨none⟩ = .throw .E000E (h, t) ∧
    reserve_left fuel h t ⟨none⟩ = .throw .E000E (h, t) ∧
    reserve_right fuel h t ⟨none⟩ = .throw .E000E (h, t) ∧
    merge fuel h t ⟨none⟩ tree = .throw .E000E (h, t) ∧
    emplace_root_left h t ⟨none⟩ v =
      (if t.mRoot = none then
        .ok ⟨some h.length⟩ (h ++ [some ⟨none, none, none, v⟩], ⟨some h.length⟩)
      else .throw .E000E (h, t)) ∧
    emplace_root_right h t ⟨none⟩ v =
      (if t.mRoot = none then
        .ok ⟨some h.length⟩ (h ++ [some ⟨none, none, none, v⟩], ⟨some h.length⟩)
      else .throw .E000E (h, t)) := by
  refine ⟨?_, ?_, ?_, ?_, ?_, ?_, ?_, ?_, ?_, ?_, ?_, ?_, ?_, ?_, ?_, ?_⟩
  · simp [insert_left_left, iterator.usable]
  · simp [insert_left_right, iterator.usable]
  · simp [insert_right_left, iterator.usable]
  · simp [insert_right_right, iterator.usable]
  · simp [emplace_left_left, iterator.usable]
  · simp [emplace_left_right, iterator.usable]
  · simp [emplace_right_left, iterator.usable]
  · simp [emplace_right_right, iterator.usable]
  · simp [erase, iterator.usable]
  · simp [erase_left, iterator.usable]
  · simp [erase_right, iterator.usable]
  · simp [reserve_left, iterator.usable]
  · simp [reserve_right, iterator.usable]
  · simp [merge, iterator.usable]
  · obtain ⟨r⟩ := t
    cases r <;> simp [emplace_root_left, iterator.usable, heap.alloc]
  · obtain ⟨r⟩ := t
    cases r <;> simp [emplace_root_right, iterator.usable, heap.alloc]

/-- Counterexample to C9: on the empty tree, `emplace_root_left` and `emplace_root_right`
called with the handle that denotes no node do not throw; they return a handle on a new
node, which is the root of the tree. -/
theorem null_handle_on_empty_tree_creates_root :
    emplace_root_left ([] : heap Nat) new ⟨none⟩ 7
      = .ok ⟨some 0⟩ ([some ⟨none, none, none, 7⟩], ⟨some 0⟩) ∧
    emplace_root_right ([] : heap Nat) new ⟨none⟩ 7
      = .ok ⟨some 0⟩ ([some ⟨none, none, none, 7⟩], ⟨some 0⟩) ∧
    iterator.usable ⟨none⟩ = false ∧
    (new : tree_type Nat).empty = true ∧
    ¬ ∃ s, emplace_root_left ([] : heap Nat) new ⟨none⟩ 7 = .throw .E000E s := by
  refine ⟨by decide, by decide, by decide, by decide, ?_⟩
  rintro ⟨s, hs⟩
  have h0 : emplace_root_left ([] : heap Nat) new ⟨none⟩ 7
      = .ok ⟨some 0⟩ ([some ⟨none, none, none, 7⟩], ⟨some 0⟩) := by decide
  rw [h0] at hs
  cases hs

/-- C10, evaluated where the code breaks it: starting from the empty tree,
`emplace_root_left(root(), 7)` creates the root and the link invariant holds; a second
`emplace_root_left(root(), 8)` makes the node at address 1 the root with the old root, at
address 0, as its left child, but leaves the parent link of the old root null, so the
tree has a node other than its root with a null parent link and the link invariant
fails. `insert_root_left` and the `_right` variants behave in the same way. -/
theorem root_insertion_leaves_parent_link_null :
    emplace_root_left ([] : heap Nat) new (new : tree_type Nat).root 7
      = .ok ⟨some 0⟩ ([some ⟨none, none, none, 7⟩], ⟨some 0⟩) ∧
    link_invariant 3 ([some ⟨none, none, none, 7⟩] : heap Nat) ⟨some 0⟩ = true ∧
    emplace_root_left ([some ⟨none, none, none, 7⟩] : heap Nat) ⟨some 0⟩
        (⟨some 0⟩ : tree_type Nat).root 8
      = .ok ⟨some 1⟩
          ([some ⟨none, none, none, 7⟩, some ⟨none, some 0, none, 8⟩], ⟨some 1⟩) ∧
    nodes 3 ([some ⟨none, none, none, 7⟩, some ⟨none, some 0, none, 8⟩] : heap Nat) (some 1)
      = [1, 0] ∧
    link_ok ([some ⟨none, none, none, 7⟩, some ⟨none, some 0, none, 8⟩] : heap Nat)
      ⟨some 1⟩ 0 = false ∧
    link_invariant 3 ([some ⟨none, none, none, 7⟩, some ⟨none, some 0, none, 8⟩] : heap Nat)
      ⟨some 1⟩ = false ∧
    insert_root_left ([some ⟨none, none, none, 7⟩] : heap Nat) ⟨some 0⟩ ⟨some 0⟩ 8
      = .ok ⟨some 1⟩
          ([some ⟨none, none, none, 7⟩, some ⟨none, some 0, none, 8⟩], ⟨some 1⟩) ∧
    emplace_root_right ([some ⟨none, none, none, 7⟩] : heap Nat) ⟨some 0⟩ ⟨some 0⟩ 8
      = .ok ⟨some 1⟩
          ([some ⟨none, none, none, 7⟩, some ⟨none, none, some 0, 8⟩], ⟨some 1⟩) ∧
    link_invariant 3 ([some ⟨none, none, none, 7⟩, some ⟨none, none, some 0, 8⟩] : heap Nat)
      ⟨some 1⟩ = false := by
  refine ⟨by decide, by decide, by decide, by decide, by decide, by decide, by decide,
    by decide, by decide⟩

end tree_type

namespace heap

variable {T : Type}

theorem read_lt {h : heap T} {p : Nat} {n : tree_node T} (hr : h.read p = some n) :
    p < h.length := by
  by_contra hge
  have : h[p]? = none := List.getElem?_eq_none (by omega)
  simp [read, this] at hr

theorem read_ge (h : heap T) (p : Nat) (hge : h.length ≤ p) : h.read p = none := by
  simp [read, List.getElem?_eq_none hge]

theorem read_set_ne (h : heap T) (p q : Nat) (c : Option (tree_node T)) (hne : q ≠ p) :
    heap.read (h.set p c) q = h.read q := by
  simp [read, List.getElem?_set_ne (Ne.symm hne)]

theorem read_set_eq (h : heap T) (p : Nat) (c : Option (tree_node T)) (hlt : p < h.length) :
    heap.read (h.set p c) p = c := by
  simp [read, List.getElem?_set_self, hlt]

theorem read_append_lt (h e : heap T) (p : Nat) (hlt : p < h.length) :
    heap.read (h ++ e) p = h.read p := by
  simp [read, List.getElem?_append_left hlt]

theorem read_append_length (h : heap T) (c : Option (tree_node T)) :
    heap.read (h ++ [c]) h.length = c := by
  simp [read]

theorem set_root_eq {h : heap T} {p : Nat} {n : tree_node T} (hr : h.read p = some n)
    (x : Option Nat) : h.set_root p x = some (h.set p (some { n with root := x })) := by
  simp [set_root, hr]

theorem set_left_eq {h : heap T} {p : Nat} {n : tree_node T} (hr : h.read p = some n)
    (x : Option Nat) : h.set_left p x = some (h.set p (some { n with left := x })) := by
  simp [set_left, hr]

theorem set_right_eq {h : heap T} {p : Nat} {n : tree_node T} (hr : h.read p = some n)
    (x : Option Nat) : h.set_right p x = some (h.set p (some { n with right := x })) := by
  simp [set_right, hr]

theorem delete_eq {h : heap T} {p : Nat} {n : tree_node T} (hr : h.read p = some n) :
    h.delete p = some (h.set p none) := by
  simp [delete, hr]

end heap

namespace btree

variable {T : Type}

theorem size_eq_length (tr : btree T) : tr.size = tr.addrs.length := by
  induction tr with
  | leaf => rfl
  | node a d l r ihl ihr => simp [size, addrs, ihl, ihr]; omega

theorem size_relabel (tr : btree T) : ∀ base, (tr.relabel base).size = tr.size := by
  induction tr with
  | leaf => intro _; rfl
  | node a d l r ihl ihr => intro base; simp [relabel, size, ihl, ihr]

theorem height_relabel (tr : btree T) : ∀ base, (tr.relabel base).height = tr.height := by
  induction tr with
  | leaf => intro _; rfl
  | node a d l r ihl ihr => intro base; simp [relabel, height, ihl, ihr]

theorem shape_relabel (tr : btree T) : ∀ base, (tr.relabel base).shape = tr.shape := by
  induction tr with
  | leaf => intro _; rfl
  | node a d l r ihl ihr => intro base; simp [relabel, shape, ihl, ihr]

theorem payloads_shape (tr : btree T) : tr.shape.payloads = tr.payloads := by
  induction tr with
  | leaf => rfl
  | node a d l r ihl ihr => simp [shape, payloads, ihl, ihr]

theorem ptr_relabel (tr : btree T) (base : Nat) :
    (tr.relabel base).ptr = tr.ptr.map (fun _ => base) := by
  cases tr <;> rfl

theorem mem_addrs_relabel (tr : btree T) :
    ∀ base x, x ∈ (tr.relabel base).addrs ↔ base ≤ x ∧ x < base + tr.size := by
  induction tr with
  | leaf => intro base x; simp [relabel, addrs, size]
  | node a d l r ihl ihr =>
    intro base x
    simp only [relabel, addrs, size, List.mem_cons, List.mem_append, ihl, ihr]
    omega

theorem nodup_addrs_relabel (tr : btree T) : ∀ base, (tr.relabel base).addrs.Nodup := by
  induction tr with
  | leaf => intro _; simp [relabel, addrs]
  | node a d l r ihl ihr =>
    intro base
    simp only [relabel, addrs, List.nodup_cons, List.mem_append, mem_addrs_relabel]
    refine ⟨by omega, ?_⟩
    rw [List.nodup_append]
    refine ⟨ihl _, ihr _, ?_⟩
    intro x hx hy
    rw [mem_addrs_relabel] at hx hy
    omega

end btree

namespace path

variable {T : Type}

theorem plug_addrs_perm (ctx : path T) :
    ∀ s : btree T, (ctx.plug s).addrs.Perm (s.addrs ++ ctx.addrs) := by
  induction ctx with
  | nil => intro s; simp [plug, addrs]
  | cons f rest ih =>
    intro s
    refine (ih (f.fill s)).trans ?_
    have hf : (f.fill s).addrs.Perm (s.addrs ++ f.addrs) := by
      cases f with
      | left a d r =>
        simp only [frame.fill, btree.addrs, frame.addrs, frame.addr, frame.sibling]
        exact (@List.perm_middle _ a s.addrs r.addrs).symm
      | right a d l =>
        simp only [frame.fill, btree.addrs, frame.addrs, frame.addr, frame.sibling]
        have : (l.addrs ++ s.addrs).Perm (s.addrs ++ l.addrs) := List.perm_append_comm
        exact ((List.Perm.cons a this)).trans (@List.perm_middle _ a s.addrs l.addrs).symm
    simp only [addrs, ← List.append_assoc]
    exact List.Perm.append_right _ hf

theorem mem_plug_addrs (ctx : path T) (s : btree T) (x : Nat) :
    x ∈ (ctx.plug s).addrs ↔ x ∈ s.addrs ∨ x ∈ ctx.addrs := by
  rw [(plug_addrs_perm ctx s).mem_iff, List.mem_append]

theorem nodup_plug_addrs (ctx : path T) (s : btree T) :
    (ctx.plug s).addrs.Nodup ↔ (s.addrs ++ ctx.addrs).Nodup :=
  (plug_addrs_perm ctx s).nodup_iff

theorem plug_ptr (ctx : path T) (hne : ctx ≠ []) :
    ∃ a, a ∈ ctx.addrs ∧ ∀ s : btree T, (ctx.plug s).ptr = some a := by
  induction ctx with
  | nil => exact absurd rfl hne
  | cons f rest ih =>
    by_cases hr : rest = []
    · subst hr
      refine ⟨f.addr, by simp [addrs, frame.addrs], ?_⟩
      intro s
      cases f <;> rfl
    · obtain ⟨a, ha, hs⟩ := ih hr
      exact ⟨a, by simp [addrs, ha], fun s => hs (f.fill s)⟩

end path

section owns_lemmas

variable {T : Type}

theorem owns_congr {h h1 : heap T} (tr : btree T) :
    ∀ par, (∀ a ∈ tr.addrs, heap.read h1 a = heap.read h a) → owns h par tr → owns h1 par tr := by
  induction tr with
  | leaf => intro _ _ _; trivial
  | node a d l r ihl ihr =>
    intro par hag ho
    obtain ⟨h0, hl, hr⟩ := ho
    refine ⟨?_, ihl _ ?_ hl, ihr _ ?_ hr⟩
    · rw [hag a (by simp [btree.addrs])]; exact h0
    · intro x hx; exact hag x (by simp [btree.addrs, hx])
    · intro x hx; exact hag x (by simp [btree.addrs, hx])

theorem owns_read {h : heap T} (tr : btree T) :
    ∀ par, owns h par tr → ∀ a ∈ tr.addrs, ∃ n, heap.read h a = some n := by
  induction tr with
  | leaf => intro _ _ a ha; simp [btree.addrs] at ha
  | node a d l r ihl ihr =>
    intro par ho x hx
    obtain ⟨h0, hl, hr⟩ := ho
    simp only [btree.addrs, List.mem_cons, List.mem_append] at hx
    rcases hx with rfl | hx | hx
    · exact ⟨_, h0⟩
    · exact ihl _ hl x hx
    · exact ihr _ hr x hx

theorem owns_lt {h : heap T} {tr : btree T} {par : Option Nat} (ho : owns h par tr)
    {a : Nat} (ha : a ∈ tr.addrs) : a < h.length := by
  obtain ⟨n, hn⟩ := owns_read tr par ho a ha
  exact heap.read_lt hn

theorem owns_reparent {h : heap T} {a : Nat} {d : T} {l r : btree T} {par : Option Nat}
    (par1 : Option Nat) (ho : owns h par (.node a d l r)) (hnd : (btree.node a d l r).addrs.Nodup) :
    owns (h.set a (some ⟨par1, l.ptr, r.ptr, d⟩)) par1 (.node a d l r) := by
  obtain ⟨h0, hl, hr⟩ := ho
  simp only [btree.addrs, List.nodup_cons, List.mem_append, not_or] at hnd
  refine ⟨heap.read_set_eq _ _ _ (heap.read_lt h0), ?_, ?_⟩
  · refine owns_congr l _ ?_ hl
    intro x hx
    exact heap.read_set_ne _ _ _ _ (by rintro rfl; exact hnd.1.1 hx)
  · refine owns_congr r _ ?_ hr
    intro x hx
    exact heap.read_set_ne _ _ _ _ (by rintro rfl; exact hnd.1.2 hx)

theorem owns_plug {h : heap T} (ctx : path T) :
    ∀ (s : btree T) (par : Option Nat),
      owns h par (ctx.plug s) ↔ owns h (ctx.parent par) s ∧ owns_path h par ctx s.ptr := by
  induction ctx with
  | nil => intro s par; simp [path.plug, path.parent, owns_path]
  | cons f rest ih =>
    intro s par
    rw [path.plug, ih]
    cases f with
    | left a d r =>
      simp only [frame.fill, owns, btree.ptr, path.parent, owns_path, frame.addr, frame.cell,
        frame.sibling]
      tauto
    | right a d l =>
      simp only [frame.fill, owns, btree.ptr, path.parent, owns_path, frame.addr, frame.cell,
        frame.sibling]
      tauto

theorem owns_path_congr {h h1 : heap T} (ctx : path T) :
    ∀ (par x : Option Nat), (∀ a ∈ ctx.addrs, heap.read h1 a = heap.read h a) →
      owns_path h par ctx x → owns_path h1 par ctx x := by
  induction ctx with
  | nil => intro _ _ _ _; trivial
  | cons f rest ih =>
    intro par x hag ho
    obtain ⟨h0, hs, hrest⟩ := ho
    refine ⟨?_, owns_congr _ _ ?_ hs, ih _ _ ?_ hrest⟩
    · rw [hag f.addr (by simp [path.addrs, frame.addrs])]; exact h0
    · intro a ha; exact hag a (by simp [path.addrs, frame.addrs, ha])
    · intro a ha; exact hag a (by simp [path.addrs, ha])

end owns_lemmas

namespace tree_type

variable {T : Type}

theorem destroy_none (fuel : Nat) (h : heap T) : destroy fuel h none = .ok () h := by
  cases fuel <;> rfl

theorem copy_none (fuel : Nat) (h : heap T) (root : Option Nat) :
    copy fuel h none root = .ok none h := by
  cases fuel <;> rfl

theorem destroy_owns (tr : btree T) :
    ∀ (fuel : Nat) (h : heap T) (par : Option Nat),
      owns h par tr → tr.addrs.Nodup → tr.height ≤ fuel →
      ∃ h1, destroy fuel h tr.ptr = .ok () h1 ∧ h1.length = h.length ∧
        (∀ a ∈ tr.addrs, heap.read h1 a = none) ∧
        (∀ a, a ∉ tr.addrs → heap.read h1 a = heap.read h a) := by
  induction tr with
  | leaf =>
    intro fuel h par _ _ _
    exact ⟨h, destroy_none fuel h, rfl, by simp [btree.addrs], fun _ _ => rfl⟩
  | node a d l r ihl ihr =>
    intro fuel h par ho hnd hf
    obtain ⟨k, rfl⟩ : ∃ k, fuel = k + 1 := ⟨fuel - 1, by simp [btree.height] at hf; omega⟩
    simp only [btree.height] at hf
    obtain ⟨h0, hl, hr⟩ := ho
    simp only [btree.addrs, List.nodup_cons, List.mem_append, not_or] at hnd
    obtain ⟨⟨hal, har⟩, hnd2⟩ := hnd
    rw [List.nodup_append] at hnd2
    obtain ⟨hndl, hndr, hdisj⟩ := hnd2
    obtain ⟨h1, e1, len1, dead1, keep1⟩ := ihl k h (some a) hl hndl (by omega)
    have hr1 : owns h1 (some a) r :=
      owns_congr r _ (fun x hx => keep1 x (fun hxl => hdisj hxl hx)) hr
    obtain ⟨h2, e2, len2, dead2, keep2⟩ := ihr k h1 (some a) hr1 hndr (by omega)
    have ra1 : heap.read h1 a = some ⟨par, l.ptr, r.ptr, d⟩ := by rw [keep1 a hal]; exact h0
    have ra2 : heap.read h2 a = some ⟨par, l.ptr, r.ptr, d⟩ := by rw [keep2 a har]; exact ra1
    refine ⟨h2.set a none, ?_, by simp [len1, len2], ?_, ?_⟩
    · show destroy (k + 1) h (some a) = _
      simp only [destroy, h0, Option.map_some', e1, ra1, e2, heap.delete_eq ra2]
    · intro x hx
      simp only [btree.addrs, List.mem_cons, List.mem_append] at hx
      by_cases hxa : x = a
      · subst hxa
        exact heap.read_set_eq _ _ _ (heap.read_lt ra2)
      · rw [heap.read_set_ne _ _ _ _ hxa]
        rcases hx with hx | hx | hx
        · exact absurd hx hxa
        · by_cases hxr : x ∈ r.addrs
          · exact dead2 x hxr
          · rw [keep2 x hxr]; exact dead1 x hx
        · exact dead2 x hx
    · intro x hx
      simp only [btree.addrs, List.mem_cons, List.mem_append, not_or] at hx
      rw [heap.read_set_ne _ _ _ _ hx.1, keep2 x hx.2.2, keep1 x hx.2.1]

theorem copy_owns (tr : btree T) :
    ∀ (fuel : Nat) (h : heap T) (par root : Option Nat),
      owns h par tr → tr.height ≤ fuel →
      ∃ h1, copy fuel h tr.ptr root = .ok (tr.relabel h.length).ptr h1 ∧
        h1.length = h.length + tr.size ∧
        (∀ a, a < h.length → heap.read h1 a = heap.read h a) ∧
        owns h1 root (tr.relabel h.length) := by
  induction tr with
  | leaf =>
    intro fuel h par root _ _
    exact ⟨h, copy_none fuel h root, by simp [btree.size], fun _ _ => rfl, trivial⟩
  | node a d l r ihl ihr =>
    intro fuel h par root ho hf
    obtain ⟨k, rfl⟩ : ∃ k, fuel = k + 1 := ⟨fuel - 1, by simp [btree.height] at hf; omega⟩
    simp only [btree.height] at hf
    obtain ⟨h0, hl, hr⟩ := ho
    have hlt : a < h.length := heap.read_lt h0
    -- the new node
    have len0 : (h ++ [some (⟨root, none, none, d⟩ : tree_node T)]).length = h.length + 1 := by
      simp
    have keep0 : ∀ x, x < h.length →
        heap.read (h ++ [some (⟨root, none, none, d⟩ : tree_node T)]) x = heap.read h x :=
      fun x hx => heap.read_append_lt _ _ _ hx
    have hl0 : owns (h ++ [some (⟨root, none, none, d⟩ : tree_node T)]) (some a) l :=
      owns_congr l _ (fun x hx => keep0 x (owns_lt hl hx)) hl
    obtain ⟨h2, e2, len2, keep2, own2⟩ := ihl k _ (some a) (some h.length) hl0 (by omega)
    rw [len0] at e2 len2 own2
    have rb2 : heap.read h2 h.length = some ⟨root, none, none, d⟩ := by
      rw [keep2 _ (by omega)]; exact heap.read_append_length _ _
    have ra2 : heap.read h2 a = some ⟨par, l.ptr, r.ptr, d⟩ := by
      rw [keep2 _ (by omega), keep0 _ hlt]; exact h0
    -- after node->left = ...
    have len3 : (h2.set h.length
        (some (⟨root, (l.relabel (h.length + 1)).ptr, none, d⟩ : tree_node T))).length
        = h.length + 1 + l.size := by simp [len2]
    have ra3 : heap.read (h2.set h.length
        (some (⟨root, (l.relabel (h.length + 1)).ptr, none, d⟩ : tree_node T))) a
        = some ⟨par, l.ptr, r.ptr, d⟩ := by
      rw [heap.read_set_ne _ _ _ _ (by omega)]; exact ra2
    have hr3 : owns (h2.set h.length
        (some (⟨root, (l.relabel (h.length + 1)).ptr, none, d⟩ : tree_node T))) (some a) r := by
      refine owns_congr r _ (fun x hx => ?_) hr
      have hx1 : x < h.length := owns_lt hr hx
      rw [heap.read_set_ne _ _ _ _ (by omega), keep2 _ (by omega), keep0 _ hx1]
    obtain ⟨h4, e4, len4, keep4, own4⟩ := ihr k _ (some a) (some h.length) hr3 (by omega)
    rw [len3] at e4 len4 own4
    have rb4 : heap.read h4 h.length
        = some ⟨root, (l.relabel (h.length + 1)).ptr, none, d⟩ := by
      rw [keep4 _ (by rw [len3]; omega)]
      exact heap.read_set_eq _ _ _ (by rw [len2]; omega)
    refine ⟨h4.set h.length (some ⟨root, (l.relabel (h.length + 1)).ptr,
      (r.relabel (h.length + 1 + l.size)).ptr, d⟩), ?_, ?_, ?_, ?_⟩
    · show copy (k + 1) h (some a) root = .ok (some h.length) _
      simp only [copy, h0, heap.alloc, keep0 a hlt, Option.map_some', e2,
        heap.set_left_eq rb2, ra3, e4, heap.set_right_eq rb4]
    · simp [len4, btree.size]; omega
    · intro x hx
      rw [heap.read_set_ne _ _ _ _ (by omega), keep4 _ (by rw [len3]; omega),
        heap.read_set_ne _ _ _ _ (by omega), keep2 _ (by omega), keep0 _ hx]
    · refine ⟨heap.read_set_eq _ _ _ (by rw [len4]; omega), ?_, ?_⟩
      · refine owns_congr _ _ (fun x hx => ?_) own2
        rw [btree.mem_addrs_relabel] at hx
        rw [heap.read_set_ne _ _ _ _ (by omega), keep4 _ (by rw [len3]; omega),
          heap.read_set_ne _ _ _ _ (by omega)]
      · refine owns_congr _ _ (fun x hx => ?_) own4
        rw [btree.mem_addrs_relabel] at hx
        rw [heap.read_set_ne _ _ _ _ (by omega)]

end tree_type

namespace btree

variable {T : Type}

theorem ptr_mem {tr : btree T} {a : Nat} (hp : tr.ptr = some a) : a ∈ tr.addrs := by
  cases tr with
  | leaf => simp [ptr] at hp
  | node b d l r =>
    simp only [ptr, Option.some.injEq] at hp
    subst hp
    simp [addrs]

end btree

namespace tree_type

variable {T : Type}

theorem slot_update (f : frame T) (P x : Option Nat) (p : Nat) (h : heap T)
    (hr : heap.read h f.addr = some (f.cell P (some p))) (hs : f.sibling.ptr ≠ some p) :
    (some p = (f.cell P (some p)).left →
      h.set_left f.addr x = some (h.set f.addr (some (f.cell P x)))) ∧
    (¬ some p = (f.cell P (some p)).left →
      h.set_right f.addr x = some (h.set f.addr (some (f.cell P x)))) := by
  cases f with
  | left a d r =>
    simp only [frame.cell, frame.addr] at hr ⊢
    simp [heap.set_left_eq hr]
  | right a d l =>
    simp only [frame.cell, frame.addr, frame.sibling] at hr hs ⊢
    have : ¬ (some p = l.ptr) := fun e => hs e.symm
    simp [this, heap.set_right_eq hr]

/-- Putting the subtree `new` in the place the way `ctx` leads to: the store `h1` holds
the new subtree below the parent, the parent cell has the new pointer in the open slot, and
the other cells on the way and in the other subtrees are as in `h`. -/
theorem graft {h h1 : heap T} (ctx : path T) (old : Option Nat) (new : btree T)
    (hpath : owns_path h none ctx old) (hnd : ctx.addrs.Nodup)
    (hcell : ∀ f rest, ctx = f :: rest →
      heap.read h1 f.addr = some (f.cell (path.parent rest none) new.ptr))
    (hkeep : ∀ a ∈ ctx.addrs, some a ≠ ctx.parent none → heap.read h1 a = heap.read h a)
    (hnew : owns h1 (ctx.parent none) new) :
    owns h1 none (ctx.plug new) := by
  rw [owns_plug]
  refine ⟨hnew, ?_⟩
  cases ctx with
  | nil => trivial
  | cons f rest =>
    obtain ⟨_, hs, hrest⟩ := hpath
    simp only [path.addrs, frame.addrs, List.cons_append, List.nodup_cons, List.mem_append,
      not_or] at hnd
    refine ⟨hcell f rest rfl, owns_congr _ _ (fun a ha => ?_) hs,
      owns_path_congr _ _ _ (fun a ha => ?_) hrest⟩
    · refine hkeep a (by simp [path.addrs, frame.addrs, ha]) ?_
      simp only [path.parent, ne_eq, Option.some.injEq]
      rintro rfl
      exact hnd.1.1 ha
    · refine hkeep a (by simp [path.addrs, ha]) ?_
      simp only [path.parent, ne_eq, Option.some.injEq]
      rintro rfl
      exact hnd.1.2 ha

theorem represents_plug {h : heap T} {t : tree_type T} {ctx : path T} {s : btree T}
    (hrep : represents h t (ctx.plug s)) :
    t.mRoot = (ctx.plug s).ptr ∧ owns h (ctx.parent none) s ∧ owns_path h none ctx s.ptr ∧
    s.addrs.Nodup ∧ ctx.addrs.Nodup ∧ (∀ a, a ∈ s.addrs → a ∉ ctx.addrs) := by
  obtain ⟨hroot, hown, hnd⟩ := hrep
  rw [owns_plug] at hown
  rw [path.nodup_plug_addrs, List.nodup_append] at hnd
  exact ⟨hroot, hown.1, hown.2, hnd.1, hnd.2.1, fun a ha hc => hnd.2.2 ha hc⟩

theorem erase_ok (fuel : Nat) (h : heap T) (t : tree_type T) (ctx : path T)
    (p : Nat) (d : T) (l r : btree T)
    (hrep : represents h t (ctx.plug (.node p d l r)))
    (hf : (btree.node p d l r).height ≤ fuel) :
    ∃ h1 t1, erase fuel h t ⟨some p⟩ = .ok ⟨ctx.parent none⟩ (h1, t1) ∧
      t1 = (if ctx.isEmpty then ⟨none⟩ else t) ∧
      represents h1 t1 (ctx.plug .leaf) ∧
      h1.length = h.length ∧
      (∀ a ∈ (btree.node p d l r).addrs, heap.read h1 a = none) ∧
      (∀ f rest, ctx = f :: rest →
        heap.read h1 f.addr = some (f.cell (path.parent rest none) none)) ∧
      (∀ a, a ∉ (btree.node p d l r).addrs → some a ≠ ctx.parent none →
        heap.read h1 a = heap.read h a) := by
  obtain ⟨hroot, hsub, hpath, hnds, hndc, hdisj⟩ := represents_plug hrep
  cases ctx with
  | nil =>
    simp only [path.plug, btree.ptr] at hroot
    obtain ⟨h1, e1, len1, dead1, keep1⟩ := destroy_owns _ fuel h _ hsub hnds hf
    replace e1 : destroy fuel h (some p) = .ok () h1 := e1
    refine ⟨h1, ⟨none⟩, ?_, by simp, ?_, len1, dead1, ?_, fun a ha _ => keep1 a ha⟩
    · simp [erase, iterator.usable, hroot, e1, result.and_then, path.parent]
    · exact ⟨rfl, trivial, by simp [path.plug, btree.addrs]⟩
    · intro f rest hc; cases hc
  | cons f rest =>
    obtain ⟨a0, ha0, hptr⟩ := path.plug_ptr (f :: rest) (by simp)
    have hp_notin : p ∉ path.addrs (f :: rest) := hdisj p (by simp [btree.addrs])
    have hne : (some p : Option Nat) ≠ t.mRoot := by
      rw [hroot, hptr]
      intro e
      simp only [Option.some.injEq] at e
      exact hp_notin (e ▸ ha0)
    have hrp : heap.read h p = some ⟨some f.addr, l.ptr, r.ptr, d⟩ := hsub.1
    obtain ⟨hcell0, hsib, hrest⟩ := hpath
    replace hcell0 : heap.read h f.addr = some (f.cell (path.parent rest none) (some p)) :=
      hcell0
    have hfne : f.addr ≠ p := by
      rintro rfl
      exact hp_notin (by simp [path.addrs, frame.addrs])
    have hsp : f.sibling.ptr ≠ some p := by
      intro e
      exact hp_notin (by simp [path.addrs, frame.addrs, btree.ptr_mem e])
    have hupd := slot_update f (path.parent rest none) none p h hcell0 hsp
    have hfnot : f.addr ∉ (btree.node p d l r).addrs := fun hc =>
      hdisj _ hc (by simp [path.addrs, frame.addrs])
    have hsub1 : owns (h.set f.addr (some (f.cell (path.parent rest none) none)))
        (some f.addr) (.node p d l r) :=
      owns_congr _ _ (fun a ha => heap.read_set_ne _ _ _ _ (by rintro rfl; exact hfnot ha)) hsub
    obtain ⟨h1, e1, len1, dead1, keep1⟩ := destroy_owns _ fuel _ _ hsub1 hnds hf
    replace e1 : destroy fuel (h.set f.addr (some (f.cell (path.parent rest none) none)))
        (some p) = .ok () h1 := e1
    have hcell1 : heap.read h1 f.addr = some (f.cell (path.parent rest none) none) := by
      rw [keep1 _ hfnot]
      exact heap.read_set_eq _ _ _ (heap.read_lt hcell0)
    have hkeep1 : ∀ a, a ∉ (btree.node p d l r).addrs → some a ≠ path.parent (f :: rest) none →
        heap.read h1 a = heap.read h a := by
      intro a ha hap
      rw [keep1 a ha]
      refine heap.read_set_ne _ _ _ _ ?_
      rintro rfl
      exact hap rfl
    refine ⟨h1, t, ?_, by simp, ⟨?_, ?_, ?_⟩, by simp [len1], dead1, ?_, hkeep1⟩
    · simp only [erase, iterator.usable, path.parent]
      by_cases hc : some p = (f.cell (path.parent rest none) (some p)).left
      · simp [hne, hrp, hcell0, eq_true hc, hupd.1 hc, e1, result.and_then]
      · simp [hne, hrp, hcell0, hc, hupd.2 hc, e1, result.and_then]
    · rw [hroot, hptr, hptr]
    · refine graft (f :: rest) (some p) .leaf ⟨hcell0, hsib, hrest⟩ hndc ?_ ?_ trivial
      · intro f1 rest1 hc
        cases hc
        exact hcell1
      · intro a ha hap
        exact hkeep1 a (fun hc => hdisj a hc ha) hap
    · rw [path.nodup_plug_addrs]
      simpa [btree.addrs] using hndc
    · intro f1 rest1 hc
      cases hc
      exact hcell1

end tree_type

namespace heap

variable {T : Type}

theorem set_read_self {h : heap T} {p : Nat} {n : tree_node T} (hr : h.read p = some n) :
    h.set p (some n) = h := by
  have hlt := read_lt hr
  apply List.ext_getElem?
  intro i
  by_cases hi : i = p
  · subst hi
    rw [List.getElem?_set_self hlt]
    have hg : h[i]? = some h[i] := List.getElem?_eq_getElem hlt
    simp only [read, hg, Option.join] at hr
    rw [hg]
    exact congrArg some hr.symm
  · rw [List.getElem?_set_ne (Ne.symm hi)]

end heap

namespace tree_type

variable {T : Type}

theorem represents_of_plug {h : heap T} {t : tree_type T} {ctx : path T} {s : btree T}
    (hroot : t.mRoot = (ctx.plug s).ptr) (hown : owns h none (ctx.plug s))
    (hnds : s.addrs.Nodup) (hndc : ctx.addrs.Nodup) (hdisj : ∀ a, a ∈ s.addrs → a ∉ ctx.addrs) :
    represents h t (ctx.plug s) := by
  refine ⟨hroot, hown, ?_⟩
  rw [path.nodup_plug_addrs, List.nodup_append]
  exact ⟨hnds, hndc, fun a ha hc => hdisj a ha hc⟩

theorem plug_ptr_eq (ctx : path T) (s s1 : btree T) (h : ctx ≠ [] ∨ s.ptr = s1.ptr) :
    (ctx.plug s).ptr = (ctx.plug s1).ptr := by
  cases ctx with
  | nil =>
    rcases h with h | h
    · exact absurd rfl h
    · exact h
  | cons f rest =>
    obtain ⟨a, _, ha⟩ := path.plug_ptr (f :: rest) (by simp)
    rw [ha, ha]

theorem erase_left_ok (fuel : Nat) (h : heap T) (t : tree_type T) (ctx : path T)
    (p : Nat) (d : T) (l r : btree T)
    (hrep : represents h t (ctx.plug (.node p d l r))) (hf : l.height ≤ fuel) :
    ∃ h1, erase_left fuel h t ⟨some p⟩ = .ok ⟨some p⟩ (h1, t) ∧
      represents h1 t (ctx.plug (.node p d .leaf r)) ∧
      h1.length = h.length ∧
      (∀ a ∈ l.addrs, heap.read h1 a = none) ∧
      heap.read h1 p = some ⟨ctx.parent none, none, r.ptr, d⟩ ∧
      (∀ a, a ∉ l.addrs → a ≠ p → heap.read h1 a = heap.read h a) ∧
      (l = .leaf → h1 = h) := by
  obtain ⟨hroot, hsub, hpath, hnds, hndc, hdisj⟩ := represents_plug hrep
  obtain ⟨hrp, hl, hr⟩ := hsub
  simp only [btree.addrs, List.nodup_cons, List.mem_append, not_or] at hnds
  obtain ⟨⟨hpl, hpr⟩, hnd2⟩ := hnds
  rw [List.nodup_append] at hnd2
  obtain ⟨hndl, hndr, hlr⟩ := hnd2
  obtain ⟨h1, e1, len1, dead1, keep1⟩ := destroy_owns l fuel h _ hl hndl hf
  have hrp1 : heap.read h1 p = some ⟨ctx.parent none, l.ptr, r.ptr, d⟩ := by
    rw [keep1 p hpl]; exact hrp
  have hlt : p < h1.length := heap.read_lt hrp1
  have hkeep : ∀ a, a ∉ l.addrs → a ≠ p →
      heap.read (h1.set p (some ⟨ctx.parent none, none, r.ptr, d⟩)) a = heap.read h a := by
    intro a ha hap
    rw [heap.read_set_ne _ _ _ _ hap, keep1 a ha]
  refine ⟨h1.set p (some ⟨ctx.parent none, none, r.ptr, d⟩), ?_, ?_, by simp [len1], ?_,
    heap.read_set_eq _ _ _ hlt, hkeep, ?_⟩
  · simp [erase_left, iterator.usable, hrp, e1, result.and_then, heap.set_left_eq hrp1]
  · refine represents_of_plug ?_ ?_ ?_ hndc ?_
    · rw [hroot]; exact plug_ptr_eq _ _ _ (Or.inr rfl)
    · refine graft ctx (some p) _ hpath hndc ?_ ?_ ?_
      · intro f rest hc
        subst hc
        have hfa : f.addr ∉ (btree.node p d l r).addrs := fun hc =>
          hdisj _ hc (by simp [path.addrs, frame.addrs])
        simp only [btree.addrs, List.mem_cons, List.mem_append, not_or] at hfa
        rw [hkeep _ hfa.2.1 hfa.1]
        exact hpath.1
      · intro a ha _
        have haa : a ∉ (btree.node p d l r).addrs := fun hc => hdisj _ hc ha
        simp only [btree.addrs, List.mem_cons, List.mem_append, not_or] at haa
        exact hkeep a haa.2.1 haa.1
      · refine ⟨heap.read_set_eq _ _ _ hlt, trivial, owns_congr r _ (fun a ha => ?_) hr⟩
        exact hkeep a (fun hc => hlr hc ha) (by rintro rfl; exact hpr ha)
    · simp only [btree.addrs, List.nil_append, List.nodup_cons]
      exact ⟨hpr, hndr⟩
    · intro a ha
      refine hdisj a ?_
      simp only [btree.addrs, List.nil_append, List.mem_cons] at ha
      simp only [btree.addrs, List.mem_cons, List.mem_append]
      tauto
  · intro a ha
    rw [heap.read_set_ne _ _ _ _ (by rintro rfl; exact hpl ha)]
    exact dead1 a ha
  · intro hleaf
    subst hleaf
    have e0 : destroy fuel h none = .ok () h1 := e1
    rw [destroy_none] at e0
    injection e0 with _ e0
    subst e0
    exact heap.set_read_self hrp

theorem erase_right_ok (fuel : Nat) (h : heap T) (t : tree_type T) (ctx : path T)
    (p : Nat) (d : T) (l r : btree T)
    (hrep : represents h t (ctx.plug (.node p d l r))) (hf : r.height ≤ fuel) :
    ∃ h1, erase_right fuel h t ⟨some p⟩ = .ok ⟨some p⟩ (h1, t) ∧
      represents h1 t (ctx.plug (.node p d l .leaf)) ∧
      h1.length = h.length ∧
      (∀ a ∈ r.addrs, heap.read h1 a = none) ∧
      heap.read h1 p = some ⟨ctx.parent none, l.ptr, none, d⟩ ∧
      (∀ a, a ∉ r.addrs → a ≠ p → heap.read h1 a = heap.read h a) ∧
      (r = .leaf → h1 = h) := by
  obtain ⟨hroot, hsub, hpath, hnds, hndc, hdisj⟩ := represents_plug hrep
  obtain ⟨hrp, hl, hr⟩ := hsub
  simp only [btree.addrs, List.nodup_cons, List.mem_append, not_or] at hnds
  obtain ⟨⟨hpl, hpr⟩, hnd2⟩ := hnds
  rw [List.nodup_append] at hnd2
  obtain ⟨hndl, hndr, hlr⟩ := hnd2
  obtain ⟨h1, e1, len1, dead1, keep1⟩ := destroy_owns r fuel h _ hr hndr hf
  have hrp1 : heap.read h1 p = some ⟨ctx.parent none, l.ptr, r.ptr, d⟩ := by
    rw [keep1 p hpr]; exact hrp
  have hlt : p < h1.length := heap.read_lt hrp1
  have hkeep : ∀ a, a ∉ r.addrs → a ≠ p →
      heap.read (h1.set p (some ⟨ctx.parent none, l.ptr, none, d⟩)) a = heap.read h a := by
    intro a ha hap
    rw [heap.read_set_ne _ _ _ _ hap, keep1 a ha]
  refine ⟨h1.set p (some ⟨ctx.parent none, l.ptr, none, d⟩), ?_, ?_, by simp [len1], ?_,
    heap.read_set_eq _ _ _ hlt, hkeep, ?_⟩
  · simp [erase_right, iterator.usable, hrp, e1, result.and_then, heap.set_right_eq hrp1]
  · refine represents_of_plug ?_ ?_ ?_ hndc ?_
    · rw [hroot]; exact plug_ptr_eq _ _ _ (Or.inr rfl)
    · refine graft ctx (some p) _ hpath hndc ?_ ?_ ?_
      · intro f rest hc
        subst hc
        have hfa : f.addr ∉ (btree.node p d l r).addrs := fun hc =>
          hdisj _ hc (by simp [path.addrs, frame.addrs])
        simp only [btree.addrs, List.mem_cons, List.mem_append, not_or] at hfa
        rw [hkeep _ hfa.2.2 hfa.1]
        exact hpath.1
      · intro a ha _
        have haa : a ∉ (btree.node p d l r).addrs := fun hc => hdisj _ hc ha
        simp only [btree.addrs, List.mem_cons, List.mem_append, not_or] at haa
        exact hkeep a haa.2.2 haa.1
      · refine ⟨heap.read_set_eq _ _ _ hlt, owns_congr l _ (fun a ha => ?_) hl, trivial⟩
        exact hkeep a (fun hc => hlr ha hc) (by rintro rfl; exact hpl ha)
    · simp only [btree.addrs, List.append_nil, List.nodup_cons]
      exact ⟨hpl, hndl⟩
    · intro a ha
      refine hdisj a ?_
      simp only [btree.addrs, List.append_nil, List.mem_cons] at ha
      simp only [btree.addrs, List.mem_cons, List.mem_append]
      tauto
  · intro a ha
    rw [heap.read_set_ne _ _ _ _ (by rintro rfl; exact hpr ha)]
    exact dead1 a ha
  · intro hleaf
    subst hleaf
    have e0 : destroy fuel h none = .ok () h1 := e1
    rw [destroy_none] at e0
    injection e0 with _ e0
    subst e0
    exact heap.set_read_self hrp

end tree_type

namespace tree_type

variable {T : Type}

theorem reserve_left_ok (fuel : Nat) (h : heap T) (t : tree_type T) (ctx : path T)
    (p : Nat) (d : T) (c : Nat) (dc : T) (cl cr o : btree T)
    (hrep : represents h t (ctx.plug (.node p d (.node c dc cl cr) o)))
    (hf : 1 + o.height ≤ fuel) :
    ∃ h4 t1, reserve_left fuel h t ⟨some p⟩ = .ok ⟨some c⟩ (h4, t1) ∧
      t1 = (if ctx.isEmpty then ⟨some c⟩ else t) ∧
      represents h4 t1 (ctx.plug (.node c dc cl cr)) ∧
      h4.length = h.length ∧
      heap.read h4 p = none ∧
      (∀ a ∈ o.addrs, heap.read h4 a = none) ∧
      heap.read h4 c = some ⟨ctx.parent none, cl.ptr, cr.ptr, dc⟩ ∧
      (∀ f rest, ctx = f :: rest →
        heap.read h4 f.addr = some (f.cell (path.parent rest none) (some c))) ∧
      (∀ a, a ≠ p → a ∉ o.addrs → a ≠ c → some a ≠ ctx.parent none →
        heap.read h4 a = heap.read h a) := by
  obtain ⟨hroot, hsub, hpath, hnds, hndc, hdisj⟩ := represents_plug hrep
  obtain ⟨hrp, HL, HR⟩ := hsub
  replace hrp : heap.read h p = some ⟨ctx.parent none, (some c), o.ptr, d⟩ := hrp
  obtain ⟨hrc, hcl, hcr⟩ := HL
  have ho : owns h (some p) o := HR
  simp only [btree.addrs, List.nodup_cons, List.mem_append, List.mem_cons, not_or] at hnds
  obtain ⟨⟨HPA, HPB⟩, hnd2⟩ := hnds
  rw [List.nodup_append] at hnd2
  obtain ⟨HNA, HNB, hab⟩ := hnd2
  have hpc : p ≠ c := HPA.1
  have hpo : p ∉ o.addrs := HPB
  have hco : c ∉ o.addrs := fun hc => hab (List.mem_cons_self _ _) hc
  have hndo : o.addrs.Nodup := HNB
  have hndcs : (btree.node c dc cl cr).addrs.Nodup := HNA
  have hlt : p < h.length := heap.read_lt hrp
  -- the store after `it.mData->left = nullptr; reserve->root = root;`
  have len1 : (h.set p (some (⟨ctx.parent none, none, o.ptr, d⟩ : tree_node T))).length
      = h.length := by simp
  have hrc1 : heap.read (h.set p (some (⟨ctx.parent none, none, o.ptr, d⟩ : tree_node T))) c
      = some ⟨some p, cl.ptr, cr.ptr, dc⟩ := by
    rw [heap.read_set_ne _ _ _ _ (Ne.symm hpc)]; exact hrc
  have hset1 := heap.set_left_eq hrp none
  have hset2 := heap.set_root_eq hrc1 (ctx.parent none)
  simp only at hset1 hset2
  generalize hh2 : ((h.set p (some (⟨ctx.parent none, none, o.ptr, d⟩ : tree_node T))).set c
      (some (⟨ctx.parent none, cl.ptr, cr.ptr, dc⟩ : tree_node T))) = h2 at hset2
  have len2 : h2.length = h.length := by rw [← hh2]; simp
  have r2p : heap.read h2 p = some ⟨ctx.parent none, none, o.ptr, d⟩ := by
    rw [← hh2, heap.read_set_ne _ _ _ _ hpc]
    exact heap.read_set_eq _ _ _ hlt
  have r2c : heap.read h2 c = some ⟨ctx.parent none, cl.ptr, cr.ptr, dc⟩ := by
    rw [← hh2]
    exact heap.read_set_eq _ _ _ (by rw [len1]; exact heap.read_lt hrc)
  have keep2 : ∀ a, a ≠ p → a ≠ c → heap.read h2 a = heap.read h a := by
    intro a ha hac
    rw [← hh2, heap.read_set_ne _ _ _ _ hac, heap.read_set_ne _ _ _ _ ha]
  have hpsub : p ∈ (btree.node p d (.node c dc cl cr) (o)).addrs := by simp [btree.addrs]
  have hcsub : c ∈ (btree.node p d (.node c dc cl cr) (o)).addrs := by simp [btree.addrs]
  have hosub : ∀ a, a ∈ o.addrs → a ∈ (btree.node p d (.node c dc cl cr) (o)).addrs := by
    intro a ha; simp [btree.addrs, ha]
  have hcssub : ∀ a, a ∈ (btree.node c dc cl cr).addrs →
      a ∈ (btree.node p d (.node c dc cl cr) (o)).addrs := by
    intro a ha
    simp only [btree.addrs, List.mem_cons, List.mem_append] at ha ⊢
    tauto
  have hcs_o : ∀ a, a ∈ (btree.node c dc cl cr).addrs → a ∉ o.addrs := by
    intro a ha hc
    exact hab ha hc
  have hcs_p : ∀ a, a ∈ (btree.node c dc cl cr).addrs → a ≠ p := by
    rintro a ha rfl
    simp only [btree.addrs, List.mem_cons, List.mem_append] at ha
    tauto
  cases ctx with
  | nil =>
    simp only [path.plug, btree.ptr] at hroot
    have ho2 : owns h2 none (.node p d .leaf o) := by
      refine ⟨?_, trivial, owns_congr o _ (fun a ha => ?_) ho⟩
      · simpa [path.parent, btree.ptr] using r2p
      · exact keep2 a (by rintro rfl; exact hpo ha) (by rintro rfl; exact hco ha)
    obtain ⟨h4, e4, len4, dead4, keep4⟩ := destroy_owns _ fuel h2 _ ho2
      (by simp [btree.addrs, hpo, hndo]) (by simpa [btree.height] using hf)
    replace e4 : destroy fuel h2 (some p) = .ok () h4 := e4
    simp only [btree.addrs, List.nil_append, List.append_nil, List.mem_cons, not_or] at dead4 keep4
    have r4c : heap.read h4 c = some ⟨none, cl.ptr, cr.ptr, dc⟩ := by
      rw [keep4 c ⟨Ne.symm hpc, hco⟩]; simpa [path.parent] using r2c
    have hkeep : ∀ a, a ≠ p → a ∉ o.addrs → a ≠ c → heap.read h4 a = heap.read h a := by
      intro a ha hao hac
      rw [keep4 a ⟨ha, hao⟩, keep2 a ha hac]
    refine ⟨h4, ⟨some c⟩, ?_, by simp, ⟨rfl, ?_, ?_⟩, by rw [len4, len2],
      dead4 p (Or.inl rfl), fun a ha => dead4 a (Or.inr ha), r4c, ?_,
      fun a ha hao hac _ => hkeep a ha hao hac⟩
    · simp only [path.parent] at hset1 hset2 hrp
      simp [reserve_left, iterator.usable, hrp, hset1, hset2, e4, result.and_then, hroot]
    · refine ⟨r4c, owns_congr cl _ (fun a ha => ?_) hcl, owns_congr cr _ (fun a ha => ?_) hcr⟩
      · have hm : a ∈ (btree.node c dc cl cr).addrs := by simp [btree.addrs, ha]
        simp only [btree.addrs, List.nodup_cons, List.mem_append, not_or] at hndcs
        exact hkeep a (hcs_p a hm) (hcs_o a hm) (by rintro rfl; exact hndcs.1.1 ha)
      · have hm : a ∈ (btree.node c dc cl cr).addrs := by simp [btree.addrs, ha]
        simp only [btree.addrs, List.nodup_cons, List.mem_append, not_or] at hndcs
        exact hkeep a (hcs_p a hm) (hcs_o a hm) (by rintro rfl; exact hndcs.1.2 ha)
    · simpa [path.plug] using hndcs
    · intro f rest hc; cases hc
  | cons f rest =>
    obtain ⟨a0, ha0, hptr⟩ := path.plug_ptr (f :: rest) (by simp)
    have hp_notin : p ∉ path.addrs (f :: rest) := hdisj p hpsub
    have hc_notin : c ∉ path.addrs (f :: rest) := hdisj c hcsub
    have hne : (some p : Option Nat) ≠ t.mRoot := by
      rw [hroot, hptr]
      intro e
      simp only [Option.some.injEq] at e
      exact hp_notin (e ▸ ha0)
    obtain ⟨hcell0, hsib, hrest⟩ := hpath
    replace hcell0 : heap.read h f.addr = some (f.cell (path.parent rest none) (some p)) :=
      hcell0
    have hfin : f.addr ∈ path.addrs (f :: rest) := by simp [path.addrs, frame.addrs]
    have hfp : f.addr ≠ p := by rintro rfl; exact hp_notin hfin
    have hfc : f.addr ≠ c := by rintro rfl; exact hc_notin hfin
    have hfo : f.addr ∉ o.addrs := fun hc => hdisj _ (hosub _ hc) hfin
    have hsp : f.sibling.ptr ≠ some p := by
      intro e
      exact hp_notin (by simp [path.addrs, frame.addrs, btree.ptr_mem e])
    have hcell2 : heap.read h2 f.addr = some (f.cell (path.parent rest none) (some p)) := by
      rw [keep2 _ hfp hfc]; exact hcell0
    have hupd := slot_update f (path.parent rest none) (some c) p h2 hcell2 hsp
    generalize hh3 : h2.set f.addr (some (f.cell (path.parent rest none) (some c))) = h3
      at hupd
    have len3 : h3.length = h.length := by rw [← hh3]; simp [len2]
    have keep3 : ∀ a, a ≠ f.addr → heap.read h3 a = heap.read h2 a := by
      intro a ha
      rw [← hh3]; exact heap.read_set_ne _ _ _ _ ha
    have r3f : heap.read h3 f.addr = some (f.cell (path.parent rest none) (some c)) := by
      rw [← hh3]; exact heap.read_set_eq _ _ _ (by rw [len2]; exact heap.read_lt hcell0)
    have ho3 : owns h3 (some f.addr) (.node p d .leaf o) := by
      refine ⟨?_, trivial, owns_congr o _ (fun a ha => ?_) ho⟩
      · rw [keep3 _ (Ne.symm hfp)]; simpa [path.parent, btree.ptr] using r2p
      · rw [keep3 _ (by rintro rfl; exact hfo ha)]
        exact keep2 a (by rintro rfl; exact hpo ha) (by rintro rfl; exact hco ha)
    obtain ⟨h4, e4, len4, dead4, keep4⟩ := destroy_owns _ fuel h3 _ ho3
      (by simp [btree.addrs, hpo, hndo]) (by simpa [btree.height] using hf)
    replace e4 : destroy fuel h3 (some p) = .ok () h4 := e4
    simp only [btree.addrs, List.nil_append, List.append_nil, List.mem_cons, not_or] at dead4 keep4
    have r4c : heap.read h4 c = some ⟨some f.addr, cl.ptr, cr.ptr, dc⟩ := by
      rw [keep4 c ⟨Ne.symm hpc, hco⟩, keep3 _ (Ne.symm hfc)]
      simpa [path.parent] using r2c
    have r4f : heap.read h4 f.addr = some (f.cell (path.parent rest none) (some c)) := by
      rw [keep4 _ ⟨hfp, hfo⟩]; exact r3f
    have hkeep : ∀ a, a ≠ p → a ∉ o.addrs → a ≠ c → some a ≠ path.parent (f :: rest) none →
        heap.read h4 a = heap.read h a := by
      intro a ha hao hac haf
      have : a ≠ f.addr := by rintro rfl; exact haf rfl
      rw [keep4 a ⟨ha, hao⟩, keep3 a this, keep2 a ha hac]
    refine ⟨h4, t, ?_, by simp, ?_, by rw [len4, len3],
      dead4 p (Or.inl rfl), fun a ha => dead4 a (Or.inr ha), r4c, ?_, hkeep⟩
    · simp only [path.parent] at hset1 hset2 hrp
      simp only [reserve_left, iterator.usable]
      by_cases hc : some p = (f.cell (path.parent rest none) (some p)).left
      · simp [hne, hrp, hset1, hset2, hcell2, eq_true hc, hupd.1 hc, e4, result.and_then]
      · simp [hne, hrp, hset1, hset2, hcell2, hc, hupd.2 hc, e4, result.and_then]
    · refine represents_of_plug ?_ ?_ hndcs hndc (fun a ha => hdisj a (hcssub a ha))
      · rw [hroot, hptr, hptr]
      · refine graft (f :: rest) (some p) _ ⟨hcell0, hsib, hrest⟩ hndc ?_ ?_ ?_
        · intro f1 rest1 hc
          cases hc
          exact r4f
        · intro a ha hap
          have hasub : a ∉ (btree.node p d (.node c dc cl cr) (o)).addrs := fun hc => hdisj a hc ha
          exact hkeep a (by rintro rfl; exact hasub hpsub) (fun hc => hasub (hosub a hc))
            (by rintro rfl; exact hasub hcsub) hap
        · refine ⟨r4c, owns_congr cl _ (fun a ha => ?_) hcl,
            owns_congr cr _ (fun a ha => ?_) hcr⟩
          · have hm : a ∈ (btree.node c dc cl cr).addrs := by simp [btree.addrs, ha]
            simp only [btree.addrs, List.nodup_cons, List.mem_append, not_or] at hndcs
            exact hkeep a (hcs_p a hm) (hcs_o a hm) (by rintro rfl; exact hndcs.1.1 ha)
              (by rintro e; simp only [path.parent, Option.some.injEq] at e
                  exact hdisj a (hcssub a hm) (e ▸ hfin))
          · have hm : a ∈ (btree.node c dc cl cr).addrs := by simp [btree.addrs, ha]
            simp only [btree.addrs, List.nodup_cons, List.mem_append, not_or] at hndcs
            exact hkeep a (hcs_p a hm) (hcs_o a hm) (by rintro rfl; exact hndcs.1.2 ha)
              (by rintro e; simp only [path.parent, Option.some.injEq] at e
                  exact hdisj a (hcssub a hm) (e ▸ hfin))
    · intro f1 rest1 hc
      cases hc
      exact r4f

theorem reserve_right_ok (fuel : Nat) (h : heap T) (t : tree_type T) (ctx : path T)
    (p : Nat) (d : T) (c : Nat) (dc : T) (cl cr o : btree T)
    (hrep : represents h t (ctx.plug (.node p d o (.node c dc cl cr))))
    (hf : 1 + o.height ≤ fuel) :
    ∃ h4 t1, reserve_right fuel h t ⟨some p⟩ = .ok ⟨some c⟩ (h4, t1) ∧
      t1 = (if ctx.isEmpty then ⟨some c⟩ else t) ∧
      represents h4 t1 (ctx.plug (.node c dc cl cr)) ∧
      h4.length = h.length ∧
      heap.read h4 p = none ∧
      (∀ a ∈ o.addrs, heap.read h4 a = none) ∧
      heap.read h4 c = some ⟨ctx.parent none, cl.ptr, cr.ptr, dc⟩ ∧
      (∀ f rest, ctx = f :: rest →
        heap.read h4 f.addr = some (f.cell (path.parent rest none) (some c))) ∧
      (∀ a, a ≠ p → a ∉ o.addrs → a ≠ c → some a ≠ ctx.parent none →
        heap.read h4 a = heap.read h a) := by
  obtain ⟨hroot, hsub, hpath, hnds, hndc, hdisj⟩ := represents_plug hrep
  obtain ⟨hrp, HL, HR⟩ := hsub
  replace hrp : heap.read h p = some ⟨ctx.parent none, o.ptr, (some c), d⟩ := hrp
  obtain ⟨hrc, hcl, hcr⟩ := HR
  have ho : owns h (some p) o := HL
  simp only [btree.addrs, List.nodup_cons, List.mem_append, List.mem_cons, not_or] at hnds
  obtain ⟨⟨HPA, HPB⟩, hnd2⟩ := hnds
  rw [List.nodup_append] at hnd2
  obtain ⟨HNA, HNB, hab⟩ := hnd2
  have hpc : p ≠ c := HPB.1
  have hpo : p ∉ o.addrs := HPA
  have hco : c ∉ o.addrs := fun hc => hab hc (List.mem_cons_self _ _)
  have hndo : o.addrs.Nodup := HNA
  have hndcs : (btree.node c dc cl cr).addrs.Nodup := HNB
  have hlt : p < h.length := heap.read_lt hrp
  -- the store after `it.mData->right = nullptr; reserve->root = root;`
  have len1 : (h.set p (some (⟨ctx.parent none, o.ptr, none, d⟩ : tree_node T))).length
      = h.length := by simp
  have hrc1 : heap.read (h.set p (some (⟨ctx.parent none, o.ptr, none, d⟩ : tree_node T))) c
      = some ⟨some p, cl.ptr, cr.ptr, dc⟩ := by
    rw [heap.read_set_ne _ _ _ _ (Ne.symm hpc)]; exact hrc
  have hset1 := heap.set_right_eq hrp none
  have hset2 := heap.set_root_eq hrc1 (ctx.parent none)
  simp only at hset1 hset2
  generalize hh2 : ((h.set p (some (⟨ctx.parent none, o.ptr, none, d⟩ : tree_node T))).set c
      (some (⟨ctx.parent none, cl.ptr, cr.ptr, dc⟩ : tree_node T))) = h2 at hset2
  have len2 : h2.length = h.length := by rw [← hh2]; simp
  have r2p : heap.read h2 p = some ⟨ctx.parent none, o.ptr, none, d⟩ := by
    rw [← hh2, heap.read_set_ne _ _ _ _ hpc]
    exact heap.read_set_eq _ _ _ hlt
  have r2c : heap.read h2 c = some ⟨ctx.parent none, cl.ptr, cr.ptr, dc⟩ := by
    rw [← hh2]
    exact heap.read_set_eq _ _ _ (by rw [len1]; exact heap.read_lt hrc)
  have keep2 : ∀ a, a ≠ p → a ≠ c → heap.read h2 a = heap.read h a := by
    intro a ha hac
    rw [← hh2, heap.read_set_ne _ _ _ _ hac, heap.read_set_ne _ _ _ _ ha]
  have hpsub : p ∈ (btree.node p d (o) (.node c dc cl cr)).addrs := by simp [btree.addrs]
  have hcsub : c ∈ (btree.node p d (o) (.node c dc cl cr)).addrs := by simp [btree.addrs]
  have hosub : ∀ a, a ∈ o.addrs → a ∈ (btree.node p d (o) (.node c dc cl cr)).addrs := by
    intro a ha; simp [btree.addrs, ha]
  have hcssub : ∀ a, a ∈ (btree.node c dc cl cr).addrs →
      a ∈ (btree.node p d (o) (.node c dc cl cr)).addrs := by
    intro a ha
    simp only [btree.addrs, List.mem_cons, List.mem_append] at ha ⊢
    tauto
  have hcs_o : ∀ a, a ∈ (btree.node c dc cl cr).addrs → a ∉ o.addrs := by
    intro a ha hc
    exact hab hc ha
  have hcs_p : ∀ a, a ∈ (btree.node c dc cl cr).addrs → a ≠ p := by
    rintro a ha rfl
    simp only [btree.addrs, List.mem_cons, List.mem_append] at ha
    tauto
  cases ctx with
  | nil =>
    simp only [path.plug, btree.ptr] at hroot
    have ho2 : owns h2 none (.node p d o .leaf) := by
      refine ⟨?_, owns_congr o _ (fun a ha => ?_) ho, trivial⟩
      · simpa [path.parent, btree.ptr] using r2p
      · exact keep2 a (by rintro rfl; exact hpo ha) (by rintro rfl; exact hco ha)
    obtain ⟨h4, e4, len4, dead4, keep4⟩ := destroy_owns _ fuel h2 _ ho2
      (by simp [btree.addrs, hpo, hndo]) (by simpa [btree.height] using hf)
    replace e4 : destroy fuel h2 (some p) = .ok () h4 := e4
    simp only [btree.addrs, List.nil_append, List.append_nil, List.mem_cons, not_or] at dead4 keep4
    have r4c : heap.read h4 c = some ⟨none, cl.ptr, cr.ptr, dc⟩ := by
      rw [keep4 c ⟨Ne.symm hpc, hco⟩]; simpa [path.parent] using r2c
    have hkeep : ∀ a, a ≠ p → a ∉ o.addrs → a ≠ c → heap.read h4 a = heap.read h a := by
      intro a ha hao hac
      rw [keep4 a ⟨ha, hao⟩, keep2 a ha hac]
    refine ⟨h4, ⟨some c⟩, ?_, by simp, ⟨rfl, ?_, ?_⟩, by rw [len4, len2],
      dead4 p (Or.inl rfl), fun a ha => dead4 a (Or.inr ha), r4c, ?_,
      fun a ha hao hac _ => hkeep a ha hao hac⟩
    · simp only [path.parent] at hset1 hset2 hrp
      simp [reserve_right, iterator.usable, hrp, hset1, hset2, e4, result.and_then, hroot]
    · refine ⟨r4c, owns_congr cl _ (fun a ha => ?_) hcl, owns_congr cr _ (fun a ha => ?_) hcr⟩
      · have hm : a ∈ (btree.node c dc cl cr).addrs := by simp [btree.addrs, ha]
        simp only [btree.addrs, List.nodup_cons, List.mem_append, not_or] at hndcs
        exact hkeep a (hcs_p a hm) (hcs_o a hm) (by rintro rfl; exact hndcs.1.1 ha)
      · have hm : a ∈ (btree.node c dc cl cr).addrs := by simp [btree.addrs, ha]
        simp only [btree.addrs, List.nodup_cons, List.mem_append, not_or] at hndcs
        exact hkeep a (hcs_p a hm) (hcs_o a hm) (by rintro rfl; exact hndcs.1.2 ha)
    · simpa [path.plug] using hndcs
    · intro f rest hc; cases hc
  | cons f rest =>
    obtain ⟨a0, ha0, hptr⟩ := path.plug_ptr (f :: rest) (by simp)
    have hp_notin : p ∉ path.addrs (f :: rest) := hdisj p hpsub
    have hc_notin : c ∉ path.addrs (f :: rest) := hdisj c hcsub
    have hne : (some p : Option Nat) ≠ t.mRoot := by
      rw [hroot, hptr]
      intro e
      simp only [Option.some.injEq] at e
      exact hp_notin (e ▸ ha0)
    obtain ⟨hcell0, hsib, hrest⟩ := hpath
    replace hcell0 : heap.read h f.addr = some (f.cell (path.parent rest none) (some p)) :=
      hcell0
    have hfin : f.addr ∈ path.addrs (f :: rest) := by simp [path.addrs, frame.addrs]
    have hfp : f.addr ≠ p := by rintro rfl; exact hp_notin hfin
    have hfc : f.addr ≠ c := by rintro rfl; exact hc_notin hfin
    have hfo : f.addr ∉ o.addrs := fun hc => hdisj _ (hosub _ hc) hfin
    have hsp : f.sibling.ptr ≠ some p := by
      intro e
      exact hp_notin (by simp [path.addrs, frame.addrs, btree.ptr_mem e])
    have hcell2 : heap.read h2 f.addr = some (f.cell (path.parent rest none) (some p)) := by
      rw [keep2 _ hfp hfc]; exact hcell0
    have hupd := slot_update f (path.parent rest none) (some c) p h2 hcell2 hsp
    generalize hh3 : h2.set f.addr (some (f.cell (path.parent rest none) (some c))) = h3
      at hupd
    have len3 : h3.length = h.length := by rw [← hh3]; simp [len2]
    have keep3 : ∀ a, a ≠ f.addr → heap.read h3 a = heap.read h2 a := by
      intro a ha
      rw [← hh3]; exact heap.read_set_ne _ _ _ _ ha
    have r3f : heap.read h3 f.addr = some (f.cell (path.parent rest none) (some c)) := by
      rw [← hh3]; exact heap.read_set_eq _ _ _ (by rw [len2]; exact heap.read_lt hcell0)
    have ho3 : owns h3 (some f.addr) (.node p d o .leaf) := by
      refine ⟨?_, owns_congr o _ (fun a ha => ?_) ho, trivial⟩
      · rw [keep3 _ (Ne.symm hfp)]; simpa [path.parent, btree.ptr] using r2p
      · rw [keep3 _ (by rintro rfl; exact hfo ha)]
        exact keep2 a (by rintro rfl; exact hpo ha) (by rintro rfl; exact hco ha)
    obtain ⟨h4, e4, len4, dead4, keep4⟩ := destroy_owns _ fuel h3 _ ho3
      (by simp [btree.addrs, hpo, hndo]) (by simpa [btree.height] using hf)
    replace e4 : destroy fuel h3 (some p) = .ok () h4 := e4
    simp only [btree.addrs, List.nil_append, List.append_nil, List.mem_cons, not_or] at dead4 keep4
    have r4c : heap.read h4 c = some ⟨some f.addr, cl.ptr, cr.ptr, dc⟩ := by
      rw [keep4 c ⟨Ne.symm hpc, hco⟩, keep3 _ (Ne.symm hfc)]
      simpa [path.parent] using r2c
    have r4f : heap.read h4 f.addr = some (f.cell (path.parent rest none) (some c)) := by
      rw [keep4 _ ⟨hfp, hfo⟩]; exact r3f
    have hkeep : ∀ a, a ≠ p → a ∉ o.addrs → a ≠ c → some a ≠ path.parent (f :: rest) none →
        heap.read h4 a = heap.read h a := by
      intro a ha hao hac haf
      have : a ≠ f.addr := by rintro rfl; exact haf rfl
      rw [keep4 a ⟨ha, hao⟩, keep3 a this, keep2 a ha hac]
    refine ⟨h4, t, ?_, by simp, ?_, by rw [len4, len3],
      dead4 p (Or.inl rfl), fun a ha => dead4 a (Or.inr ha), r4c, ?_, hkeep⟩
    · simp only [path.parent] at hset1 hset2 hrp
      simp only [reserve_right, iterator.usable]
      by_cases hc : some p = (f.cell (path.parent rest none) (some p)).left
      · simp [hne, hrp, hset1, hset2, hcell2, eq_true hc, hupd.1 hc, e4, result.and_then]
      · simp [hne, hrp, hset1, hset2, hcell2, hc, hupd.2 hc, e4, result.and_then]
    · refine represents_of_plug ?_ ?_ hndcs hndc (fun a ha => hdisj a (hcssub a ha))
      · rw [hroot, hptr, hptr]
      · refine graft (f :: rest) (some p) _ ⟨hcell0, hsib, hrest⟩ hndc ?_ ?_ ?_
        · intro f1 rest1 hc
          cases hc
          exact r4f
        · intro a ha hap
          have hasub : a ∉ (btree.node p d (o) (.node c dc cl cr)).addrs := fun hc => hdisj a hc ha
          exact hkeep a (by rintro rfl; exact hasub hpsub) (fun hc => hasub (hosub a hc))
            (by rintro rfl; exact hasub hcsub) hap
        · refine ⟨r4c, owns_congr cl _ (fun a ha => ?_) hcl,
            owns_congr cr _ (fun a ha => ?_) hcr⟩
          · have hm : a ∈ (btree.node c dc cl cr).addrs := by simp [btree.addrs, ha]
            simp only [btree.addrs, List.nodup_cons, List.mem_append, not_or] at hndcs
            exact hkeep a (hcs_p a hm) (hcs_o a hm) (by rintro rfl; exact hndcs.1.1 ha)
              (by rintro e; simp only [path.parent, Option.some.injEq] at e
                  exact hdisj a (hcssub a hm) (e ▸ hfin))
          · have hm : a ∈ (btree.node c dc cl cr).addrs := by simp [btree.addrs, ha]
            simp only [btree.addrs, List.nodup_cons, List.mem_append, not_or] at hndcs
            exact hkeep a (hcs_p a hm) (hcs_o a hm) (by rintro rfl; exact hndcs.1.2 ha)
              (by rintro e; simp only [path.parent, Option.some.injEq] at e
                  exact hdisj a (hcssub a hm) (e ▸ hfin))
    · intro f1 rest1 hc
      cases hc
      exact r4f

end tree_type

namespace tree_type

variable {T : Type}

theorem merge_ok (fuel : Nat) (h : heap T) (t : tree_type T) (ctx : path T)
    (p : Nat) (d : T) (l r : btree T) (D : tree_type T) (dtr : btree T)
    (hrep : represents h t (ctx.plug (.node p d l r)))
    (hD : represents h D dtr)
    (hdis : ∀ a, a ∈ dtr.addrs → a ∉ (ctx.plug (.node p d l r)).addrs)
    (hf : (btree.node p d l r).height ≤ fuel) (hfD : dtr.height ≤ fuel) :
    ∃ h3 t1, merge fuel h t ⟨some p⟩ D = .ok ⟨(dtr.relabel h.length).ptr⟩ (h3, t1) ∧
      t1 = (if ctx.isEmpty then ⟨(dtr.relabel h.length).ptr⟩ else t) ∧
      represents h3 t1 (ctx.plug (dtr.relabel h.length)) ∧
      represents h3 D dtr ∧
      h3.length = h.length + dtr.size ∧
      (∀ a ∈ (btree.node p d l r).addrs, heap.read h3 a = none) ∧
      (∀ f rest, ctx = f :: rest →
        heap.read h3 f.addr = some (f.cell (path.parent rest none) (dtr.relabel h.length).ptr)) ∧
      (∀ a, a < h.length → a ∉ (btree.node p d l r).addrs → some a ≠ ctx.parent none →
        heap.read h3 a = heap.read h a) := by
  have hallt : ∀ a, a ∈ (ctx.plug (.node p d l r)).addrs → a < h.length :=
    fun a ha => owns_lt hrep.2.1 ha
  obtain ⟨hroot, hsub, hpath, hnds, hndc, hdisj⟩ := represents_plug hrep
  obtain ⟨hDroot, hDown, hDnd⟩ := hD
  have hrp : heap.read h p = some ⟨ctx.parent none, l.ptr, r.ptr, d⟩ := hsub.1
  have hsublt : ∀ a, a ∈ (btree.node p d l r).addrs → a < h.length :=
    fun a ha => hallt a ((path.mem_plug_addrs _ _ _).2 (Or.inl ha))
  have hctxlt : ∀ a, a ∈ ctx.addrs → a < h.length :=
    fun a ha => hallt a ((path.mem_plug_addrs _ _ _).2 (Or.inr ha))
  have hDsub : ∀ a, a ∈ dtr.addrs → a ∉ (btree.node p d l r).addrs :=
    fun a ha hc => hdis a ha ((path.mem_plug_addrs _ _ _).2 (Or.inl hc))
  have hDctx : ∀ a, a ∈ dtr.addrs → a ∉ ctx.addrs :=
    fun a ha hc => hdis a ha ((path.mem_plug_addrs _ _ _).2 (Or.inr hc))
  obtain ⟨h1, e1, len1, keep1, own1⟩ := copy_owns dtr fuel h none (ctx.parent none) hDown hfD
  rw [← hDroot] at e1
  have hnewge : ∀ a, a ∈ (dtr.relabel h.length).addrs → h.length ≤ a := by
    intro a ha
    rw [btree.mem_addrs_relabel] at ha
    exact ha.1
  have hnewnd := btree.nodup_addrs_relabel dtr h.length
  have hnewctx : ∀ a, a ∈ (dtr.relabel h.length).addrs → a ∉ ctx.addrs := by
    intro a ha hc
    have := hnewge a ha
    have := hctxlt a hc
    omega
  cases ctx with
  | nil =>
    simp only [path.plug, btree.ptr] at hroot
    have hsub1 : owns h1 none (.node p d l r) :=
      owns_congr _ _ (fun a ha => keep1 a (hsublt a ha)) hsub
    obtain ⟨h3, e3, len3, dead3, keep3⟩ := destroy_owns _ fuel h1 _ hsub1 hnds hf
    replace e3 : destroy fuel h1 (some p) = .ok () h3 := e3
    have hkeep : ∀ a, a < h.length → a ∉ (btree.node p d l r).addrs →
        heap.read h3 a = heap.read h a := by
      intro a ha hs
      rw [keep3 a hs, keep1 a ha]
    refine ⟨h3, ⟨(dtr.relabel h.length).ptr⟩, ?_, by simp, ⟨rfl, ?_, ?_⟩, ⟨hDroot, ?_, hDnd⟩,
      by rw [len3, len1], dead3, ?_, fun a ha hs _ => hkeep a ha hs⟩
    · simp only [path.parent] at hrp e1
      simp [merge, iterator.usable, hrp, e1, result.and_then, e3, hroot]
    · refine owns_congr _ _ (fun a ha => keep3 a ?_) own1
      intro hc
      have := hnewge a ha
      have := hsublt a hc
      omega
    · simpa [path.plug] using hnewnd
    · refine owns_congr _ _ (fun a ha => ?_) hDown
      exact hkeep a (owns_lt hDown ha) (hDsub a ha)
    · intro f rest hc; cases hc
  | cons f rest =>
    obtain ⟨a0, ha0, hptr⟩ := path.plug_ptr (f :: rest) (by simp)
    have hp_notin : p ∉ path.addrs (f :: rest) := hdisj p (by simp [btree.addrs])
    have hne : (some p : Option Nat) ≠ t.mRoot := by
      rw [hroot, hptr]
      intro e
      simp only [Option.some.injEq] at e
      exact hp_notin (e ▸ ha0)
    obtain ⟨hcell0, hsib, hrest⟩ := hpath
    replace hcell0 : heap.read h f.addr = some (f.cell (path.parent rest none) (some p)) :=
      hcell0
    have hfin : f.addr ∈ path.addrs (f :: rest) := by simp [path.addrs, frame.addrs]
    have hflt : f.addr < h.length := hctxlt _ hfin
    have hfsub : f.addr ∉ (btree.node p d l r).addrs := fun hc => hdisj _ hc hfin
    have hsp : f.sibling.ptr ≠ some p := by
      intro e
      exact hp_notin (by simp [path.addrs, frame.addrs, btree.ptr_mem e])
    have hcell1 : heap.read h1 f.addr = some (f.cell (path.parent rest none) (some p)) := by
      rw [keep1 _ hflt]; exact hcell0
    have hupd := slot_update f (path.parent rest none) (dtr.relabel h.length).ptr p h1 hcell1 hsp
    generalize hh2 : h1.set f.addr
      (some (f.cell (path.parent rest none) (dtr.relabel h.length).ptr)) = h2 at hupd
    have len2 : h2.length = h.length + dtr.size := by rw [← hh2]; simp [len1]
    have keep2 : ∀ a, a ≠ f.addr → heap.read h2 a = heap.read h1 a := by
      intro a ha
      rw [← hh2]; exact heap.read_set_ne _ _ _ _ ha
    have r2f : heap.read h2 f.addr
        = some (f.cell (path.parent rest none) (dtr.relabel h.length).ptr) := by
      rw [← hh2]; exact heap.read_set_eq _ _ _ (by rw [len1]; omega)
    have hsub2 : owns h2 (some f.addr) (.node p d l r) := by
      refine owns_congr _ _ (fun a ha => ?_) hsub
      rw [keep2 a (by rintro rfl; exact hfsub ha), keep1 a (hsublt a ha)]
    obtain ⟨h3, e3, len3, dead3, keep3⟩ := destroy_owns _ fuel h2 _ hsub2 hnds hf
    replace e3 : destroy fuel h2 (some p) = .ok () h3 := e3
    have r3f : heap.read h3 f.addr
        = some (f.cell (path.parent rest none) (dtr.relabel h.length).ptr) := by
      rw [keep3 _ hfsub]; exact r2f
    have hkeep : ∀ a, a < h.length → a ∉ (btree.node p d l r).addrs →
        some a ≠ path.parent (f :: rest) none → heap.read h3 a = heap.read h a := by
      intro a ha hs haf
      have : a ≠ f.addr := by rintro rfl; exact haf rfl
      rw [keep3 a hs, keep2 a this, keep1 a ha]
    refine ⟨h3, t, ?_, by simp, ?_, ⟨hDroot, ?_, hDnd⟩, by rw [len3, len2], dead3, ?_, hkeep⟩
    · simp only [path.parent] at hrp e1
      simp only [merge, iterator.usable]
      by_cases hc : some p = (f.cell (path.parent rest none) (some p)).left
      · simp [hne, hrp, e1, hcell1, eq_true hc, hupd.1 hc, e3, result.and_then]
      · simp [hne, hrp, e1, hcell1, hc, hupd.2 hc, e3, result.and_then]
    · refine represents_of_plug ?_ ?_ hnewnd hndc hnewctx
      · rw [hroot, hptr, hptr]
      · refine graft (f :: rest) (some p) _ ⟨hcell0, hsib, hrest⟩ hndc ?_ ?_ ?_
        · intro f1 rest1 hc
          cases hc
          exact r3f
        · intro a ha hap
          exact hkeep a (hctxlt a ha) (fun hc => hdisj a hc ha) hap
        · refine owns_congr _ _ (fun a ha => ?_) own1
          have hge := hnewge a ha
          rw [keep3 a (fun hc => by have := hsublt a hc; omega),
            keep2 a (by rintro rfl; omega)]
    · refine owns_congr _ _ (fun a ha => ?_) hDown
      refine hkeep a (owns_lt hDown ha) (hDsub a ha) ?_
      simp only [path.parent, ne_eq, Option.some.injEq]
      rintro rfl
      exact hDctx _ ha hfin
    · intro f1 rest1 hc
      cases hc
      exact r3f

end tree_type

namespace tree_type

variable {T : Type}

theorem reparent (h1 : heap T) (k : btree T) (par new : Option Nat)
    (ho : owns h1 par k) (hnd : k.addrs.Nodup) :
    ∃ h2 : heap T, (k.ptr = none → h2 = h1) ∧
      (∀ c, k.ptr = some c → h1.set_root c new = some h2) ∧
      h2.length = h1.length ∧ owns h2 new k ∧
      (∀ a, some a ≠ k.ptr → heap.read h2 a = heap.read h1 a) ∧
      (∀ c n, k.ptr = some c → heap.read h1 c = some n →
        heap.read h2 c = some { n with root := new }) := by
  cases k with
  | leaf =>
    refine ⟨h1, fun _ => rfl, ?_, rfl, trivial, fun _ _ => rfl, ?_⟩
    · intro c hc; simp [btree.ptr] at hc
    · intro c n hc; simp [btree.ptr] at hc
  | node c dc cl cr =>
    have hrc : heap.read h1 c = some ⟨par, cl.ptr, cr.ptr, dc⟩ := ho.1
    refine ⟨h1.set c (some ⟨new, cl.ptr, cr.ptr, dc⟩), ?_, ?_, by simp,
      owns_reparent new ho hnd, ?_, ?_⟩
    · intro hc; simp [btree.ptr] at hc
    · intro c1 hc
      simp only [btree.ptr, Option.some.injEq] at hc
      subst hc
      rw [heap.set_root_eq hrc]
    · intro a ha
      refine heap.read_set_ne _ _ _ _ ?_
      rintro rfl
      exact ha rfl
    · intro c1 n hc hn
      simp only [btree.ptr, Option.some.injEq] at hc
      subst hc
      rw [hrc] at hn
      injection hn with hn
      subst hn
      exact heap.read_set_eq _ _ _ (heap.read_lt hrc)

theorem insert_left_left_ok (h : heap T) (t : tree_type T) (ctx : path T)
    (p : Nat) (d : T) (l r : btree T) (v : T)
    (hrep : represents h t (ctx.plug (.node p d l r))) :
    ∃ h3, insert_left_left h t ⟨some p⟩ v = .ok ⟨some h.length⟩ (h3, t) ∧
      represents h3 t (ctx.plug (.node p d (.node h.length v l .leaf) r)) ∧
      h3.length = h.length + 1 ∧
      heap.read h3 p = some ⟨ctx.parent none, some h.length, r.ptr, d⟩ ∧
      heap.read h3 h.length = some ⟨some p, l.ptr, none, v⟩ ∧
      (∀ c n, l.ptr = some c → heap.read h c = some n →
        heap.read h3 c = some { n with root := some h.length }) ∧
      (∀ a, a < h.length → a ≠ p → some a ≠ l.ptr → heap.read h3 a = heap.read h a) := by
  have hallt : ∀ a, a ∈ (ctx.plug (.node p d l r)).addrs → a < h.length :=
    fun a ha => owns_lt hrep.2.1 ha
  obtain ⟨hroot, hsub, hpath, hnds, hndc, hdisj⟩ := represents_plug hrep
  obtain ⟨hrp, hl, hr⟩ := hsub
  have hsublt : ∀ a, a ∈ (btree.node p d l r).addrs → a < h.length :=
    fun a ha => hallt a ((path.mem_plug_addrs _ _ _).2 (Or.inl ha))
  have hctxlt : ∀ a, a ∈ ctx.addrs → a < h.length :=
    fun a ha => hallt a ((path.mem_plug_addrs _ _ _).2 (Or.inr ha))
  simp only [btree.addrs, List.nodup_cons, List.mem_append, not_or] at hnds
  obtain ⟨⟨hpl, hpr⟩, hnd2⟩ := hnds
  rw [List.nodup_append] at hnd2
  obtain ⟨hndl, hndr, hlr⟩ := hnd2
  have hplt : p < h.length := heap.read_lt hrp
  have hllt : ∀ a, a ∈ l.addrs → a < h.length :=
    fun a ha => hsublt a (by simp [btree.addrs, ha])
  have hrlt : ∀ a, a ∈ r.addrs → a < h.length :=
    fun a ha => hsublt a (by simp [btree.addrs, ha])
  have hk : owns h (some p) l := hl
  have hndk : l.addrs.Nodup := hndl
  have hpk : p ∉ l.addrs := hpl
  have hklt : ∀ a, a ∈ l.addrs → a < h.length := hllt
  -- the new node
  have keep1 : ∀ a, a < h.length →
      heap.read (h ++ [some (⟨some p, l.ptr, none, v⟩ : tree_node T)]) a = heap.read h a :=
    fun a ha => heap.read_append_lt _ _ _ ha
  have r1b : heap.read (h ++ [some (⟨some p, l.ptr, none, v⟩ : tree_node T)]) h.length = some ⟨some p, l.ptr, none, v⟩ :=
    heap.read_append_length _ _
  have hk1 : owns (h ++ [some (⟨some p, l.ptr, none, v⟩ : tree_node T)]) (some p) l :=
    owns_congr _ _ (fun a ha => keep1 a (hklt a ha)) hk
  obtain ⟨h2, hnone, hsome, len2, own2, keep2, rep2⟩ :=
    reparent _ l (some p) (some h.length) hk1 hndk
  have hkptr : ∀ a, l.ptr = some a → a < h.length :=
    fun a ha => hklt a (btree.ptr_mem ha)
  have r2p : heap.read h2 p = some ⟨ctx.parent none, l.ptr, r.ptr, d⟩ := by
    rw [keep2 p (fun e => hpk (btree.ptr_mem e.symm)), keep1 p hplt]
    exact hrp
  have r2b : heap.read h2 h.length = some ⟨some p, l.ptr, none, v⟩ := by
    rw [keep2 _ (fun e => by have := hkptr _ e.symm; omega)]
    exact r1b
  have hset3 := heap.set_left_eq r2p (some h.length)
  simp only at hset3
  generalize hh3 : h2.set p (some (⟨ctx.parent none, some h.length, r.ptr, d⟩ : tree_node T)) = h3 at hset3
  have len3 : h3.length = h.length + 1 := by rw [← hh3]; simp [len2]
  have r3p : heap.read h3 p = some ⟨ctx.parent none, some h.length, r.ptr, d⟩ := by
    rw [← hh3]; exact heap.read_set_eq _ _ _ (by rw [len2]; simp; omega)
  have keep3 : ∀ a, a ≠ p → heap.read h3 a = heap.read h2 a := by
    intro a ha
    rw [← hh3]; exact heap.read_set_ne _ _ _ _ ha
  have hkeep : ∀ a, a < h.length → a ≠ p → some a ≠ l.ptr →
      heap.read h3 a = heap.read h a := by
    intro a ha hap hak
    rw [keep3 a hap, keep2 a hak, keep1 a ha]
  have own3k : owns h3 (some h.length) l :=
    owns_congr _ _ (fun a ha => keep3 a (by rintro rfl; exact hpk ha)) own2
  have own3o : owns h3 (some p) r := by
    refine owns_congr _ _ (fun a ha => ?_) hr
    refine hkeep a (hrlt a ha) (by rintro rfl; exact hpr ha) ?_
    intro e
    exact hlr (btree.ptr_mem e.symm) ha
  have r3b : heap.read h3 h.length = some ⟨some p, l.ptr, none, v⟩ := by
    rw [keep3 _ (by omega)]; exact r2b
  refine ⟨h3, ?_, ?_, len3, r3p, r3b, ?_, hkeep⟩
  · have e0 : heap.read h p = some ⟨ctx.parent none, l.ptr, r.ptr, d⟩ := hrp
    cases hkp : l.ptr with
    | none =>
      have := hnone hkp
      subst this
      simp only [hkp] at *
      simp [insert_left_left, iterator.usable, e0, heap.alloc, keep1 p hplt, hkp, hset3, result.of_option]
    | some c =>
      have := hsome c hkp
      simp only [hkp] at *
      simp [insert_left_left, iterator.usable, e0, heap.alloc, keep1 p hplt, hkp, this, hset3, result.of_option]
  · refine represents_of_plug ?_ ?_ ?_ hndc ?_
    · rw [hroot]; exact plug_ptr_eq _ _ _ (Or.inr rfl)
    · refine graft ctx (some p) _ hpath hndc ?_ ?_ ?_
      · intro f rest hc
        subst hc
        have hfin : f.addr ∈ path.addrs (f :: rest) := by simp [path.addrs, frame.addrs]
        have hfa : f.addr ∉ (btree.node p d l r).addrs := fun hc => hdisj _ hc hfin
        simp only [btree.addrs, List.mem_cons, List.mem_append, not_or] at hfa
        rw [hkeep _ (hctxlt _ hfin) hfa.1 (fun e => hfa.2.1 (btree.ptr_mem e.symm))]
        exact hpath.1
      · intro a ha _
        have haa : a ∉ (btree.node p d l r).addrs := fun hc => hdisj _ hc ha
        simp only [btree.addrs, List.mem_cons, List.mem_append, not_or] at haa
        exact hkeep a (hctxlt a ha) haa.1 (fun e => haa.2.1 (btree.ptr_mem e.symm))
      · exact ⟨r3p, ⟨r3b, own3k, trivial⟩, own3o⟩
    · have hbl : h.length ∉ l.addrs := fun hc => by have := hllt _ hc; omega
      have hbr : h.length ∉ r.addrs := fun hc => by have := hrlt _ hc; omega
      have hpb : ¬ p = h.length := by omega
      have hbp : ¬ h.length = p := by omega
      have hlr1 : ∀ x, x ∈ l.addrs → x ∉ r.addrs := fun x hx hy => hlr hx hy
      have hlr2 : ∀ x, x ∈ r.addrs → x ∉ l.addrs := fun x hx hy => hlr hy hx
      simp only [btree.addrs, List.nodup_cons, List.nodup_append, List.mem_append,
        List.mem_cons, not_or, List.append_nil, List.nil_append, List.not_mem_nil, or_false,
        false_or, List.cons_append, List.disjoint_cons_left, List.disjoint_cons_right,
        List.nodup_nil, List.disjoint_nil_left, List.disjoint_nil_right, and_true, true_and]
      have hrl := hlr.symm
      tauto
    · intro a ha
      simp only [btree.addrs, List.mem_cons, List.mem_append, List.append_nil,
        List.nil_append, List.not_mem_nil, or_false, false_or] at ha
      have hb0 : a = h.length → a ∉ ctx.addrs := by
        rintro rfl hc
        have := hctxlt _ hc
        omega
      have h1 : a ∈ l.addrs → a ∉ ctx.addrs :=
        fun hx => hdisj a (by simp [btree.addrs, hx])
      have h2 : a ∈ r.addrs → a ∉ ctx.addrs :=
        fun hx => hdisj a (by simp [btree.addrs, hx])
      have h0 : a = p → a ∉ ctx.addrs := by
        rintro rfl
        exact hdisj a (by simp [btree.addrs])
      tauto
  · intro c n hc hn
    rw [keep3 c (by rintro rfl; exact hpk (btree.ptr_mem hc))]
    exact rep2 c n hc (by rw [keep1 c (hkptr c hc)]; exact hn)

theorem insert_left_right_ok (h : heap T) (t : tree_type T) (ctx : path T)
    (p : Nat) (d : T) (l r : btree T) (v : T)
    (hrep : represents h t (ctx.plug (.node p d l r))) :
    ∃ h3, insert_left_right h t ⟨some p⟩ v = .ok ⟨some h.length⟩ (h3, t) ∧
      represents h3 t (ctx.plug (.node p d (.node h.length v .leaf l) r)) ∧
      h3.length = h.length + 1 ∧
      heap.read h3 p = some ⟨ctx.parent none, some h.length, r.ptr, d⟩ ∧
      heap.read h3 h.length = some ⟨some p, none, l.ptr, v⟩ ∧
      (∀ c n, l.ptr = some c → heap.read h c = some n →
        heap.read h3 c = some { n with root := some h.length }) ∧
      (∀ a, a < h.length → a ≠ p → some a ≠ l.ptr → heap.read h3 a = heap.read h a) := by
  have hallt : ∀ a, a ∈ (ctx.plug (.node p d l r)).addrs → a < h.length :=
    fun a ha => owns_lt hrep.2.1 ha
  obtain ⟨hroot, hsub, hpath, hnds, hndc, hdisj⟩ := represents_plug hrep
  obtain ⟨hrp, hl, hr⟩ := hsub
  have hsublt : ∀ a, a ∈ (btree.node p d l r).addrs → a < h.length :=
    fun a ha => hallt a ((path.mem_plug_addrs _ _ _).2 (Or.inl ha))
  have hctxlt : ∀ a, a ∈ ctx.addrs → a < h.length :=
    fun a ha => hallt a ((path.mem_plug_addrs _ _ _).2 (Or.inr ha))
  simp only [btree.addrs, List.nodup_cons, List.mem_append, not_or] at hnds
  obtain ⟨⟨hpl, hpr⟩, hnd2⟩ := hnds
  rw [List.nodup_append] at hnd2
  obtain ⟨hndl, hndr, hlr⟩ := hnd2
  have hplt : p < h.length := heap.read_lt hrp
  have hllt : ∀ a, a ∈ l.addrs → a < h.length :=
    fun a ha => hsublt a (by simp [btree.addrs, ha])
  have hrlt : ∀ a, a ∈ r.addrs → a < h.length :=
    fun a ha => hsublt a (by simp [btree.addrs, ha])
  have hk : owns h (some p) l := hl
  have hndk : l.addrs.Nodup := hndl
  have hpk : p ∉ l.addrs := hpl
  have hklt : ∀ a, a ∈ l.addrs → a < h.length := hllt
  -- the new node
  have keep1 : ∀ a, a < h.length →
      heap.read (h ++ [some (⟨some p, none, l.ptr, v⟩ : tree_node T)]) a = heap.read h a :=
    fun a ha => heap.read_append_lt _ _ _ ha
  have r1b : heap.read (h ++ [some (⟨some p, none, l.ptr, v⟩ : tree_node T)]) h.length = some ⟨some p, none, l.ptr, v⟩ :=
    heap.read_append_length _ _
  have hk1 : owns (h ++ [some (⟨some p, none, l.ptr, v⟩ : tree_node T)]) (some p) l :=
    owns_congr _ _ (fun a ha => keep1 a (hklt a ha)) hk
  obtain ⟨h2, hnone, hsome, len2, own2, keep2, rep2⟩ :=
    reparent _ l (some p) (some h.length) hk1 hndk
  have hkptr : ∀ a, l.ptr = some a → a < h.length :=
    fun a ha => hklt a (btree.ptr_mem ha)
  have r2p : heap.read h2 p = some ⟨ctx.parent none, l.ptr, r.ptr, d⟩ := by
    rw [keep2 p (fun e => hpk (btree.ptr_mem e.symm)), keep1 p hplt]
    exact hrp
  have r2b : heap.read h2 h.length = some ⟨some p, none, l.ptr, v⟩ := by
    rw [keep2 _ (fun e => by have := hkptr _ e.symm; omega)]
    exact r1b
  have hset3 := heap.set_left_eq r2p (some h.length)
  simp only at hset3
  generalize hh3 : h2.set p (some (⟨ctx.parent none, some h.length, r.ptr, d⟩ : tree_node T)) = h3 at hset3
  have len3 : h3.length = h.length + 1 := by rw [← hh3]; simp [len2]
  have r3p : heap.read h3 p = some ⟨ctx.parent none, some h.length, r.ptr, d⟩ := by
    rw [← hh3]; exact heap.read_set_eq _ _ _ (by rw [len2]; simp; omega)
  have keep3 : ∀ a, a ≠ p → heap.read h3 a = heap.read h2 a := by
    intro a ha
    rw [← hh3]; exact heap.read_set_ne _ _ _ _ ha
  have hkeep : ∀ a, a < h.length → a ≠ p → some a ≠ l.ptr →
      heap.read h3 a = heap.read h a := by
    intro a ha hap hak
    rw [keep3 a hap, keep2 a hak, keep1 a ha]
  have own3k : owns h3 (some h.length) l :=
    owns_congr _ _ (fun a ha => keep3 a (by rintro rfl; exact hpk ha)) own2
  have own3o : owns h3 (some p) r := by
    refine owns_congr _ _ (fun a ha => ?_) hr
    refine hkeep a (hrlt a ha) (by rintro rfl; exact hpr ha) ?_
    intro e
    exact hlr (btree.ptr_mem e.symm) ha
  have r3b : heap.read h3 h.length = some ⟨some p, none, l.ptr, v⟩ := by
    rw [keep3 _ (by omega)]; exact r2b
  refine ⟨h3, ?_, ?_, len3, r3p, r3b, ?_, hkeep⟩
  · have e0 : heap.read h p = some ⟨ctx.parent none, l.ptr, r.ptr, d⟩ := hrp
    cases hkp : l.ptr with
    | none =>
      have := hnone hkp
      subst this
      simp only [hkp] at *
      simp [insert_left_right, iterator.usable, e0, heap.alloc, keep1 p hplt, hkp, hset3, result.of_option]
    | some c =>
      have := hsome c hkp
      simp only [hkp] at *
      simp [insert_left_right, iterator.usable, e0, heap.alloc, keep1 p hplt, hkp, this, hset3, result.of_option]
  · refine represents_of_plug ?_ ?_ ?_ hndc ?_
    · rw [hroot]; exact plug_ptr_eq _ _ _ (Or.inr rfl)
    · refine graft ctx (some p) _ hpath hndc ?_ ?_ ?_
      · intro f rest hc
        subst hc
        have hfin : f.addr ∈ path.addrs (f :: rest) := by simp [path.addrs, frame.addrs]
        have hfa : f.addr ∉ (btree.node p d l r).addrs := fun hc => hdisj _ hc hfin
        simp only [btree.addrs, List.mem_cons, List.mem_append, not_or] at hfa
        rw [hkeep _ (hctxlt _ hfin) hfa.1 (fun e => hfa.2.1 (btree.ptr_mem e.symm))]
        exact hpath.1
      · intro a ha _
        have haa : a ∉ (btree.node p d l r).addrs := fun hc => hdisj _ hc ha
        simp only [btree.addrs, List.mem_cons, List.mem_append, not_or] at haa
        exact hkeep a (hctxlt a ha) haa.1 (fun e => haa.2.1 (btree.ptr_mem e.symm))
      · exact ⟨r3p, ⟨r3b, trivial, own3k⟩, own3o⟩
    · have hbl : h.length ∉ l.addrs := fun hc => by have := hllt _ hc; omega
      have hbr : h.length ∉ r.addrs := fun hc => by have := hrlt _ hc; omega
      have hpb : ¬ p = h.length := by omega
      have hbp : ¬ h.length = p := by omega
      have hlr1 : ∀ x, x ∈ l.addrs → x ∉ r.addrs := fun x hx hy => hlr hx hy
      have hlr2 : ∀ x, x ∈ r.addrs → x ∉ l.addrs := fun x hx hy => hlr hy hx
      simp only [btree.addrs, List.nodup_cons, List.nodup_append, List.mem_append,
        List.mem_cons, not_or, List.append_nil, List.nil_append, List.not_mem_nil, or_false,
        false_or, List.cons_append, List.disjoint_cons_left, List.disjoint_cons_right,
        List.nodup_nil, List.disjoint_nil_left, List.disjoint_nil_right, and_true, true_and]
      have hrl := hlr.symm
      tauto
    · intro a ha
      simp only [btree.addrs, List.mem_cons, List.mem_append, List.append_nil,
        List.nil_append, List.not_mem_nil, or_false, false_or] at ha
      have hb0 : a = h.length → a ∉ ctx.addrs := by
        rintro rfl hc
        have := hctxlt _ hc
        omega
      have h1 : a ∈ l.addrs → a ∉ ctx.addrs :=
        fun hx => hdisj a (by simp [btree.addrs, hx])
      have h2 : a ∈ r.addrs → a ∉ ctx.addrs :=
        fun hx => hdisj a (by simp [btree.addrs, hx])
      have h0 : a = p → a ∉ ctx.addrs := by
        rintro rfl
        exact hdisj a (by simp [btree.addrs])
      tauto
  · intro c n hc hn
    rw [keep3 c (by rintro rfl; exact hpk (btree.ptr_mem hc))]
    exact rep2 c n hc (by rw [keep1 c (hkptr c hc)]; exact hn)

theorem insert_right_left_ok (h : heap T) (t : tree_type T) (ctx : path T)
    (p : Nat) (d : T) (l r : btree T) (v : T)
    (hrep : represents h t (ctx.plug (.node p d l r))) :
    ∃ h3, insert_right_left h t ⟨some p⟩ v = .ok ⟨some h.length⟩ (h3, t) ∧
      represents h3 t (ctx.plug (.node p d l (.node h.length v r .leaf))) ∧
      h3.length = h.length + 1 ∧
      heap.read h3 p = some ⟨ctx.parent none, l.ptr, some h.length, d⟩ ∧
      heap.read h3 h.length = some ⟨some p, r.ptr, none, v⟩ ∧
      (∀ c n, r.ptr = some c → heap.read h c = some n →
        heap.read h3 c = some { n with root := some h.length }) ∧
      (∀ a, a < h.length → a ≠ p → some a ≠ r.ptr → heap.read h3 a = heap.read h a) := by
  have hallt : ∀ a, a ∈ (ctx.plug (.node p d l r)).addrs → a < h.length :=
    fun a ha => owns_lt hrep.2.1 ha
  obtain ⟨hroot, hsub, hpath, hnds, hndc, hdisj⟩ := represents_plug hrep
  obtain ⟨hrp, hl, hr⟩ := hsub
  have hsublt : ∀ a, a ∈ (btree.node p d l r).addrs → a < h.length :=
    fun a ha => hallt a ((path.mem_plug_addrs _ _ _).2 (Or.inl ha))
  have hctxlt : ∀ a, a ∈ ctx.addrs → a < h.length :=
    fun a ha => hallt a ((path.mem_plug_addrs _ _ _).2 (Or.inr ha))
  simp only [btree.addrs, List.nodup_cons, List.mem_append, not_or] at hnds
  obtain ⟨⟨hpl, hpr⟩, hnd2⟩ := hnds
  rw [List.nodup_append] at hnd2
  obtain ⟨hndl, hndr, hlr⟩ := hnd2
  have hplt : p < h.length := heap.read_lt hrp
  have hllt : ∀ a, a ∈ l.addrs → a < h.length :=
    fun a ha => hsublt a (by simp [btree.addrs, ha])
  have hrlt : ∀ a, a ∈ r.addrs → a < h.length :=
    fun a ha => hsublt a (by simp [btree.addrs, ha])
  have hk : owns h (some p) r := hr
  have hndk : r.addrs.Nodup := hndr
  have hpk : p ∉ r.addrs := hpr
  have hklt : ∀ a, a ∈ r.addrs → a < h.length := hrlt
  -- the new node
  have keep1 : ∀ a, a < h.length →
      heap.read (h ++ [some (⟨some p, r.ptr, none, v⟩ : tree_node T)]) a = heap.read h a :=
    fun a ha => heap.read_append_lt _ _ _ ha
  have r1b : heap.read (h ++ [some (⟨some p, r.ptr, none, v⟩ : tree_node T)]) h.length = some ⟨some p, r.ptr, none, v⟩ :=
    heap.read_append_length _ _
  have hk1 : owns (h ++ [some (⟨some p, r.ptr, none, v⟩ : tree_node T)]) (some p) r :=
    owns_congr _ _ (fun a ha => keep1 a (hklt a ha)) hk
  obtain ⟨h2, hnone, hsome, len2, own2, keep2, rep2⟩ :=
    reparent _ r (some p) (some h.length) hk1 hndk
  have hkptr : ∀ a, r.ptr = some a → a < h.length :=
    fun a ha => hklt a (btree.ptr_mem ha)
  have r2p : heap.read h2 p = some ⟨ctx.parent none, l.ptr, r.ptr, d⟩ := by
    rw [keep2 p (fun e => hpk (btree.ptr_mem e.symm)), keep1 p hplt]
    exact hrp
  have r2b : heap.read h2 h.length = some ⟨some p, r.ptr, none, v⟩ := by
    rw [keep2 _ (fun e => by have := hkptr _ e.symm; omega)]
    exact r1b
  have hset3 := heap.set_right_eq r2p (some h.length)
  simp only at hset3
  generalize hh3 : h2.set p (some (⟨ctx.parent none, l.ptr, some h.length, d⟩ : tree_node T)) = h3 at hset3
  have len3 : h3.length = h.length + 1 := by rw [← hh3]; simp [len2]
  have r3p : heap.read h3 p = some ⟨ctx.parent none, l.ptr, some h.length, d⟩ := by
    rw [← hh3]; exact heap.read_set_eq _ _ _ (by rw [len2]; simp; omega)
  have keep3 : ∀ a, a ≠ p → heap.read h3 a = heap.read h2 a := by
    intro a ha
    rw [← hh3]; exact heap.read_set_ne _ _ _ _ ha
  have hkeep : ∀ a, a < h.length → a ≠ p → some a ≠ r.ptr →
      heap.read h3 a = heap.read h a := by
    intro a ha hap hak
    rw [keep3 a hap, keep2 a hak, keep1 a ha]
  have own3k : owns h3 (some h.length) r :=
    owns_congr _ _ (fun a ha => keep3 a (by rintro rfl; exact hpk ha)) own2
  have own3o : owns h3 (some p) l := by
    refine owns_congr _ _ (fun a ha => ?_) hl
    refine hkeep a (hllt a ha) (by rintro rfl; exact hpl ha) ?_
    intro e
    exact hlr ha (btree.ptr_mem e.symm)
  have r3b : heap.read h3 h.length = some ⟨some p, r.ptr, none, v⟩ := by
    rw [keep3 _ (by omega)]; exact r2b
  refine ⟨h3, ?_, ?_, len3, r3p, r3b, ?_, hkeep⟩
  · have e0 : heap.read h p = some ⟨ctx.parent none, l.ptr, r.ptr, d⟩ := hrp
    cases hkp : r.ptr with
    | none =>
      have := hnone hkp
      subst this
      simp only [hkp] at *
      simp [insert_right_left, iterator.usable, e0, heap.alloc, keep1 p hplt, hkp, hset3, result.of_option]
    | some c =>
      have := hsome c hkp
      simp only [hkp] at *
      simp [insert_right_left, iterator.usable, e0, heap.alloc, keep1 p hplt, hkp, this, hset3, result.of_option]
  · refine represents_of_plug ?_ ?_ ?_ hndc ?_
    · rw [hroot]; exact plug_ptr_eq _ _ _ (Or.inr rfl)
    · refine graft ctx (some p) _ hpath hndc ?_ ?_ ?_
      · intro f rest hc
        subst hc
        have hfin : f.addr ∈ path.addrs (f :: rest) := by simp [path.addrs, frame.addrs]
        have hfa : f.addr ∉ (btree.node p d l r).addrs := fun hc => hdisj _ hc hfin
        simp only [btree.addrs, List.mem_cons, List.mem_append, not_or] at hfa
        rw [hkeep _ (hctxlt _ hfin) hfa.1 (fun e => hfa.2.2 (btree.ptr_mem e.symm))]
        exact hpath.1
      · intro a ha _
        have haa : a ∉ (btree.node p d l r).addrs := fun hc => hdisj _ hc ha
        simp only [btree.addrs, List.mem_cons, List.mem_append, not_or] at haa
        exact hkeep a (hctxlt a ha) haa.1 (fun e => haa.2.2 (btree.ptr_mem e.symm))
      · exact ⟨r3p, own3o, ⟨r3b, own3k, trivial⟩⟩
    · have hbl : h.length ∉ l.addrs := fun hc => by have := hllt _ hc; omega
      have hbr : h.length ∉ r.addrs := fun hc => by have := hrlt _ hc; omega
      have hpb : ¬ p = h.length := by omega
      have hbp : ¬ h.length = p := by omega
      have hlr1 : ∀ x, x ∈ l.addrs → x ∉ r.addrs := fun x hx hy => hlr hx hy
      have hlr2 : ∀ x, x ∈ r.addrs → x ∉ l.addrs := fun x hx hy => hlr hy hx
      simp only [btree.addrs, List.nodup_cons, List.nodup_append, List.mem_append,
        List.mem_cons, not_or, List.append_nil, List.nil_append, List.not_mem_nil, or_false,
        false_or, List.cons_append, List.disjoint_cons_left, List.disjoint_cons_right,
        List.nodup_nil, List.disjoint_nil_left, List.disjoint_nil_right, and_true, true_and]
      have hrl := hlr.symm
      tauto
    · intro a ha
      simp only [btree.addrs, List.mem_cons, List.mem_append, List.append_nil,
        List.nil_append, List.not_mem_nil, or_false, false_or] at ha
      have hb0 : a = h.length → a ∉ ctx.addrs := by
        rintro rfl hc
        have := hctxlt _ hc
        omega
      have h1 : a ∈ l.addrs → a ∉ ctx.addrs :=
        fun hx => hdisj a (by simp [btree.addrs, hx])
      have h2 : a ∈ r.addrs → a ∉ ctx.addrs :=
        fun hx => hdisj a (by simp [btree.addrs, hx])
      have h0 : a = p → a ∉ ctx.addrs := by
        rintro rfl
        exact hdisj a (by simp [btree.addrs])
      tauto
  · intro c n hc hn
    rw [keep3 c (by rintro rfl; exact hpk (btree.ptr_mem hc))]
    exact rep2 c n hc (by rw [keep1 c (hkptr c hc)]; exact hn)

theorem insert_right_right_ok (h : heap T) (t : tree_type T) (ctx : path T)
    (p : Nat) (d : T) (l r : btree T) (v : T)
    (hrep : represents h t (ctx.plug (.node p d l r))) :
    ∃ h3, insert_right_right h t ⟨some p⟩ v = .ok ⟨some h.length⟩ (h3, t) ∧
      represents h3 t (ctx.plug (.node p d l (.node h.length v .leaf r))) ∧
      h3.length = h.length + 1 ∧
      heap.read h3 p = some ⟨ctx.parent none, l.ptr, some h.length, d⟩ ∧
      heap.read h3 h.length = some ⟨some p, none, r.ptr, v⟩ ∧
      (∀ c n, r.ptr = some c → heap.read h c = some n →
        heap.read h3 c = some { n with root := some h.length }) ∧
      (∀ a, a < h.length → a ≠ p → some a ≠ r.ptr → heap.read h3 a = heap.read h a) := by
  have hallt : ∀ a, a ∈ (ctx.plug (.node p d l r)).addrs → a < h.length :=
    fun a ha => owns_lt hrep.2.1 ha
  obtain ⟨hroot, hsub, hpath, hnds, hndc, hdisj⟩ := represents_plug hrep
  obtain ⟨hrp, hl, hr⟩ := hsub
  have hsublt : ∀ a, a ∈ (btree.node p d l r).addrs → a < h.length :=
    fun a ha => hallt a ((path.mem_plug_addrs _ _ _).2 (Or.inl ha))
  have hctxlt : ∀ a, a ∈ ctx.addrs → a < h.length :=
    fun a ha => hallt a ((path.mem_plug_addrs _ _ _).2 (Or.inr ha))
  simp only [btree.addrs, List.nodup_cons, List.mem_append, not_or] at hnds
  obtain ⟨⟨hpl, hpr⟩, hnd2⟩ := hnds
  rw [List.nodup_append] at hnd2
  obtain ⟨hndl, hndr, hlr⟩ := hnd2
  have hplt : p < h.length := heap.read_lt hrp
  have hllt : ∀ a, a ∈ l.addrs → a < h.length :=
    fun a ha => hsublt a (by simp [btree.addrs, ha])
  have hrlt : ∀ a, a ∈ r.addrs → a < h.length :=
    fun a ha => hsublt a (by simp [btree.addrs, ha])
  have hk : owns h (some p) r := hr
  have hndk : r.addrs.Nodup := hndr
  have hpk : p ∉ r.addrs := hpr
  have hklt : ∀ a, a ∈ r.addrs → a < h.length := hrlt
  -- the new node
  have keep1 : ∀ a, a < h.length →
      heap.read (h ++ [some (⟨some p, none, r.ptr, v⟩ : tree_node T)]) a = heap.read h a :=
    fun a ha => heap.read_append_lt _ _ _ ha
  have r1b : heap.read (h ++ [some (⟨some p, none, r.ptr, v⟩ : tree_node T)]) h.length = some ⟨some p, none, r.ptr, v⟩ :=
    heap.read_append_length _ _
  have hk1 : owns (h ++ [some (⟨some p, none, r.ptr, v⟩ : tree_node T)]) (some p) r :=
    owns_congr _ _ (fun a ha => keep1 a (hklt a ha)) hk
  obtain ⟨h2, hnone, hsome, len2, own2, keep2, rep2⟩ :=
    reparent _ r (some p) (some h.length) hk1 hndk
  have hkptr : ∀ a, r.ptr = some a → a < h.length :=
    fun a ha => hklt a (btree.ptr_mem ha)
  have r2p : heap.read h2 p = some ⟨ctx.parent none, l.ptr, r.ptr, d⟩ := by
    rw [keep2 p (fun e => hpk (btree.ptr_mem e.symm)), keep1 p hplt]
    exact hrp
  have r2b : heap.read h2 h.length = some ⟨some p, none, r.ptr, v⟩ := by
    rw [keep2 _ (fun e => by have := hkptr _ e.symm; omega)]
    exact r1b
  have hset3 := heap.set_right_eq r2p (some h.length)
  simp only at hset3
  generalize hh3 : h2.set p (some (⟨ctx.parent none, l.ptr, some h.length, d⟩ : tree_node T)) = h3 at hset3
  have len3 : h3.length = h.length + 1 := by rw [← hh3]; simp [len2]
  have r3p : heap.read h3 p = some ⟨ctx.parent none, l.ptr, some h.length, d⟩ := by
    rw [← hh3]; exact heap.read_set_eq _ _ _ (by rw [len2]; simp; omega)
  have keep3 : ∀ a, a ≠ p → heap.read h3 a = heap.read h2 a := by
    intro a ha
    rw [← hh3]; exact heap.read_set_ne _ _ _ _ ha
  have hkeep : ∀ a, a < h.length → a ≠ p → some a ≠ r.ptr →
      heap.read h3 a = heap.read h a := by
    intro a ha hap hak
    rw [keep3 a hap, keep2 a hak, keep1 a ha]
  have own3k : owns h3 (some h.length) r :=
    owns_congr _ _ (fun a ha => keep3 a (by rintro rfl; exact hpk ha)) own2
  have own3o : owns h3 (some p) l := by
    refine owns_congr _ _ (fun a ha => ?_) hl
    refine hkeep a (hllt a ha) (by rintro rfl; exact hpl ha) ?_
    intro e
    exact hlr ha (btree.ptr_mem e.symm)
  have r3b : heap.read h3 h.length = some ⟨some p, none, r.ptr, v⟩ := by
    rw [keep3 _ (by omega)]; exact r2b
  refine ⟨h3, ?_, ?_, len3, r3p, r3b, ?_, hkeep⟩
  · have e0 : heap.read h p = some ⟨ctx.parent none, l.ptr, r.ptr, d⟩ := hrp
    cases hkp : r.ptr with
    | none =>
      have := hnone hkp
      subst this
      simp only [hkp] at *
      simp [insert_right_right, iterator.usable, e0, heap.alloc, keep1 p hplt, hkp, hset3, result.of_option]
    | some c =>
      have := hsome c hkp
      simp only [hkp] at *
      simp [insert_right_right, iterator.usable, e0, heap.alloc, keep1 p hplt, hkp, this, hset3, result.of_option]
  · refine represents_of_plug ?_ ?_ ?_ hndc ?_
    · rw [hroot]; exact plug_ptr_eq _ _ _ (Or.inr rfl)
    · refine graft ctx (some p) _ hpath hndc ?_ ?_ ?_
      · intro f rest hc
        subst hc
        have hfin : f.addr ∈ path.addrs (f :: rest) := by simp [path.addrs, frame.addrs]
        have hfa : f.addr ∉ (btree.node p d l r).addrs := fun hc => hdisj _ hc hfin
        simp only [btree.addrs, List.mem_cons, List.mem_append, not_or] at hfa
        rw [hkeep _ (hctxlt _ hfin) hfa.1 (fun e => hfa.2.2 (btree.ptr_mem e.symm))]
        exact hpath.1
      · intro a ha _
        have haa : a ∉ (btree.node p d l r).addrs := fun hc => hdisj _ hc ha
        simp only [btree.addrs, List.mem_cons, List.mem_append, not_or] at haa
        exact hkeep a (hctxlt a ha) haa.1 (fun e => haa.2.2 (btree.ptr_mem e.symm))
      · exact ⟨r3p, own3o, ⟨r3b, trivial, own3k⟩⟩
    · have hbl : h.length ∉ l.addrs := fun hc => by have := hllt _ hc; omega
      have hbr : h.length ∉ r.addrs := fun hc => by have := hrlt _ hc; omega
      have hpb : ¬ p = h.length := by omega
      have hbp : ¬ h.length = p := by omega
      have hlr1 : ∀ x, x ∈ l.addrs → x ∉ r.addrs := fun x hx hy => hlr hx hy
      have hlr2 : ∀ x, x ∈ r.addrs → x ∉ l.addrs := fun x hx hy => hlr hy hx
      simp only [btree.addrs, List.nodup_cons, List.nodup_append, List.mem_append,
        List.mem_cons, not_or, List.append_nil, List.nil_append, List.not_mem_nil, or_false,
        false_or, List.cons_append, List.disjoint_cons_left, List.disjoint_cons_right,
        List.nodup_nil, List.disjoint_nil_left, List.disjoint_nil_right, and_true, true_and]
      have hrl := hlr.symm
      tauto
    · intro a ha
      simp only [btree.addrs, List.mem_cons, List.mem_append, List.append_nil,
        List.nil_append, List.not_mem_nil, or_false, false_or] at ha
      have hb0 : a = h.length → a ∉ ctx.addrs := by
        rintro rfl hc
        have := hctxlt _ hc
        omega
      have h1 : a ∈ l.addrs → a ∉ ctx.addrs :=
        fun hx => hdisj a (by simp [btree.addrs, hx])
      have h2 : a ∈ r.addrs → a ∉ ctx.addrs :=
        fun hx => hdisj a (by simp [btree.addrs, hx])
      have h0 : a = p → a ∉ ctx.addrs := by
        rintro rfl
        exact hdisj a (by simp [btree.addrs])
      tauto
  · intro c n hc hn
    rw [keep3 c (by rintro rfl; exact hpk (btree.ptr_mem hc))]
    exact rep2 c n hc (by rw [keep1 c (hkptr c hc)]; exact hn)

end tree_type

namespace tree_type

variable {T : Type}

theorem nodes_subset (tr : btree T) :
    ∀ (fuel : Nat) (h : heap T) (par : Option Nat), owns h par tr →
      ∀ a, a ∈ nodes fuel h tr.ptr → a ∈ tr.addrs := by
  induction tr with
  | leaf =>
    intro fuel h par _ a ha
    cases fuel <;> simp [btree.ptr, nodes] at ha
  | node b d l r ihl ihr =>
    intro fuel h par ho a ha
    obtain ⟨h0, hl, hr⟩ := ho
    cases fuel with
    | zero => simp [btree.ptr, nodes] at ha
    | succ k =>
      simp only [btree.ptr, nodes, h0, List.mem_cons, List.mem_append] at ha
      simp only [btree.addrs, List.mem_cons, List.mem_append]
      rcases ha with ha | ha | ha
      · exact Or.inl ha
      · exact Or.inr (Or.inl (ihl k h _ hl a ha))
      · exact Or.inr (Or.inr (ihr k h _ hr a ha))

theorem nodes_owns (tr : btree T) :
    ∀ (fuel : Nat) (h : heap T) (par : Option Nat), owns h par tr → tr.height ≤ fuel →
      nodes fuel h tr.ptr = tr.addrs := by
  induction tr with
  | leaf =>
    intro fuel h par _ _
    cases fuel <;> simp [btree.ptr, nodes, btree.addrs]
  | node b d l r ihl ihr =>
    intro fuel h par ho hf
    obtain ⟨h0, hl, hr⟩ := ho
    obtain ⟨k, rfl⟩ : ∃ k, fuel = k + 1 := ⟨fuel - 1, by simp [btree.height] at hf; omega⟩
    simp only [btree.height] at hf
    show nodes (k + 1) h (some b) = b :: (l.addrs ++ r.addrs)
    simp only [nodes, h0]
    rw [ihl k h _ hl (by omega), ihr k h _ hr (by omega)]

end tree_type

namespace path

variable {T : Type}

theorem plug_size (ctx : path T) (s : btree T) :
    (ctx.plug s).size = s.size + ctx.addrs.length := by
  rw [btree.size_eq_length, btree.size_eq_length, (plug_addrs_perm ctx s).length_eq,
    List.length_append]

end path

namespace garbage_collector

theorem foldl_remove (dl : List Nat) :
    ∀ l : List Nat, dl.foldl (fun tn ptr => tn.filter (fun q => q ≠ ptr)) l
      = l.filter (fun q => q ∉ dl) := by
  induction dl with
  | nil => intro l; simp
  | cons x xs ih =>
    intro l
    rw [List.foldl_cons, ih, List.filter_filter]
    congr 1
    funext q
    simp only [List.mem_cons, not_or, decide_not, Bool.decide_and]
    rw [Bool.and_comm]

theorem dtor_eq (g : garbage_collector) :
    g.dtor = g.table_new.filter (fun q => q ∉ g.table_delete) :=
  foldl_remove _ _

theorem run_eq (calls : List call) :
    ∀ g : garbage_collector,
      (g.run calls).1 = ⟨(added calls).reverse ++ g.table_new,
        (removed calls).reverse ++ g.table_delete⟩ ∧ (g.run calls).2 = [] := by
  induction calls with
  | nil => intro g; simp [run, added, removed]
  | cons c cs ih =>
    intro g
    cases c with
    | add ptr =>
      obtain ⟨h1, h2⟩ := ih (g.add ptr)
      simp only [run, exec, added, removed, h1, h2]
      simp [add]
    | remove ptr =>
      obtain ⟨h1, h2⟩ := ih (g.remove ptr)
      simp only [run, exec, added, removed, h1, h2]
      simp [remove]

theorem dtor_run (calls : List call) :
    (new.run calls).1.dtor = (added calls).reverse.filter (fun q => q ∉ removed calls) := by
  rw [dtor_eq, (run_eq calls new).1]
  simp [new]

end garbage_collector

namespace tree_type

variable {T : Type} {R : Nat → Prop}

theorem state_of_option {σ α : Type} (x : Option (α × σ)) :
    (result.of_option x).state = x.map Prod.snd := by
  cases x with
  | none => rfl
  | some v => cases v; rfl

theorem closed_alloc {h : heap T} (hc : closed_region R h) (n : tree_node T)
    (h1 : ptr_in R n.root) (h2 : ptr_in R n.left) (h3 : ptr_in R n.right) :
    closed_region R (h ++ [some n]) ∧ R h.length ∧
      ∀ a, ¬ R a → heap.read (h ++ [some n]) a = heap.read h a := by
  refine ⟨⟨?_, ?_⟩, hc.1 _ (le_refl _), ?_⟩
  · intro a ha
    exact hc.1 a (by simp at ha; omega)
  · intro a m ha hm
    rcases Nat.lt_trichotomy a h.length with hlt | heq | hgt
    · rw [heap.read_append_lt _ _ _ hlt] at hm
      exact hc.2 a m ha hm
    · subst heq
      rw [heap.read_append_length] at hm
      injection hm with hm
      subst hm
      exact ⟨h1, h2, h3⟩
    · rw [heap.read_ge _ _ (by simp; omega)] at hm
      cases hm
  · intro a ha
    have hlt : a < h.length := by
      by_contra hge
      exact ha (hc.1 a (by omega))
    exact heap.read_append_lt _ _ _ hlt

theorem closed_set {h : heap T} (hc : closed_region R h) {p : Nat} (hp : R p)
    (c : Option (tree_node T))
    (hcell : ∀ n, c = some n → ptr_in R n.root ∧ ptr_in R n.left ∧ ptr_in R n.right) :
    closed_region R (h.set p c) ∧ ∀ a, ¬ R a → heap.read (h.set p c) a = heap.read h a := by
  refine ⟨⟨?_, ?_⟩, ?_⟩
  · intro a ha
    exact hc.1 a (by simpa using ha)
  · intro a m ha hm
    by_cases hap : a = p
    · subst hap
      by_cases hlt : a < h.length
      · rw [heap.read_set_eq _ _ _ hlt] at hm
        exact hcell m hm
      · rw [heap.read_ge _ _ (by simp; omega)] at hm
        cases hm
    · rw [heap.read_set_ne _ _ _ _ hap] at hm
      exact hc.2 a m ha hm
  · intro a ha
    exact heap.read_set_ne _ _ _ _ (by rintro rfl; exact ha hp)

theorem closed_set_root {h h1 : heap T} (hc : closed_region R h) {p : Nat} (hp : R p)
    {x : Option Nat} (hx : ptr_in R x) (hs : h.set_root p x = some h1) :
    closed_region R h1 ∧ ∀ a, ¬ R a → heap.read h1 a = heap.read h a := by
  cases hr : heap.read h p with
  | none => simp [heap.set_root, hr] at hs
  | some n =>
    rw [heap.set_root_eq hr] at hs
    injection hs with hs
    subst hs
    obtain ⟨_, hl, hrr⟩ := hc.2 p n hp hr
    refine closed_set hc hp _ ?_
    intro m hm
    injection hm with hm
    subst hm
    exact ⟨hx, hl, hrr⟩

theorem closed_set_left {h h1 : heap T} (hc : closed_region R h) {p : Nat} (hp : R p)
    {x : Option Nat} (hx : ptr_in R x) (hs : h.set_left p x = some h1) :
    closed_region R h1 ∧ ∀ a, ¬ R a → heap.read h1 a = heap.read h a := by
  cases hr : heap.read h p with
  | none => simp [heap.set_left, hr] at hs
  | some n =>
    rw [heap.set_left_eq hr] at hs
    injection hs with hs
    subst hs
    obtain ⟨hro, _, hrr⟩ := hc.2 p n hp hr
    refine closed_set hc hp _ ?_
    intro m hm
    injection hm with hm
    subst hm
    exact ⟨hro, hx, hrr⟩

theorem closed_set_right {h h1 : heap T} (hc : closed_region R h) {p : Nat} (hp : R p)
    {x : Option Nat} (hx : ptr_in R x) (hs : h.set_right p x = some h1) :
    closed_region R h1 ∧ ∀ a, ¬ R a → heap.read h1 a = heap.read h a := by
  cases hr : heap.read h p with
  | none => simp [heap.set_right, hr] at hs
  | some n =>
    rw [heap.set_right_eq hr] at hs
    injection hs with hs
    subst hs
    obtain ⟨hro, hl, _⟩ := hc.2 p n hp hr
    refine closed_set hc hp _ ?_
    intro m hm
    injection hm with hm
    subst hm
    exact ⟨hro, hl, hx⟩

theorem closed_delete {h h1 : heap T} (hc : closed_region R h) {p : Nat} (hp : R p)
    (hs : h.delete p = some h1) :
    closed_region R h1 ∧ ∀ a, ¬ R a → heap.read h1 a = heap.read h a := by
  cases hr : heap.read h p with
  | none => simp [heap.delete, hr] at hs
  | some n =>
    rw [heap.delete_eq hr] at hs
    injection hs with hs
    subst hs
    exact closed_set hc hp _ (fun m hm => by cases hm)

theorem ptr_in_none : ptr_in R none := fun _ h => by cases h

theorem ptr_in_some {a : Nat} (h : R a) : ptr_in R (some a) := fun b hb => by
  injection hb with hb
  exact hb ▸ h

theorem destroy_frame (fuel : Nat) :
    ∀ (h : heap T) (x : Option Nat) (s : heap T), closed_region R h → ptr_in R x →
      (destroy fuel h x).state = some s →
      destroy fuel h x = .ok () s ∧ closed_region R s ∧
        ∀ a, ¬ R a → heap.read s a = heap.read h a := by
  induction fuel with
  | zero =>
    intro h x s hc hx hs
    cases x with
    | none =>
      simp only [destroy, result.state, Option.some.injEq] at hs
      subst hs
      exact ⟨rfl, hc, fun _ _ => rfl⟩
    | some raw => simp [destroy, result.state] at hs
  | succ k ih =>
    intro h x s hc hx hs
    cases x with
    | none =>
      simp only [destroy, result.state, Option.some.injEq] at hs
      subst hs
      exact ⟨rfl, hc, fun _ _ => rfl⟩
    | some raw =>
      have hraw : R raw := hx raw rfl
      cases hr : heap.read h raw with
      | none => simp [destroy, hr, result.state] at hs
      | some r =>
        have hpr := hc.2 raw r hraw hr
        cases hd1 : (destroy k h r.left).state with
        | none =>
          cases hd1r : destroy k h r.left <;>
            simp [hd1r, result.state] at hd1 <;>
            simp [destroy, hr, hd1r, result.state] at hs
        | some h1 =>
          obtain ⟨e1, hc1, keep1⟩ := ih h r.left h1 hc hpr.2.1 hd1
          cases hr1 : heap.read h1 raw with
          | none => simp [destroy, hr, e1, hr1, result.state] at hs
          | some r1 =>
            have hpr1 := hc1.2 raw r1 hraw hr1
            cases hd2 : (destroy k h1 r1.right).state with
            | none =>
              cases hd2r : destroy k h1 r1.right <;>
                simp [hd2r, result.state] at hd2 <;>
                simp [destroy, hr, e1, hr1, hd2r, result.state] at hs
            | some h2 =>
              obtain ⟨e2, hc2, keep2⟩ := ih h1 r1.right h2 hc1 hpr1.2.2 hd2
              cases hdel : heap.delete h2 raw with
              | none => simp [destroy, hr, e1, hr1, e2, hdel, result.state] at hs
              | some h3 =>
                obtain ⟨hc3, keep3⟩ := closed_delete hc2 hraw hdel
                simp only [destroy, hr, Option.map_some', e1, hr1, e2, hdel, result.state,
                  Option.some.injEq] at hs
                subst hs
                refine ⟨?_, hc3, ?_⟩
                · simp only [destroy, hr, Option.map_some', e1, hr1, e2, hdel]
                · intro a ha
                  rw [keep3 a ha, keep2 a ha, keep1 a ha]

theorem copy_frame (fuel : Nat) :
    ∀ (h : heap T) (raw root : Option Nat) (s : heap T), closed_region R h → ptr_in R root →
      (copy fuel h raw root).state = some s →
      ∃ r, copy fuel h raw root = .ok r s ∧ ptr_in R r ∧ closed_region R s ∧
        ∀ a, ¬ R a → heap.read s a = heap.read h a := by
  induction fuel with
  | zero =>
    intro h raw root s hc hroot hs
    cases raw with
    | none =>
      simp only [copy, result.state, Option.some.injEq] at hs
      subst hs
      exact ⟨none, rfl, ptr_in_none, hc, fun _ _ => rfl⟩
    | some raw => simp [copy, result.state] at hs
  | succ k ih =>
    intro h raw root s hc hroot hs
    cases raw with
    | none =>
      simp only [copy, result.state, Option.some.injEq] at hs
      subst hs
      exact ⟨none, rfl, ptr_in_none, hc, fun _ _ => rfl⟩
    | some raw =>
      cases hr : heap.read h raw with
      | none => simp [copy, hr, result.state] at hs
      | some r =>
        obtain ⟨hc1, hnode, keep1⟩ :=
          closed_alloc hc (⟨root, none, none, r.data⟩ : tree_node T) hroot ptr_in_none
            ptr_in_none
        cases hr1 : heap.read (h ++ [some (⟨root, none, none, r.data⟩ : tree_node T)]) raw with
        | none => simp [copy, hr, heap.alloc, hr1, result.state] at hs
        | some r1 =>
          cases hd1 : (copy k (h ++ [some (⟨root, none, none, r.data⟩ : tree_node T)]) r1.left
              (some h.length)).state with
          | none =>
            cases hd1r : copy k (h ++ [some (⟨root, none, none, r.data⟩ : tree_node T)])
                r1.left (some h.length) <;>
              simp [hd1r, result.state] at hd1 <;>
              simp [copy, hr, heap.alloc, hr1, hd1r, result.state] at hs
          | some h2 =>
            obtain ⟨l, e2, hl, hc2, keep2⟩ := ih _ r1.left (some h.length) h2 hc1
              (ptr_in_some hnode) hd1
            cases hs3 : heap.set_left h2 h.length l with
            | none => simp [copy, hr, heap.alloc, hr1, e2, hs3, result.state] at hs
            | some h3 =>
              obtain ⟨hc3, keep3⟩ := closed_set_left hc2 hnode hl hs3
              cases hr3 : heap.read h3 raw with
              | none => simp [copy, hr, heap.alloc, hr1, e2, hs3, hr3, result.state] at hs
              | some r3 =>
                cases hd4 : (copy k h3 r3.right (some h.length)).state with
                | none =>
                  cases hd4r : copy k h3 r3.right (some h.length) <;>
                    simp [hd4r, result.state] at hd4 <;>
                    simp [copy, hr, heap.alloc, hr1, e2, hs3, hr3, hd4r, result.state] at hs
                | some h4 =>
                  obtain ⟨rr, e4, hrr, hc4, keep4⟩ := ih _ r3.right (some h.length) h4 hc3
                    (ptr_in_some hnode) hd4
                  cases hs5 : heap.set_right h4 h.length rr with
                  | none =>
                    simp [copy, hr, heap.alloc, hr1, e2, hs3, hr3, e4, hs5, result.state] at hs
                  | some h5 =>
                    obtain ⟨hc5, keep5⟩ := closed_set_right hc4 hnode hrr hs5
                    simp only [copy, hr, heap.alloc, hr1, Option.map_some', e2, hs3, hr3, e4,
                      hs5, result.state, Option.some.injEq] at hs
                    subst hs
                    refine ⟨some h.length, ?_, ptr_in_some hnode, hc5, ?_⟩
                    · simp only [copy, hr, heap.alloc, hr1, Option.map_some', e2, hs3, hr3,
                        e4, hs5]
                    · intro a ha
                      rw [keep5 a ha, keep4 a ha, keep3 a ha, keep2 a ha, keep1 a ha]

end tree_type

namespace tree_type

variable {T : Type} {R : Nat → Prop}

theorem insert_left_left_frame (h : heap T) (t : tree_type T) (it : iterator) (v : T)
    (hc : closed_region R h) (hroot : ptr_in R t.mRoot) (hit : ptr_in R it.mData)
    (s : heap T × tree_type T) (hs : (insert_left_left h t it v).state = some s) :
    confined R h s := by
  obtain ⟨m⟩ := it
  cases m with
  | none =>
    simp only [insert_left_left, iterator.usable, result.state] at hs
    simp at hs
    subst hs
    exact ⟨hc, hroot, fun _ _ => rfl⟩
  | some p =>
    have hp : R p := hit p rfl
    cases hr : heap.read h p with
    | none => simp [insert_left_left, iterator.usable, hr, result.of_option, result.state] at hs
    | some n =>
      have hpn := hc.2 p n hp hr
      obtain ⟨hc1, hnode, keep1⟩ := closed_alloc hc (⟨some p, n.left, none, v⟩ : tree_node T)
        (ptr_in_some hp) hpn.2.1 ptr_in_none
      cases hr1 : heap.read (h ++ [some (⟨some p, n.left, none, v⟩ : tree_node T)]) p with
      | none =>
        simp [insert_left_left, iterator.usable, hr, heap.alloc, hr1, result.of_option, result.state]
          at hs
      | some n1 =>
        have hpn1 := hc1.2 p n1 hp hr1
        have key : ∀ h2 : heap T, closed_region R h2 →
            (∀ a, ¬ R a → heap.read h2 a = heap.read h a) →
            ∀ h3, h2.set_left p (some h.length) = some h3 → confined R h (h3, t) := by
          intro h2 hc2 keep2 h3 hs3
          obtain ⟨hc3, keep3⟩ := closed_set_left hc2 hp (ptr_in_some hnode) hs3
          exact ⟨hc3, hroot, fun a ha => by rw [keep3 a ha, keep2 a ha]⟩
        cases hk : n1.left with
        | none =>
          cases hs3 : heap.set_left (h ++ [some (⟨some p, n.left, none, v⟩ : tree_node T)]) p (some h.length) with
          | none =>
            simp [insert_left_left, iterator.usable, hr, heap.alloc, hr1, hk, hs3, result.of_option,
              result.state] at hs
          | some h3 =>
            simp [insert_left_left, iterator.usable, hr, heap.alloc, hr1, hk, hs3, result.of_option,
              result.state] at hs
            subst hs
            exact key _ hc1 keep1 h3 hs3
        | some c =>
          have hcR : R c := hpn1.2.1 c hk
          cases hs2 : heap.set_root (h ++ [some (⟨some p, n.left, none, v⟩ : tree_node T)]) c (some h.length) with
          | none =>
            simp [insert_left_left, iterator.usable, hr, heap.alloc, hr1, hk, hs2, result.of_option,
              result.state] at hs
          | some h2 =>
            obtain ⟨hc2, keep2⟩ := closed_set_root hc1 hcR (ptr_in_some hnode) hs2
            cases hs3 : heap.set_left h2 p (some h.length) with
            | none =>
              simp [insert_left_left, iterator.usable, hr, heap.alloc, hr1, hk, hs2, hs3,
                result.of_option, result.state] at hs
            | some h3 =>
              simp [insert_left_left, iterator.usable, hr, heap.alloc, hr1, hk, hs2, hs3,
                result.of_option, result.state] at hs
              subst hs
              exact key h2 hc2 (fun a ha => by rw [keep2 a ha, keep1 a ha]) h3 hs3

theorem insert_left_right_frame (h : heap T) (t : tree_type T) (it : iterator) (v : T)
    (hc : closed_region R h) (hroot : ptr_in R t.mRoot) (hit : ptr_in R it.mData)
    (s : heap T × tree_type T) (hs : (insert_left_right h t it v).state = some s) :
    confined R h s := by
  obtain ⟨m⟩ := it
  cases m with
  | none =>
    simp only [insert_left_right, iterator.usable, result.state] at hs
    simp at hs
    subst hs
    exact ⟨hc, hroot, fun _ _ => rfl⟩
  | some p =>
    have hp : R p := hit p rfl
    cases hr : heap.read h p with
    | none => simp [insert_left_right, iterator.usable, hr, result.of_option, result.state] at hs
    | some n =>
      have hpn := hc.2 p n hp hr
      obtain ⟨hc1, hnode, keep1⟩ := closed_alloc hc (⟨some p, none, n.left, v⟩ : tree_node T)
        (ptr_in_some hp) ptr_in_none hpn.2.1
      cases hr1 : heap.read (h ++ [some (⟨some p, none, n.left, v⟩ : tree_node T)]) p with
      | none =>
        simp [insert_left_right, iterator.usable, hr, heap.alloc, hr1, result.of_option, result.state]
          at hs
      | some n1 =>
        have hpn1 := hc1.2 p n1 hp hr1
        have key : ∀ h2 : heap T, closed_region R h2 →
            (∀ a, ¬ R a → heap.read h2 a = heap.read h a) →
            ∀ h3, h2.set_left p (some h.length) = some h3 → confined R h (h3, t) := by
          intro h2 hc2 keep2 h3 hs3
          obtain ⟨hc3, keep3⟩ := closed_set_left hc2 hp (ptr_in_some hnode) hs3
          exact ⟨hc3, hroot, fun a ha => by rw [keep3 a ha, keep2 a ha]⟩
        cases hk : n1.left with
        | none =>
          cases hs3 : heap.set_left (h ++ [some (⟨some p, none, n.left, v⟩ : tree_node T)]) p (some h.length) with
          | none =>
            simp [insert_left_right, iterator.usable, hr, heap.alloc, hr1, hk, hs3, result.of_option,
              result.state] at hs
          | some h3 =>
            simp [insert_left_right, iterator.usable, hr, heap.alloc, hr1, hk, hs3, result.of_option,
              result.state] at hs
            subst hs
            exact key _ hc1 keep1 h3 hs3
        | some c =>
          have hcR : R c := hpn1.2.1 c hk
          cases hs2 : heap.set_root (h ++ [some (⟨some p, none, n.left, v⟩ : tree_node T)]) c (some h.length) with
          | none =>
            simp [insert_left_right, iterator.usable, hr, heap.alloc, hr1, hk, hs2, result.of_option,
              result.state] at hs
          | some h2 =>
            obtain ⟨hc2, keep2⟩ := closed_set_root hc1 hcR (ptr_in_some hnode) hs2
            cases hs3 : heap.set_left h2 p (some h.length) with
            | none =>
              simp [insert_left_right, iterator.usable, hr, heap.alloc, hr1, hk, hs2, hs3,
                result.of_option, result.state] at hs
            | some h3 =>
              simp [insert_left_right, iterator.usable, hr, heap.alloc, hr1, hk, hs2, hs3,
                result.of_option, result.state] at hs
              subst hs
              exact key h2 hc2 (fun a ha => by rw [keep2 a ha, keep1 a ha]) h3 hs3

theorem insert_right_left_frame (h : heap T) (t : tree_type T) (it : iterator) (v : T)
    (hc : closed_region R h) (hroot : ptr_in R t.mRoot) (hit : ptr_in R it.mData)
    (s : heap T × tree_type T) (hs : (insert_right_left h t it v).state = some s) :
    confined R h s := by
  obtain ⟨m⟩ := it
  cases m with
  | none =>
    simp only [insert_right_left, iterator.usable, result.state] at hs
    simp at hs
    subst hs
    exact ⟨hc, hroot, fun _ _ => rfl⟩
  | some p =>
    have hp : R p := hit p rfl
    cases hr : heap.read h p with
    | none => simp [insert_right_left, iterator.usable, hr, result.of_option, result.state] at hs
    | some n =>
      have hpn := hc.2 p n hp hr
      obtain ⟨hc1, hnode, keep1⟩ := closed_alloc hc (⟨some p, n.right, none, v⟩ : tree_node T)
        (ptr_in_some hp) hpn.2.2 ptr_in_none
      cases hr1 : heap.read (h ++ [some (⟨some p, n.right, none, v⟩ : tree_node T)]) p with
      | none =>
        simp [insert_right_left, iterator.usable, hr, heap.alloc, hr1, result.of_option, result.state]
          at hs
      | some n1 =>
        have hpn1 := hc1.2 p n1 hp hr1
        have key : ∀ h2 : heap T, closed_region R h2 →
            (∀ a, ¬ R a → heap.read h2 a = heap.read h a) →
            ∀ h3, h2.set_right p (some h.length) = some h3 → confined R h (h3, t) := by
          intro h2 hc2 keep2 h3 hs3
          obtain ⟨hc3, keep3⟩ := closed_set_right hc2 hp (ptr_in_some hnode) hs3
          exact ⟨hc3, hroot, fun a ha => by rw [keep3 a ha, keep2 a ha]⟩
        cases hk : n1.right with
        | none =>
          cases hs3 : heap.set_right (h ++ [some (⟨some p, n.right, none, v⟩ : tree_node T)]) p (some h.length) with
          | none =>
            simp [insert_right_left, iterator.usable, hr, heap.alloc, hr1, hk, hs3, result.of_option,
              result.state] at hs
          | some h3 =>
            simp [insert_right_left, iterator.usable, hr, heap.alloc, hr1, hk, hs3, result.of_option,
              result.state] at hs
            subst hs
            exact key _ hc1 keep1 h3 hs3
        | some c =>
          have hcR : R c := hpn1.2.2 c hk
          cases hs2 : heap.set_root (h ++ [some (⟨some p, n.right, none, v⟩ : tree_node T)]) c (some h.length) with
          | none =>
            simp [insert_right_left, iterator.usable, hr, heap.alloc, hr1, hk, hs2, result.of_option,
              result.state] at hs
          | some h2 =>
            obtain ⟨hc2, keep2⟩ := closed_set_root hc1 hcR (ptr_in_some hnode) hs2
            cases hs3 : heap.set_right h2 p (some h.length) with
            | none =>
              simp [insert_right_left, iterator.usable, hr, heap.alloc, hr1, hk, hs2, hs3,
                result.of_option, result.state] at hs
            | some h3 =>
              simp [insert_right_left, iterator.usable, hr, heap.alloc, hr1, hk, hs2, hs3,
                result.of_option, result.state] at hs
              subst hs
              exact key h2 hc2 (fun a ha => by rw [keep2 a ha, keep1 a ha]) h3 hs3

theorem insert_right_right_frame (h : heap T) (t : tree_type T) (it : iterator) (v : T)
    (hc : closed_region R h) (hroot : ptr_in R t.mRoot) (hit : ptr_in R it.mData)
    (s : heap T × tree_type T) (hs : (insert_right_right h t it v).state = some s) :
    confined R h s := by
  obtain ⟨m⟩ := it
  cases m with
  | none =>
    simp only [insert_right_right, iterator.usable, result.state] at hs
    simp at hs
    subst hs
    exact ⟨hc, hroot, fun _ _ => rfl⟩
  | some p =>
    have hp : R p := hit p rfl
    cases hr : heap.read h p with
    | none => simp [insert_right_right, iterator.usable, hr, result.of_option, result.state] at hs
    | some n =>
      have hpn := hc.2 p n hp hr
      obtain ⟨hc1, hnode, keep1⟩ := closed_alloc hc (⟨some p, none, n.right, v⟩ : tree_node T)
        (ptr_in_some hp) ptr_in_none hpn.2.2
      cases hr1 : heap.read (h ++ [some (⟨some p, none, n.right, v⟩ : tree_node T)]) p with
      | none =>
        simp [insert_right_right, iterator.usable, hr, heap.alloc, hr1, result.of_option, result.state]
          at hs
      | some n1 =>
        have hpn1 := hc1.2 p n1 hp hr1
        have key : ∀ h2 : heap T, closed_region R h2 →
            (∀ a, ¬ R a → heap.read h2 a = heap.read h a) →
            ∀ h3, h2.set_right p (some h.length) = some h3 → confined R h (h3, t) := by
          intro h2 hc2 keep2 h3 hs3
          obtain ⟨hc3, keep3⟩ := closed_set_right hc2 hp (ptr_in_some hnode) hs3
          exact ⟨hc3, hroot, fun a ha => by rw [keep3 a ha, keep2 a ha]⟩
        cases hk : n1.right with
        | none =>
          cases hs3 : heap.set_right (h ++ [some (⟨some p, none, n.right, v⟩ : tree_node T)]) p (some h.length) with
          | none =>
            simp [insert_right_right, iterator.usable, hr, heap.alloc, hr1, hk, hs3, result.of_option,
              result.state] at hs
          | some h3 =>
            simp [insert_right_right, iterator.usable, hr, heap.alloc, hr1, hk, hs3, result.of_option,
              result.state] at hs
            subst hs
            exact key _ hc1 keep1 h3 hs3
        | some c =>
          have hcR : R c := hpn1.2.2 c hk
          cases hs2 : heap.set_root (h ++ [some (⟨some p, none, n.right, v⟩ : tree_node T)]) c (some h.length) with
          | none =>
            simp [insert_right_right, iterator.usable, hr, heap.alloc, hr1, hk, hs2, result.of_option,
              result.state] at hs
          | some h2 =>
            obtain ⟨hc2, keep2⟩ := closed_set_root hc1 hcR (ptr_in_some hnode) hs2
            cases hs3 : heap.set_right h2 p (some h.length) with
            | none =>
              simp [insert_right_right, iterator.usable, hr, heap.alloc, hr1, hk, hs2, hs3,
                result.of_option, result.state] at hs
            | some h3 =>
              simp [insert_right_right, iterator.usable, hr, heap.alloc, hr1, hk, hs2, hs3,
                result.of_option, result.state] at hs
              subst hs
              exact key h2 hc2 (fun a ha => by rw [keep2 a ha, keep1 a ha]) h3 hs3

end tree_type

namespace tree_type

variable {T : Type} {R : Nat → Prop}

theorem and_then_state_none {σ τ α β : Type} (r : result σ α) (f : σ → τ)
    (k : α → σ → result τ β) (h : r.state = none) : (r.and_then f k).state = none := by
  cases r <;> simp [result.state] at h <;> rfl

theorem relink_frame {h h1 : heap T} (hc : closed_region R h) {r : Nat} (hr : R r)
    {x : Option Nat} (hx : ptr_in R x) (c : Prop) [Decidable c]
    (hs : (if c then h.set_left r x else h.set_right r x) = some h1) :
    closed_region R h1 ∧ ∀ a, ¬ R a → heap.read h1 a = heap.read h a := by
  by_cases hcnd : c
  · rw [if_pos hcnd] at hs
    exact closed_set_left hc hr hx hs
  · rw [if_neg hcnd] at hs
    exact closed_set_right hc hr hx hs

theorem write_frame (h : heap T) (it : iterator) (v : T)
    (hc : closed_region R h) (hit : ptr_in R it.mData)
    (s : heap T) (hs : (iterator.write h it v).state = some s) :
    closed_region R s ∧ ∀ a, ¬ R a → heap.read s a = heap.read h a := by
  obtain ⟨m⟩ := it
  cases m with
  | none =>
    simp only [iterator.write, iterator.usable, result.state] at hs
    simp at hs
    subst hs
    exact ⟨hc, fun _ _ => rfl⟩
  | some p =>
    have hp : R p := hit p rfl
    cases hr : heap.read h p with
    | none => simp [iterator.write, iterator.usable, hr, result.of_option, result.state] at hs
    | some n =>
      have hpn := hc.2 p n hp hr
      simp [iterator.write, iterator.usable, hr, result.of_option, result.state] at hs
      subst hs
      refine closed_set hc hp _ ?_
      intro m hm
      injection hm with hm
      subst hm
      exact hpn

theorem clear_frame (fuel : Nat) (h : heap T) (t : tree_type T)
    (hc : closed_region R h) (hroot : ptr_in R t.mRoot)
    (s : heap T × tree_type T) (hs : (clear fuel h t).state = some s) :
    confined R h s := by
  cases hd : (destroy fuel h t.mRoot).state with
  | none =>
    rw [clear, and_then_state_none _ _ _ hd] at hs
    cases hs
  | some h1 =>
    obtain ⟨e1, hc1, keep1⟩ := destroy_frame fuel h t.mRoot h1 hc hroot hd
    simp only [clear, e1, result.and_then, result.state, Option.some.injEq] at hs
    subst hs
    exact ⟨hc1, ptr_in_none, keep1⟩

theorem erase_frame (fuel : Nat) (h : heap T) (t : tree_type T) (it : iterator)
    (hc : closed_region R h) (hroot : ptr_in R t.mRoot) (hit : ptr_in R it.mData)
    (s : heap T × tree_type T) (hs : (erase fuel h t it).state = some s) :
    confined R h s := by
  obtain ⟨m⟩ := it
  obtain ⟨tr⟩ := t
  cases m with
  | none =>
    simp only [erase, iterator.usable, result.state] at hs
    simp at hs
    subst hs
    exact ⟨hc, hroot, fun _ _ => rfl⟩
  | some p =>
    have hp : R p := hit p rfl
    by_cases heq : tr = some p
    · subst heq
      cases hd : (destroy fuel h (some p)).state with
      | none =>
        have := and_then_state_none (destroy fuel h (some p))
          (fun h1 => (h1, (⟨some p⟩ : tree_type T)))
          (fun _ h1 => (.ok ⟨none⟩ (h1, ⟨none⟩) : result (heap T × tree_type T) iterator)) hd
        simp [erase, iterator.usable, this] at hs
      | some h1 =>
        obtain ⟨e1, hc1, keep1⟩ := destroy_frame fuel h (some p) h1 hc (ptr_in_some hp) hd
        simp [erase, iterator.usable, e1, result.and_then, result.state] at hs
        subst hs
        exact ⟨hc1, ptr_in_none, keep1⟩
    · have heq1 : ¬ (some p = tr) := fun e => heq e.symm
      cases hr : heap.read h p with
      | none => simp [erase, iterator.usable, heq1, hr, result.state] at hs
      | some n =>
        have hpn := hc.2 p n hp hr
        have key : ∀ (x : Option Nat) (h1 : heap T), closed_region R h1 →
            (∀ a, ¬ R a → heap.read h1 a = heap.read h a) →
            ((destroy fuel h1 (some p)).and_then (fun h2 => (h2, (⟨tr⟩ : tree_type T)))
              (fun _ h2 => (.ok ⟨x⟩ (h2, ⟨tr⟩) : result (heap T × tree_type T) iterator))).state
              = some s → confined R h s := by
          intro x h1 hc1 keep1 hs1
          cases hd : (destroy fuel h1 (some p)).state with
          | none =>
            rw [and_then_state_none _ _ _ hd] at hs1
            cases hs1
          | some h2 =>
            obtain ⟨e2, hc2, keep2⟩ := destroy_frame fuel h1 (some p) h2 hc1 (ptr_in_some hp) hd
            simp only [e2, result.and_then, result.state, Option.some.injEq] at hs1
            subst hs1
            exact ⟨hc2, hroot, fun a ha => by rw [keep2 a ha, keep1 a ha]⟩
        cases hroot1 : n.root with
        | none =>
          simp [erase, iterator.usable, heq1, hr, hroot1] at hs
          exact key none h hc (fun _ _ => rfl) hs
        | some r =>
          have hrR : R r := hpn.1 r hroot1
          cases hrr : heap.read h r with
          | none => simp [erase, iterator.usable, heq1, hr, hroot1, hrr, result.state] at hs
          | some rn =>
            by_cases hcnd : some p = rn.left
            · cases hl : heap.set_left h r none with
              | none =>
                simp [erase, iterator.usable, heq1, hr, hroot1, hrr, eq_true hcnd, hl,
                  result.state] at hs
              | some h1 =>
                obtain ⟨hc1, keep1⟩ := closed_set_left hc hrR ptr_in_none hl
                simp [erase, iterator.usable, heq1, hr, hroot1, hrr, eq_true hcnd, hl] at hs
                exact key (some r) h1 hc1 keep1 hs
            · cases hl : heap.set_right h r none with
              | none =>
                simp [erase, iterator.usable, heq1, hr, hroot1, hrr, hcnd, hl,
                  result.state] at hs
              | some h1 =>
                obtain ⟨hc1, keep1⟩ := closed_set_right hc hrR ptr_in_none hl
                simp [erase, iterator.usable, heq1, hr, hroot1, hrr, hcnd, hl] at hs
                exact key (some r) h1 hc1 keep1 hs

end tree_type

namespace tree_type

variable {T : Type} {R : Nat → Prop}

theorem insert_root_left_frame (h : heap T) (t : tree_type T) (it : iterator) (v : T)
    (hc : closed_region R h) (hroot : ptr_in R t.mRoot) (hit : ptr_in R it.mData)
    (s : heap T × tree_type T) (hs : (insert_root_left h t it v).state = some s) :
    confined R h s := by
  obtain ⟨m⟩ := it
  obtain ⟨tr⟩ := t
  by_cases heq : m = tr
  · subst heq
    obtain ⟨hc1, hnode, keep1⟩ := closed_alloc hc (⟨none, m, none, v⟩ : tree_node T)
      ptr_in_none hit ptr_in_none
    simp [insert_root_left, heap.alloc, result.state] at hs
    subst hs
    exact ⟨hc1, ptr_in_some hnode, keep1⟩
  · cases m with
    | none =>
      simp [insert_root_left, heq, iterator.usable, result.state] at hs
      subst hs
      exact ⟨hc, hroot, fun _ _ => rfl⟩
    | some p =>
      have hp : R p := hit p rfl
      cases hr : heap.read h p with
      | none =>
        simp [insert_root_left, heq, iterator.usable, hr, result.of_option, result.state] at hs
      | some n =>
        have hpn := hc.2 p n hp hr
        obtain ⟨hc1, hnode, keep1⟩ := closed_alloc hc (⟨n.root, some p, none, v⟩ : tree_node T)
          hpn.1 (ptr_in_some hp) ptr_in_none
        cases hr1 : heap.read (h ++ [some (⟨n.root, some p, none, v⟩ : tree_node T)]) p with
        | none =>
          simp [insert_root_left, heq, iterator.usable, hr, heap.alloc, hr1, result.of_option,
            result.state] at hs
        | some n1 =>
          have hpn1 := hc1.2 p n1 hp hr1
          cases hroot1 : n1.root with
          | none =>
            simp [insert_root_left, heq, iterator.usable, hr, heap.alloc, hr1, hroot1, result.of_option,
              result.state] at hs
          | some r =>
            have hrR : R r := hpn1.1 r hroot1
            cases hrr : heap.read (h ++ [some (⟨n.root, some p, none, v⟩ : tree_node T)]) r with
            | none =>
              simp [insert_root_left, heq, iterator.usable, hr, heap.alloc, hr1, hroot1, hrr,
                result.of_option, result.state] at hs
            | some rn =>
              have key : ∀ h2 : heap T, closed_region R h2 →
                  (∀ a, ¬ R a → heap.read h2 a = heap.read h a) →
                  ∀ h3, h2.set_root p (some h.length) = some h3 →
                    confined R h (h3, (⟨tr⟩ : tree_type T)) := by
                intro h2 hc2 keep2 h3 hs3
                obtain ⟨hc3, keep3⟩ := closed_set_root hc2 hp (ptr_in_some hnode) hs3
                exact ⟨hc3, hroot, fun a ha => by rw [keep3 a ha, keep2 a ha]⟩
              by_cases hcnd : rn.left = some p
              · cases hl : heap.set_left (h ++ [some (⟨n.root, some p, none, v⟩ : tree_node T)]) r
                    (some h.length) with
                | none =>
                  simp [insert_root_left, heq, iterator.usable, hr, heap.alloc, hr1, hroot1, hrr,
                    hcnd, hl, result.of_option, result.state] at hs
                | some h2 =>
                  obtain ⟨hc2, keep2⟩ := closed_set_left hc1 hrR (ptr_in_some hnode) hl
                  cases hs3 : heap.set_root h2 p (some h.length) with
                  | none =>
                    simp [insert_root_left, heq, iterator.usable, hr, heap.alloc, hr1, hroot1, hrr,
                      hcnd, hl, hs3, result.of_option, result.state] at hs
                  | some h3 =>
                    simp [insert_root_left, heq, iterator.usable, hr, heap.alloc, hr1, hroot1, hrr,
                      hcnd, hl, hs3, result.of_option, result.state] at hs
                    subst hs
                    exact key h2 hc2 (fun a ha => by rw [keep2 a ha, keep1 a ha]) h3 hs3
              · cases hl : heap.set_right (h ++ [some (⟨n.root, some p, none, v⟩ : tree_node T)]) r
                    (some h.length) with
                | none =>
                  simp [insert_root_left, heq, iterator.usable, hr, heap.alloc, hr1, hroot1, hrr,
                    hcnd, hl, result.of_option, result.state] at hs
                | some h2 =>
                  obtain ⟨hc2, keep2⟩ := closed_set_right hc1 hrR (ptr_in_some hnode) hl
                  cases hs3 : heap.set_root h2 p (some h.length) with
                  | none =>
                    simp [insert_root_left, heq, iterator.usable, hr, heap.alloc, hr1, hroot1, hrr,
                      hcnd, hl, hs3, result.of_option, result.state] at hs
                  | some h3 =>
                    simp [insert_root_left, heq, iterator.usable, hr, heap.alloc, hr1, hroot1, hrr,
                      hcnd, hl, hs3, result.of_option, result.state] at hs
                    subst hs
                    exact key h2 hc2 (fun a ha => by rw [keep2 a ha, keep1 a ha]) h3 hs3

theorem insert_root_right_frame (h : heap T) (t : tree_type T) (it : iterator) (v : T)
    (hc : closed_region R h) (hroot : ptr_in R t.mRoot) (hit : ptr_in R it.mData)
    (s : heap T × tree_type T) (hs : (insert_root_right h t it v).state = some s) :
    confined R h s := by
  obtain ⟨m⟩ := it
  obtain ⟨tr⟩ := t
  by_cases heq : m = tr
  · subst heq
    obtain ⟨hc1, hnode, keep1⟩ := closed_alloc hc (⟨none, none, m, v⟩ : tree_node T)
      ptr_in_none ptr_in_none hit
    simp [insert_root_right, heap.alloc, result.state] at hs
    subst hs
    exact ⟨hc1, ptr_in_some hnode, keep1⟩
  · cases m with
    | none =>
      simp [insert_root_right, heq, iterator.usable, result.state] at hs
      subst hs
      exact ⟨hc, hroot, fun _ _ => rfl⟩
    | some p =>
      have hp : R p := hit p rfl
      cases hr : heap.read h p with
      | none =>
        simp [insert_root_right, heq, iterator.usable, hr, result.of_option, result.state] at hs
      | some n =>
        have hpn := hc.2 p n hp hr
        obtain ⟨hc1, hnode, keep1⟩ := closed_alloc hc (⟨n.root, none, some p, v⟩ : tree_node T)
          hpn.1 ptr_in_none (ptr_in_some hp)
        cases hr1 : heap.read (h ++ [some (⟨n.root, none, some p, v⟩ : tree_node T)]) p with
        | none =>
          simp [insert_root_right, heq, iterator.usable, hr, heap.alloc, hr1, result.of_option,
            result.state] at hs
        | some n1 =>
          have hpn1 := hc1.2 p n1 hp hr1
          cases hroot1 : n1.root with
          | none =>
            simp [insert_root_right, heq, iterator.usable, hr, heap.alloc, hr1, hroot1, result.of_option,
              result.state] at hs
          | some r =>
            have hrR : R r := hpn1.1 r hroot1
            cases hrr : heap.read (h ++ [some (⟨n.root, none, some p, v⟩ : tree_node T)]) r with
            | none =>
              simp [insert_root_right, heq, iterator.usable, hr, heap.alloc, hr1, hroot1, hrr,
                result.of_option, result.state] at hs
            | some rn =>
              have key : ∀ h2 : heap T, closed_region R h2 →
                  (∀ a, ¬ R a → heap.read h2 a = heap.read h a) →
                  ∀ h3, h2.set_root p (some h.length) = some h3 →
                    confined R h (h3, (⟨tr⟩ : tree_type T)) := by
                intro h2 hc2 keep2 h3 hs3
                obtain ⟨hc3, keep3⟩ := closed_set_root hc2 hp (ptr_in_some hnode) hs3
                exact ⟨hc3, hroot, fun a ha => by rw [keep3 a ha, keep2 a ha]⟩
              by_cases hcnd : rn.left = some p
              · cases hl : heap.set_left (h ++ [some (⟨n.root, none, some p, v⟩ : tree_node T)]) r
                    (some h.length) with
                | none =>
                  simp [insert_root_right, heq, iterator.usable, hr, heap.alloc, hr1, hroot1, hrr,
                    hcnd, hl, result.of_option, result.state] at hs
                | some h2 =>
                  obtain ⟨hc2, keep2⟩ := closed_set_left hc1 hrR (ptr_in_some hnode) hl
                  cases hs3 : heap.set_root h2 p (some h.length) with
                  | none =>
                    simp [insert_root_right, heq, iterator.usable, hr, heap.alloc, hr1, hroot1, hrr,
                      hcnd, hl, hs3, result.of_option, result.state] at hs
                  | some h3 =>
                    simp [insert_root_right, heq, iterator.usable, hr, heap.alloc, hr1, hroot1, hrr,
                      hcnd, hl, hs3, result.of_option, result.state] at hs
                    subst hs
                    exact key h2 hc2 (fun a ha => by rw [keep2 a ha, keep1 a ha]) h3 hs3
              · cases hl : heap.set_right (h ++ [some (⟨n.root, none, some p, v⟩ : tree_node T)]) r
                    (some h.length) with
                | none =>
                  simp [insert_root_right, heq, iterator.usable, hr, heap.alloc, hr1, hroot1, hrr,
                    hcnd, hl, result.of_option, result.state] at hs
                | some h2 =>
                  obtain ⟨hc2, keep2⟩ := closed_set_right hc1 hrR (ptr_in_some hnode) hl
                  cases hs3 : heap.set_root h2 p (some h.length) with
                  | none =>
                    simp [insert_root_right, heq, iterator.usable, hr, heap.alloc, hr1, hroot1, hrr,
                      hcnd, hl, hs3, result.of_option, result.state] at hs
                  | some h3 =>
                    simp [insert_root_right, heq, iterator.usable, hr, heap.alloc, hr1, hroot1, hrr,
                      hcnd, hl, hs3, result.of_option, result.state] at hs
                    subst hs
                    exact key h2 hc2 (fun a ha => by rw [keep2 a ha, keep1 a ha]) h3 hs3

theorem erase_left_frame (fuel : Nat) (h : heap T) (t : tree_type T) (it : iterator)
    (hc : closed_region R h) (hroot : ptr_in R t.mRoot) (hit : ptr_in R it.mData)
    (s : heap T × tree_type T) (hs : (erase_left fuel h t it).state = some s) :
    confined R h s := by
  obtain ⟨m⟩ := it
  cases m with
  | none =>
    simp only [erase_left, iterator.usable, result.state] at hs
    simp at hs
    subst hs
    exact ⟨hc, hroot, fun _ _ => rfl⟩
  | some p =>
    have hp : R p := hit p rfl
    cases hr : heap.read h p with
    | none => simp [erase_left, iterator.usable, hr, result.state] at hs
    | some n =>
      have hpn := hc.2 p n hp hr
      cases hd : (destroy fuel h n.left).state with
      | none =>
        have := and_then_state_none (destroy fuel h n.left) (fun h1 => (h1, t))
          (fun _ h1 => (match h1.set_left p none with
            | none => .fault
            | some h2 => .ok (⟨some p⟩ : iterator) (h2, t) :
              result (heap T × tree_type T) iterator)) hd
        simp [erase_left, iterator.usable, hr, this] at hs
      | some h1 =>
        obtain ⟨e1, hc1, keep1⟩ := destroy_frame fuel h n.left h1 hc hpn.2.1 hd
        cases hs2 : heap.set_left h1 p none with
        | none =>
          simp [erase_left, iterator.usable, hr, e1, result.and_then, hs2, result.state] at hs
        | some h2 =>
          obtain ⟨hc2, keep2⟩ := closed_set_left hc1 hp ptr_in_none hs2
          simp [erase_left, iterator.usable, hr, e1, result.and_then, hs2, result.state] at hs
          subst hs
          exact ⟨hc2, hroot, fun a ha => by rw [keep2 a ha, keep1 a ha]⟩

theorem erase_right_frame (fuel : Nat) (h : heap T) (t : tree_type T) (it : iterator)
    (hc : closed_region R h) (hroot : ptr_in R t.mRoot) (hit : ptr_in R it.mData)
    (s : heap T × tree_type T) (hs : (erase_right fuel h t it).state = some s) :
    confined R h s := by
  obtain ⟨m⟩ := it
  cases m with
  | none =>
    simp only [erase_right, iterator.usable, result.state] at hs
    simp at hs
    subst hs
    exact ⟨hc, hroot, fun _ _ => rfl⟩
  | some p =>
    have hp : R p := hit p rfl
    cases hr : heap.read h p with
    | none => simp [erase_right, iterator.usable, hr, result.state] at hs
    | some n =>
      have hpn := hc.2 p n hp hr
      cases hd : (destroy fuel h n.right).state with
      | none =>
        have := and_then_state_none (destroy fuel h n.right) (fun h1 => (h1, t))
          (fun _ h1 => (match h1.set_right p none with
            | none => .fault
            | some h2 => .ok (⟨some p⟩ : iterator) (h2, t) :
              result (heap T × tree_type T) iterator)) hd
        simp [erase_right, iterator.usable, hr, this] at hs
      | some h1 =>
        obtain ⟨e1, hc1, keep1⟩ := destroy_frame fuel h n.right h1 hc hpn.2.2 hd
        cases hs2 : heap.set_right h1 p none with
        | none =>
          simp [erase_right, iterator.usable, hr, e1, result.and_then, hs2, result.state] at hs
        | some h2 =>
          obtain ⟨hc2, keep2⟩ := closed_set_right hc1 hp ptr_in_none hs2
          simp [erase_right, iterator.usable, hr, e1, result.and_then, hs2, result.state] at hs
          subst hs
          exact ⟨hc2, hroot, fun a ha => by rw [keep2 a ha, keep1 a ha]⟩

end tree_type

namespace tree_type

variable {T : Type} {R : Nat → Prop}

theorem reserve_left_frame (fuel : Nat) (h : heap T) (t : tree_type T) (it : iterator)
    (hc : closed_region R h) (hroot : ptr_in R t.mRoot) (hit : ptr_in R it.mData)
    (s : heap T × tree_type T) (hs : (reserve_left fuel h t it).state = some s) :
    confined R h s := by
  obtain ⟨m⟩ := it
  cases m with
  | none =>
    simp only [reserve_left, iterator.usable, result.state] at hs
    simp at hs
    subst hs
    exact ⟨hc, hroot, fun _ _ => rfl⟩
  | some p =>
    have hp : R p := hit p rfl
    cases hr : heap.read h p with
    | none => simp [reserve_left, iterator.usable, hr, result.state] at hs
    | some n =>
      have hpn := hc.2 p n hp hr
      have hres : ptr_in R n.left := hpn.2.1
      have key : ∀ h3 : heap T, closed_region R h3 →
          (∀ a, ¬ R a → heap.read h3 a = heap.read h a) →
          ((destroy fuel h3 (some p)).and_then (fun h4 => (h4, t))
            (fun _ h4 => (.ok ⟨n.left⟩ (h4, if some p = t.mRoot then ⟨n.left⟩ else t) :
              result (heap T × tree_type T) iterator))).state = some s →
          confined R h s := by
        intro h3 hc3 keep3 hs3
        cases hd : destroy fuel h3 (some p) with
        | fault => simp [hd, result.and_then, result.state] at hs3
        | diverge => simp [hd, result.and_then, result.state] at hs3
        | throw e s1 =>
          obtain ⟨e4, _, _⟩ := destroy_frame fuel h3 (some p) s1 hc3 (ptr_in_some hp)
            (by rw [hd]; rfl)
          rw [hd] at e4
          cases e4
        | ok u h4 =>
          obtain ⟨_, hc4, keep4⟩ := destroy_frame fuel h3 (some p) h4 hc3 (ptr_in_some hp)
            (by rw [hd]; rfl)
          simp only [hd, result.and_then, result.state, Option.some.injEq] at hs3
          subst hs3
          refine ⟨hc4, ?_, fun a ha => by rw [keep4 a ha, keep3 a ha]⟩
          by_cases hpr : some p = t.mRoot
          · simp only [if_pos hpr]; exact hres
          · simp only [if_neg hpr]; exact hroot
      cases hs1 : heap.set_left h p none with
      | none => simp [reserve_left, iterator.usable, hr, hs1, result.state] at hs
      | some h1 =>
        obtain ⟨hc1, keep1⟩ := closed_set_left hc hp ptr_in_none hs1
        cases hch : n.left with
        | none => simp [reserve_left, iterator.usable, hr, hs1, hch, result.state] at hs
        | some c =>
          have hcR : R c := hres c hch
          cases hs2 : heap.set_root h1 c n.root with
          | none => simp [reserve_left, iterator.usable, hr, hs1, hch, hs2, result.state] at hs
          | some h2 =>
            obtain ⟨hc2, keep2⟩ := closed_set_root hc1 hcR hpn.1 hs2
            have keep02 : ∀ a, ¬ R a → heap.read h2 a = heap.read h a :=
              fun a ha => by rw [keep2 a ha, keep1 a ha]
            rw [hch] at key
            cases hroot1 : n.root with
            | none =>
              rw [hroot1] at hs2
              simp [reserve_left, iterator.usable, hr, hs1, hch, hs2, hroot1] at hs
              exact key h2 hc2 keep02 hs
            | some r =>
              rw [hroot1] at hs2
              have hrR : R r := hpn.1 r hroot1
              cases hrr : heap.read h2 r with
              | none =>
                simp [reserve_left, iterator.usable, hr, hs1, hch, hs2, hroot1, hrr,
                  result.state] at hs
              | some rn =>
                by_cases hcnd : some p = rn.left
                · cases hl : heap.set_left h2 r (some c) with
                  | none =>
                    simp [reserve_left, iterator.usable, hr, hs1, hch, hs2, hroot1, hrr,
                      eq_true hcnd, hl, result.state] at hs
                  | some h3 =>
                    obtain ⟨hc3, keep3⟩ := closed_set_left hc2 hrR (ptr_in_some hcR) hl
                    simp [reserve_left, iterator.usable, hr, hs1, hch, hs2, hroot1, hrr,
                      eq_true hcnd, hl] at hs
                    exact key h3 hc3 (fun a ha => by rw [keep3 a ha, keep02 a ha]) hs
                · cases hl : heap.set_right h2 r (some c) with
                  | none =>
                    simp [reserve_left, iterator.usable, hr, hs1, hch, hs2, hroot1, hrr,
                      hcnd, hl, result.state] at hs
                  | some h3 =>
                    obtain ⟨hc3, keep3⟩ := closed_set_right hc2 hrR (ptr_in_some hcR) hl
                    simp [reserve_left, iterator.usable, hr, hs1, hch, hs2, hroot1, hrr,
                      hcnd, hl] at hs
                    exact key h3 hc3 (fun a ha => by rw [keep3 a ha, keep02 a ha]) hs

theorem reserve_right_frame (fuel : Nat) (h : heap T) (t : tree_type T) (it : iterator)
    (hc : closed_region R h) (hroot : ptr_in R t.mRoot) (hit : ptr_in R it.mData)
    (s : heap T × tree_type T) (hs : (reserve_right fuel h t it).state = some s) :
    confined R h s := by
  obtain ⟨m⟩ := it
  cases m with
  | none =>
    simp only [reserve_right, iterator.usable, result.state] at hs
    simp at hs
    subst hs
    exact ⟨hc, hroot, fun _ _ => rfl⟩
  | some p =>
    have hp : R p := hit p rfl
    cases hr : heap.read h p with
    | none => simp [reserve_right, iterator.usable, hr, result.state] at hs
    | some n =>
      have hpn := hc.2 p n hp hr
      have hres : ptr_in R n.right := hpn.2.2
      have key : ∀ h3 : heap T, closed_region R h3 →
          (∀ a, ¬ R a → heap.read h3 a = heap.read h a) →
          ((destroy fuel h3 (some p)).and_then (fun h4 => (h4, t))
            (fun _ h4 => (.ok ⟨n.right⟩ (h4, if some p = t.mRoot then ⟨n.right⟩ else t) :
              result (heap T × tree_type T) iterator))).state = some s →
          confined R h s := by
        intro h3 hc3 keep3 hs3
        cases hd : destroy fuel h3 (some p) with
        | fault => simp [hd, result.and_then, result.state] at hs3
        | diverge => simp [hd, result.and_then, result.state] at hs3
        | throw e s1 =>
          obtain ⟨e4, _, _⟩ := destroy_frame fuel h3 (some p) s1 hc3 (ptr_in_some hp)
            (by rw [hd]; rfl)
          rw [hd] at e4
          cases e4
        | ok u h4 =>
          obtain ⟨_, hc4, keep4⟩ := destroy_frame fuel h3 (some p) h4 hc3 (ptr_in_some hp)
            (by rw [hd]; rfl)
          simp only [hd, result.and_then, result.state, Option.some.injEq] at hs3
          subst hs3
          refine ⟨hc4, ?_, fun a ha => by rw [keep4 a ha, keep3 a ha]⟩
          by_cases hpr : some p = t.mRoot
          · simp only [if_pos hpr]; exact hres
          · simp only [if_neg hpr]; exact hroot
      cases hs1 : heap.set_right h p none with
      | none => simp [reserve_right, iterator.usable, hr, hs1, result.state] at hs
      | some h1 =>
        obtain ⟨hc1, keep1⟩ := closed_set_right hc hp ptr_in_none hs1
        cases hch : n.right with
        | none => simp [reserve_right, iterator.usable, hr, hs1, hch, result.state] at hs
        | some c =>
          have hcR : R c := hres c hch
          cases hs2 : heap.set_root h1 c n.root with
          | none => simp [reserve_right, iterator.usable, hr, hs1, hch, hs2, result.state] at hs
          | some h2 =>
            obtain ⟨hc2, keep2⟩ := closed_set_root hc1 hcR hpn.1 hs2
            have keep02 : ∀ a, ¬ R a → heap.read h2 a = heap.read h a :=
              fun a ha => by rw [keep2 a ha, keep1 a ha]
            rw [hch] at key
            cases hroot1 : n.root with
            | none =>
              rw [hroot1] at hs2
              simp [reserve_right, iterator.usable, hr, hs1, hch, hs2, hroot1] at hs
              exact key h2 hc2 keep02 hs
            | some r =>
              rw [hroot1] at hs2
              have hrR : R r := hpn.1 r hroot1
              cases hrr : heap.read h2 r with
              | none =>
                simp [reserve_right, iterator.usable, hr, hs1, hch, hs2, hroot1, hrr,
                  result.state] at hs
              | some rn =>
                by_cases hcnd : some p = rn.left
                · cases hl : heap.set_left h2 r (some c) with
                  | none =>
                    simp [reserve_right, iterator.usable, hr, hs1, hch, hs2, hroot1, hrr,
                      eq_true hcnd, hl, result.state] at hs
                  | some h3 =>
                    obtain ⟨hc3, keep3⟩ := closed_set_left hc2 hrR (ptr_in_some hcR) hl
                    simp [reserve_right, iterator.usable, hr, hs1, hch, hs2, hroot1, hrr,
                      eq_true hcnd, hl] at hs
                    exact key h3 hc3 (fun a ha => by rw [keep3 a ha, keep02 a ha]) hs
                · cases hl : heap.set_right h2 r (some c) with
                  | none =>
                    simp [reserve_right, iterator.usable, hr, hs1, hch, hs2, hroot1, hrr,
                      hcnd, hl, result.state] at hs
                  | some h3 =>
                    obtain ⟨hc3, keep3⟩ := closed_set_right hc2 hrR (ptr_in_some hcR) hl
                    simp [reserve_right, iterator.usable, hr, hs1, hch, hs2, hroot1, hrr,
                      hcnd, hl] at hs
                    exact key h3 hc3 (fun a ha => by rw [keep3 a ha, keep02 a ha]) hs

theorem merge_frame (fuel : Nat) (h : heap T) (t : tree_type T) (it : iterator)
    (tree : tree_type T)
    (hc : closed_region R h) (hroot : ptr_in R t.mRoot) (hit : ptr_in R it.mData)
    (s : heap T × tree_type T) (hs : (merge fuel h t it tree).state = some s) :
    confined R h s := by
  obtain ⟨m⟩ := it
  cases m with
  | none =>
    simp only [merge, iterator.usable, result.state] at hs
    simp at hs
    subst hs
    exact ⟨hc, hroot, fun _ _ => rfl⟩
  | some p =>
    have hp : R p := hit p rfl
    cases hr : heap.read h p with
    | none => simp [merge, iterator.usable, hr, result.state] at hs
    | some n =>
      have hpn := hc.2 p n hp hr
      cases hcp : copy fuel h tree.mRoot n.root with
      | fault => simp [merge, iterator.usable, hr, hcp, result.and_then, result.state] at hs
      | diverge => simp [merge, iterator.usable, hr, hcp, result.and_then, result.state] at hs
      | throw e s1 =>
        obtain ⟨r, e1, _⟩ := copy_frame fuel h tree.mRoot n.root s1 hc hpn.1 (by rw [hcp]; rfl)
        rw [hcp] at e1
        cases e1
      | ok sub h1 =>
        obtain ⟨r, e1, hsub, hc1, keep1⟩ := copy_frame fuel h tree.mRoot n.root h1 hc hpn.1
          (by rw [hcp]; rfl)
        rw [hcp] at e1
        injection e1 with e1 _
        subst e1
        have key : ∀ h2 : heap T, closed_region R h2 →
            (∀ a, ¬ R a → heap.read h2 a = heap.read h a) →
            ((destroy fuel h2 (some p)).and_then (fun h3 => (h3, t))
              (fun _ h3 => (.ok ⟨sub⟩ (h3, if some p = t.mRoot then ⟨sub⟩ else t) :
                result (heap T × tree_type T) iterator))).state = some s →
            confined R h s := by
          intro h2 hc2 keep2 hs2
          cases hd : destroy fuel h2 (some p) with
          | fault => simp [hd, result.and_then, result.state] at hs2
          | diverge => simp [hd, result.and_then, result.state] at hs2
          | throw e s1 =>
            obtain ⟨e4, _, _⟩ := destroy_frame fuel h2 (some p) s1 hc2 (ptr_in_some hp)
              (by rw [hd]; rfl)
            rw [hd] at e4
            cases e4
          | ok u h3 =>
            obtain ⟨_, hc3, keep3⟩ := destroy_frame fuel h2 (some p) h3 hc2 (ptr_in_some hp)
              (by rw [hd]; rfl)
            simp only [hd, result.and_then, result.state, Option.some.injEq] at hs2
            subst hs2
            refine ⟨hc3, ?_, fun a ha => by rw [keep3 a ha, keep2 a ha]⟩
            by_cases hpr : some p = t.mRoot
            · simp only [if_pos hpr]; exact hsub
            · simp only [if_neg hpr]; exact hroot
        cases hroot1 : n.root with
        | none =>
          rw [hroot1] at hcp
          simp [merge, iterator.usable, hr, hroot1, hcp, result.and_then] at hs
          exact key h1 hc1 keep1 (by simpa [result.and_then] using hs)
        | some r =>
          rw [hroot1] at hcp
          have hrR : R r := hpn.1 r hroot1
          cases hrr : heap.read h1 r with
          | none =>
            simp [merge, iterator.usable, hr, hroot1, hcp, result.and_then, hrr,
              result.state] at hs
          | some rn =>
            by_cases hcnd : some p = rn.left
            · cases hl : heap.set_left h1 r sub with
              | none =>
                simp [merge, iterator.usable, hr, hroot1, hcp, result.and_then, hrr,
                  eq_true hcnd, hl, result.state] at hs
              | some h2 =>
                obtain ⟨hc2, keep2⟩ := closed_set_left hc1 hrR hsub hl
                simp [merge, iterator.usable, hr, hroot1, hcp, result.and_then, hrr,
                  eq_true hcnd, hl] at hs
                exact key h2 hc2 (fun a ha => by rw [keep2 a ha, keep1 a ha])
                  (by simpa [result.and_then] using hs)
            · cases hl : heap.set_right h1 r sub with
              | none =>
                simp [merge, iterator.usable, hr, hroot1, hcp, result.and_then, hrr,
                  hcnd, hl, result.state] at hs
              | some h2 =>
                obtain ⟨hc2, keep2⟩ := closed_set_right hc1 hrR hsub hl
                simp [merge, iterator.usable, hr, hroot1, hcp, result.and_then, hrr,
                  hcnd, hl] at hs
                exact key h2 hc2 (fun a ha => by rw [keep2 a ha, keep1 a ha])
                  (by simpa [result.and_then] using hs)

end tree_type

namespace tree_type

variable {T : Type}

theorem holds_congr {h h1 : heap T} (tr : btree T) :
    (∀ a ∈ tr.addrs, heap.read h1 a = heap.read h a) → holds h tr → holds h1 tr := by
  induction tr with
  | leaf => intro _ _; trivial
  | node a d l r ihl ihr =>
    intro hk ho
    obtain ⟨⟨par, h0⟩, hl, hr⟩ := ho
    refine ⟨⟨par, ?_⟩, ihl (fun x hx => hk x ?_) hl, ihr (fun x hx => hk x ?_) hr⟩
    · rw [hk a (by simp [btree.addrs])]; exact h0
    · simp [btree.addrs, hx]
    · simp [btree.addrs, hx]

theorem holds_lt {h : heap T} (tr : btree T) :
    holds h tr → ∀ a ∈ tr.addrs, a < h.length := by
  induction tr with
  | leaf => intro _ a ha; simp [btree.addrs] at ha
  | node b d l r ihl ihr =>
    intro ho a ha
    obtain ⟨⟨par, h0⟩, hl, hr⟩ := ho
    simp only [btree.addrs, List.mem_cons, List.mem_append] at ha
    rcases ha with rfl | ha | ha
    · exact heap.read_lt h0
    · exact ihl hl a ha
    · exact ihr hr a ha

theorem owns_holds {h : heap T} (tr : btree T) : ∀ par, owns h par tr → holds h tr := by
  induction tr with
  | leaf => intro _ _; trivial
  | node a d l r ihl ihr =>
    intro par ho
    exact ⟨⟨par, ho.1⟩, ihl _ ho.2.1, ihr _ ho.2.2⟩

theorem destroy_holds (tr : btree T) :
    ∀ (fuel : Nat) (h : heap T),
      holds h tr → tr.addrs.Nodup → tr.height ≤ fuel →
      ∃ h1, destroy fuel h tr.ptr = .ok () h1 ∧ h1.length = h.length ∧
        (∀ a ∈ tr.addrs, heap.read h1 a = none) ∧
        (∀ a, a ∉ tr.addrs → heap.read h1 a = heap.read h a) := by
  induction tr with
  | leaf =>
    intro fuel h _ _ _
    exact ⟨h, destroy_none fuel h, rfl, by simp [btree.addrs], fun _ _ => rfl⟩
  | node a d l r ihl ihr =>
    intro fuel h ho hnd hf
    obtain ⟨k, rfl⟩ : ∃ k, fuel = k + 1 := ⟨fuel - 1, by simp [btree.height] at hf; omega⟩
    simp only [btree.height] at hf
    obtain ⟨⟨par, h0⟩, hl, hr⟩ := ho
    simp only [btree.addrs, List.nodup_cons, List.mem_append, not_or] at hnd
    obtain ⟨⟨hal, har⟩, hnd2⟩ := hnd
    rw [List.nodup_append] at hnd2
    obtain ⟨hndl, hndr, hdisj⟩ := hnd2
    obtain ⟨h1, e1, len1, dead1, keep1⟩ := ihl k h hl hndl (by omega)
    have hr1 : holds h1 r :=
      holds_congr r (fun x hx => keep1 x (fun hxl => hdisj hxl hx)) hr
    obtain ⟨h2, e2, len2, dead2, keep2⟩ := ihr k h1 hr1 hndr (by omega)
    have ra1 : heap.read h1 a = some ⟨par, l.ptr, r.ptr, d⟩ := by rw [keep1 a hal]; exact h0
    have ra2 : heap.read h2 a = some ⟨par, l.ptr, r.ptr, d⟩ := by rw [keep2 a har]; exact ra1
    refine ⟨h2.set a none, ?_, by simp [len1, len2], ?_, ?_⟩
    · show destroy (k + 1) h (some a) = _
      simp only [destroy, h0, Option.map_some', e1, ra1, e2, heap.delete_eq ra2]
    · intro x hx
      simp only [btree.addrs, List.mem_cons, List.mem_append] at hx
      by_cases hxa : x = a
      · subst hxa
        exact heap.read_set_eq _ _ _ (heap.read_lt ra2)
      · rw [heap.read_set_ne _ _ _ _ hxa]
        rcases hx with hx | hx | hx
        · exact absurd hx hxa
        · by_cases hxr : x ∈ r.addrs
          · exact dead2 x hxr
          · rw [keep2 x hxr]; exact dead1 x hx
        · exact dead2 x hx
    · intro x hx
      simp only [btree.addrs, List.mem_cons, List.mem_append, not_or] at hx
      rw [heap.read_set_ne _ _ _ _ hx.1, keep2 x hx.2.2, keep1 x hx.2.1]

theorem copy_holds (tr : btree T) :
    ∀ (fuel : Nat) (h : heap T) (root : Option Nat),
      holds h tr → tr.height ≤ fuel →
      ∃ h1, copy fuel h tr.ptr root = .ok (tr.relabel h.length).ptr h1 ∧
        h1.length = h.length + tr.size ∧
        (∀ a, a < h.length → heap.read h1 a = heap.read h a) ∧
        owns h1 root (tr.relabel h.length) := by
  induction tr with
  | leaf =>
    intro fuel h root _ _
    exact ⟨h, copy_none fuel h root, by simp [btree.size], fun _ _ => rfl, trivial⟩
  | node a d l r ihl ihr =>
    intro fuel h root ho hf
    obtain ⟨k, rfl⟩ : ∃ k, fuel = k + 1 := ⟨fuel - 1, by simp [btree.height] at hf; omega⟩
    simp only [btree.height] at hf
    obtain ⟨⟨par, h0⟩, hl, hr⟩ := ho
    have hlt : a < h.length := heap.read_lt h0
    -- the new node
    have len0 : (h ++ [some (⟨root, none, none, d⟩ : tree_node T)]).length = h.length + 1 := by
      simp
    have keep0 : ∀ x, x < h.length →
        heap.read (h ++ [some (⟨root, none, none, d⟩ : tree_node T)]) x = heap.read h x :=
      fun x hx => heap.read_append_lt _ _ _ hx
    have hl0 : holds (h ++ [some (⟨root, none, none, d⟩ : tree_node T)]) l :=
      holds_congr l (fun x hx => keep0 x (holds_lt l hl x hx)) hl
    obtain ⟨h2, e2, len2, keep2, own2⟩ := ihl k _ (some h.length) hl0 (by omega)
    rw [len0] at e2 len2 own2
    have rb2 : heap.read h2 h.length = some ⟨root, none, none, d⟩ := by
      rw [keep2 _ (by omega)]; exact heap.read_append_length _ _
    have ra2 : heap.read h2 a = some ⟨par, l.ptr, r.ptr, d⟩ := by
      rw [keep2 _ (by omega), keep0 _ hlt]; exact h0
    -- after node->left = ...
    have len3 : (h2.set h.length
        (some (⟨root, (l.relabel (h.length + 1)).ptr, none, d⟩ : tree_node T))).length
        = h.length + 1 + l.size := by simp [len2]
    have ra3 : heap.read (h2.set h.length
        (some (⟨root, (l.relabel (h.length + 1)).ptr, none, d⟩ : tree_node T))) a
        = some ⟨par, l.ptr, r.ptr, d⟩ := by
      rw [heap.read_set_ne _ _ _ _ (by omega)]; exact ra2
    have hr3 : holds (h2.set h.length
        (some (⟨root, (l.relabel (h.length + 1)).ptr, none, d⟩ : tree_node T))) r := by
      refine holds_congr r (fun x hx => ?_) hr
      have hx1 : x < h.length := holds_lt r hr x hx
      rw [heap.read_set_ne _ _ _ _ (by omega), keep2 _ (by omega), keep0 _ hx1]
    obtain ⟨h4, e4, len4, keep4, own4⟩ := ihr k _ (some h.length) hr3 (by omega)
    rw [len3] at e4 len4 own4
    have rb4 : heap.read h4 h.length
        = some ⟨root, (l.relabel (h.length + 1)).ptr, none, d⟩ := by
      rw [keep4 _ (by rw [len3]; omega)]
      exact heap.read_set_eq _ _ _ (by rw [len2]; omega)
    refine ⟨h4.set h.length (some ⟨root, (l.relabel (h.length + 1)).ptr,
      (r.relabel (h.length + 1 + l.size)).ptr, d⟩), ?_, ?_, ?_, ?_⟩
    · show copy (k + 1) h (some a) root = .ok (some h.length) _
      simp only [copy, h0, heap.alloc, keep0 a hlt, Option.map_some', e2,
        heap.set_left_eq rb2, ra3, e4, heap.set_right_eq rb4]
    · simp [len4, btree.size]; omega
    · intro x hx
      rw [heap.read_set_ne _ _ _ _ (by omega), keep4 _ (by rw [len3]; omega),
        heap.read_set_ne _ _ _ _ (by omega), keep2 _ (by omega), keep0 _ hx]
    · refine ⟨heap.read_set_eq _ _ _ (by rw [len4]; omega), ?_, ?_⟩
      · refine owns_congr _ _ (fun x hx => ?_) own2
        rw [btree.mem_addrs_relabel] at hx
        rw [heap.read_set_ne _ _ _ _ (by omega), keep4 _ (by rw [len3]; omega),
          heap.read_set_ne _ _ _ _ (by omega)]
      · refine owns_congr _ _ (fun x hx => ?_) own4
        rw [btree.mem_addrs_relabel] at hx
        rw [heap.read_set_ne _ _ _ _ (by omega)]

variable {R : Nat → Prop}

theorem exec_frame (fuel : Nat) (h : heap T) (t : tree_type T) (c : call T)
    (hc : closed_region R h) (hroot : ptr_in R t.mRoot) (hit : ptr_in R c.handle.mData)
    (s : heap T × tree_type T) (hs : exec fuel h t c = some s) : confined R h s := by
  cases c with
  | write it v =>
    simp only [exec] at hs
    cases hw : iterator.write h it v with
    | fault => simp [hw, result.and_then, result.state] at hs
    | diverge => simp [hw, result.and_then, result.state] at hs
    | throw e s1 =>
      obtain ⟨hc1, keep1⟩ := write_frame h it v hc hit s1 (by rw [hw]; rfl)
      simp only [hw, result.and_then, result.state, Option.some.injEq] at hs
      subst hs
      exact ⟨hc1, hroot, keep1⟩
    | ok u s1 =>
      obtain ⟨hc1, keep1⟩ := write_frame h it v hc hit s1 (by rw [hw]; rfl)
      simp only [hw, result.and_then, result.state, Option.some.injEq] at hs
      subst hs
      exact ⟨hc1, hroot, keep1⟩
  | insert_root_left it v => exact insert_root_left_frame h t it v hc hroot hit s hs
  | insert_root_right it v => exact insert_root_right_frame h t it v hc hroot hit s hs
  | insert_left_left it v => exact insert_left_left_frame h t it v hc hroot hit s hs
  | insert_left_right it v => exact insert_left_right_frame h t it v hc hroot hit s hs
  | insert_right_left it v => exact insert_right_left_frame h t it v hc hroot hit s hs
  | insert_right_right it v => exact insert_right_right_frame h t it v hc hroot hit s hs
  | emplace_root_left it v => exact insert_root_left_frame h t it v hc hroot hit s hs
  | emplace_root_right it v => exact insert_root_right_frame h t it v hc hroot hit s hs
  | emplace_left_left it v => exact insert_left_left_frame h t it v hc hroot hit s hs
  | emplace_left_right it v => exact insert_left_right_frame h t it v hc hroot hit s hs
  | emplace_right_left it v => exact insert_right_left_frame h t it v hc hroot hit s hs
  | emplace_right_right it v => exact insert_right_right_frame h t it v hc hroot hit s hs
  | erase it => exact erase_frame fuel h t it hc hroot hit s hs
  | erase_left it => exact erase_left_frame fuel h t it hc hroot hit s hs
  | erase_right it => exact erase_right_frame fuel h t it hc hroot hit s hs
  | reserve_left it => exact reserve_left_frame fuel h t it hc hroot hit s hs
  | reserve_right it => exact reserve_right_frame fuel h t it hc hroot hit s hs
  | merge it tree => exact merge_frame fuel h t it tree hc hroot hit s hs
  | clear => exact clear_frame fuel h t hc hroot s hs

theorem run_frame (fuel : Nat) :
    ∀ (cs : List (call T)) (h : heap T) (t : tree_type T),
      closed_region R h → ptr_in R t.mRoot → (∀ c ∈ cs, ptr_in R c.handle.mData) →
      ∀ s, run fuel h t cs = some s → confined R h s := by
  intro cs
  induction cs with
  | nil =>
    intro h t hc hroot _ s hs
    simp only [run, Option.some.injEq] at hs
    subst hs
    exact ⟨hc, hroot, fun _ _ => rfl⟩
  | cons c cs ih =>
    intro h t hc hroot hcs s hs
    simp only [run] at hs
    cases he : exec fuel h t c with
    | none => simp [he] at hs
    | some s1 =>
      simp only [he, Option.some_bind] at hs
      obtain ⟨hc1, hroot1, keep1⟩ := exec_frame fuel h t c hc hroot
        (hcs c (List.mem_cons_self _ _)) s1 he
      obtain ⟨hc2, hroot2, keep2⟩ := ih s1.1 s1.2 hc1 hroot1
        (fun c1 hc1 => hcs c1 (List.mem_cons_of_mem _ hc1)) s hs
      exact ⟨hc2, hroot2, fun a ha => by rw [keep2 a ha, keep1 a ha]⟩

end tree_type

namespace tree_type

variable {T : Type}

theorem copy_independent (fuel : Nat) (h : heap T) (t : tree_type T) (tr : btree T)
    (ht : t.mRoot = tr.ptr) (hh : holds h tr) (hf : tr.height ≤ fuel) :
    ∃ h1, copy fuel h t.mRoot none = .ok (tr.relabel h.length).ptr h1 ∧
      h1.length = h.length + tr.size ∧
      (∀ a, a < h.length → heap.read h1 a = heap.read h a) ∧
      represents h1 ⟨(tr.relabel h.length).ptr⟩ (tr.relabel h.length) ∧
      holds h1 tr ∧
      (∀ (fuel2 : Nat) (calls : List (call T)) (s : heap T × tree_type T),
        (∀ c ∈ calls, ptr_in (fun a => h.length ≤ a) (call.handle c).mData) →
        run fuel2 h1 ⟨(tr.relabel h.length).ptr⟩ calls = some s → holds s.1 tr) ∧
      (links_allocated h →
        ∀ (fuel2 : Nat) (calls : List (call T)) (s : heap T × tree_type T),
        (∀ c ∈ calls,
          ptr_in (fun a => a ∉ (tr.relabel h.length).addrs) (call.handle c).mData) →
        run fuel2 h1 t calls = some s →
        represents s.1 ⟨(tr.relabel h.length).ptr⟩ (tr.relabel h.length)) := by
  obtain ⟨h1, e1, len1, keep1, own1⟩ := copy_holds tr fuel h none hh hf
  have hh1 : holds h1 tr :=
    holds_congr tr (fun a ha => keep1 a (holds_lt tr hh a ha)) hh
  refine ⟨h1, by rw [ht]; exact e1, len1, keep1,
    ⟨rfl, own1, btree.nodup_addrs_relabel tr _⟩, hh1, ?_, ?_⟩
  · intro fuel2 calls s hcalls hrun
    have hc0 : closed_region (fun a => h.length ≤ a) h :=
      ⟨fun a ha => ha, fun a n ha hr => absurd (heap.read_lt hr) (by omega)⟩
    obtain ⟨r, _, _, hc1, _⟩ := copy_frame fuel h tr.ptr none h1 hc0 ptr_in_none
      (by rw [e1]; rfl)
    have hroot : ptr_in (fun a => h.length ≤ a)
        (⟨(tr.relabel h.length).ptr⟩ : tree_type T).mRoot := by
      intro a ha
      exact ((btree.mem_addrs_relabel tr _ a).1 (btree.ptr_mem ha)).1
    obtain ⟨_, _, keep2⟩ := run_frame fuel2 calls h1 _ hc1 hroot hcalls s hrun
    refine holds_congr tr (fun a ha => keep2 a ?_) hh1
    have := holds_lt tr hh a ha
    show ¬ h.length ≤ a
    omega
  · intro hla fuel2 calls s hcalls hrun
    have hc1 : closed_region (fun a => a ∉ (tr.relabel h.length).addrs) h1 := by
      refine ⟨fun a ha => ?_, fun a n ha hr => ?_⟩
      · show a ∉ _
        rw [btree.mem_addrs_relabel]; omega
      · have hlt1 := heap.read_lt hr
        have hlt : a < h.length := by
          have ha1 : a ∉ (tr.relabel h.length).addrs := ha
          rw [btree.mem_addrs_relabel] at ha1
          omega
        rw [keep1 a hlt] at hr
        obtain ⟨l1, l2, l3⟩ := hla a n hr
        refine ⟨fun x hx => ?_, fun x hx => ?_, fun x hx => ?_⟩
        · have := l1 x hx
          show x ∉ _
          rw [btree.mem_addrs_relabel]; omega
        · have := l2 x hx
          show x ∉ _
          rw [btree.mem_addrs_relabel]; omega
        · have := l3 x hx
          show x ∉ _
          rw [btree.mem_addrs_relabel]; omega
    have hroot : ptr_in (fun a => a ∉ (tr.relabel h.length).addrs) t.mRoot := by
      intro a ha
      rw [ht] at ha
      have := holds_lt tr hh a (btree.ptr_mem ha)
      show a ∉ _
      rw [btree.mem_addrs_relabel]; omega
    obtain ⟨_, _, keep2⟩ := run_frame fuel2 calls h1 t hc1 hroot hcalls s hrun
    exact ⟨rfl, owns_congr _ _ (fun a ha => keep2 a (fun hn => hn ha)) own1,
      btree.nodup_addrs_relabel tr _⟩

theorem destroy_links_allocated {h hd : heap T} (hlen : hd.length = h.length)
    (hk : ∀ a, heap.read hd a = none ∨ heap.read hd a = heap.read h a)
    (hla : links_allocated h) : links_allocated hd := by
  intro a n hr
  rw [hlen]
  rcases hk a with hn | he
  · rw [hn] at hr; cases hr
  · rw [he] at hr; exact hla a n hr

end tree_type

namespace tree_type

variable {T : Type}

/-- C12 (erase): let the tree `t` be well formed in the store, let `n` be the node at `p` with
subtree `node p d l r`, `ctx` the way from `n` up to the root, and let the fuel cover the
height of the subtree. Then `erase` on a handle of `n` returns; if `n` is the root (`ctx`
empty) the tree becomes empty (`empty()` holds, `root()` is unusable) and the returned
handle is unusable; otherwise the tree object is unchanged, the returned handle denotes the
former parent of `n` and the child slot of the parent that held `n` is null. In both cases
the tree is the old one without the subtree of `n`, every node of that subtree is deleted,
and every other cell of the store, the parent apart, is as before. -/
theorem erase_removes_subtree (fuel : Nat) (h : heap T) (t : tree_type T) (ctx : path T)
    (p : Nat) (d : T) (l r : btree T)
    (hrep : represents h t (ctx.plug (.node p d l r)))
    (hf : (btree.node p d l r).height ≤ fuel) :
    ∃ h1 t1, erase fuel h t ⟨some p⟩ = .ok ⟨ctx.parent none⟩ (h1, t1) ∧
      represents h1 t1 (ctx.plug .leaf) ∧
      (ctx = [] → t1.empty = true ∧ t1.root.usable = false ∧
        iterator.usable ⟨ctx.parent none⟩ = false) ∧
      (∀ f rest, ctx = f :: rest → t1 = t ∧ ctx.parent none = some f.addr ∧
        heap.read h f.addr = some (f.cell (path.parent rest none) (some p)) ∧
        heap.read h1 f.addr = some (f.cell (path.parent rest none) none)) ∧
      (∀ a ∈ (btree.node p d l r).addrs, heap.read h1 a = none) ∧
      (∀ a, a ∉ (btree.node p d l r).addrs → some a ≠ ctx.parent none →
        heap.read h1 a = heap.read h a) ∧
      h1.length = h.length := by
  obtain ⟨h1, t1, e, ht1, hrep1, len1, dead1, hcell1, keep1⟩ :=
    erase_ok fuel h t ctx p d l r hrep hf
  refine ⟨h1, t1, e, hrep1, ?_, ?_, dead1, keep1, len1⟩
  · intro hc
    subst hc
    subst ht1
    simp [tree_type.empty, tree_type.root, iterator.usable, path.parent]
  · intro f rest hc
    subst hc
    refine ⟨by simpa using ht1, rfl, ?_, hcell1 f rest rfl⟩
    exact (represents_plug hrep).2.2.1.1

/-- Witness of C12: in the tree with root 0 and children 1 and 2, where 1 has the left
child 3, `erase` at node 1 removes the nodes 1 and 3. -/
theorem erase_removes_subtree_witness :
    ∃ h1 t1,
      erase 2 ([some ⟨none, some 1, some 2, 10⟩, some ⟨some 0, some 3, none, 11⟩,
          some ⟨some 0, none, none, 12⟩, some ⟨some 1, none, none, 13⟩] : heap Nat)
        ⟨some 0⟩ ⟨some 1⟩ = .ok ⟨some 0⟩ (h1, t1) ∧
      represents h1 t1 (.node 0 10 .leaf (.node 2 12 .leaf .leaf)) ∧
      heap.read h1 1 = none ∧ heap.read h1 3 = none := by
  obtain ⟨h1, t1, e, hrep, _, _, dead, _, _⟩ := erase_removes_subtree 2
    ([some ⟨none, some 1, some 2, 10⟩, some ⟨some 0, some 3, none, 11⟩,
      some ⟨some 0, none, none, 12⟩, some ⟨some 1, none, none, 13⟩] : heap Nat)
    ⟨some 0⟩ [frame.left 0 10 (.node 2 12 .leaf .leaf)] 1 11 (.node 3 13 .leaf .leaf) .leaf
    ⟨rfl, by simp [path.plug, frame.fill, owns, heap.read, btree.ptr], by decide⟩
    (by decide)
  exact ⟨h1, t1, e, hrep, dead 1 (by decide), dead 3 (by decide)⟩

/-- C13 (erase_left, erase_right): let the tree `t` be well formed in the store, let `n` be
the node at `p` with subtree `node p d l r`, `ctx` the way from `n` up to the root, and let
the fuel cover the height of the erased subtree. Then `erase_left` (`erase_right`) on a
handle of `n` returns a handle of `n` and leaves the tree object, and so the root, as it
is; the tree is the old one with the left (right) subtree of `n` removed, so `n` keeps its
payload, its parent link and its other child; every node of the erased subtree is deleted
and every cell outside it, `n` apart, is as before; and when the named child is absent the
store is unchanged. -/
theorem erase_child_removes_child_subtree (fuel : Nat) (h : heap T) (t : tree_type T)
    (ctx : path T) (p : Nat) (d : T) (l r : btree T)
    (hrep : represents h t (ctx.plug (.node p d l r))) :
    (l.height ≤ fuel →
      ∃ h1, erase_left fuel h t ⟨some p⟩ = .ok ⟨some p⟩ (h1, t) ∧
        represents h1 t (ctx.plug (.node p d .leaf r)) ∧
        h1.length = h.length ∧
        (∀ a ∈ l.addrs, heap.read h1 a = none) ∧
        heap.read h p = some ⟨ctx.parent none, l.ptr, r.ptr, d⟩ ∧
        heap.read h1 p = some ⟨ctx.parent none, none, r.ptr, d⟩ ∧
        (∀ a, a ∉ l.addrs → a ≠ p → heap.read h1 a = heap.read h a) ∧
        (l = .leaf → h1 = h)) ∧
    (r.height ≤ fuel →
      ∃ h1, erase_right fuel h t ⟨some p⟩ = .ok ⟨some p⟩ (h1, t) ∧
        represents h1 t (ctx.plug (.node p d l .leaf)) ∧
        h1.length = h.length ∧
        (∀ a ∈ r.addrs, heap.read h1 a = none) ∧
        heap.read h p = some ⟨ctx.parent none, l.ptr, r.ptr, d⟩ ∧
        heap.read h1 p = some ⟨ctx.parent none, l.ptr, none, d⟩ ∧
        (∀ a, a ∉ r.addrs → a ≠ p → heap.read h1 a = heap.read h a) ∧
        (r = .leaf → h1 = h)) := by
  have hrp : heap.read h p = some ⟨ctx.parent none, l.ptr, r.ptr, d⟩ :=
    (represents_plug hrep).2.1.1
  constructor
  · intro hf
    obtain ⟨h1, e, hrep1, len1, dead1, r1p, keep1, hleaf⟩ :=
      erase_left_ok fuel h t ctx p d l r hrep hf
    exact ⟨h1, e, hrep1, len1, dead1, hrp, r1p, keep1, hleaf⟩
  · intro hf
    obtain ⟨h1, e, hrep1, len1, dead1, r1p, keep1, hleaf⟩ :=
      erase_right_ok fuel h t ctx p d l r hrep hf
    exact ⟨h1, e, hrep1, len1, dead1, hrp, r1p, keep1, hleaf⟩

/-- Witness of C13: in the tree with root 0 and children 1 and 2, where 1 has the left
child 3, `erase_left` at node 1 removes node 3 only, and `erase_right` at node 1, which
has no right child, changes nothing. -/
theorem erase_child_removes_child_subtree_witness :
    (∃ h1,
      erase_left 1 ([some ⟨none, some 1, some 2, 10⟩, some ⟨some 0, some 3, none, 11⟩,
          some ⟨some 0, none, none, 12⟩, some ⟨some 1, none, none, 13⟩] : heap Nat)
        ⟨some 0⟩ ⟨some 1⟩ = .ok ⟨some 1⟩ (h1, ⟨some 0⟩) ∧
      represents h1 ⟨some 0⟩ (.node 0 10 (.node 1 11 .leaf .leaf) (.node 2 12 .leaf .leaf)) ∧
      heap.read h1 3 = none) ∧
    erase_right 0 ([some ⟨none, some 1, some 2, 10⟩, some ⟨some 0, some 3, none, 11⟩,
          some ⟨some 0, none, none, 12⟩, some ⟨some 1, none, none, 13⟩] : heap Nat)
        ⟨some 0⟩ ⟨some 1⟩ = .ok ⟨some 1⟩
      ([some ⟨none, some 1, some 2, 10⟩, some ⟨some 0, some 3, none, 11⟩,
          some ⟨some 0, none, none, 12⟩, some ⟨some 1, none, none, 13⟩], ⟨some 0⟩) := by
  have hrep : represents
      ([some ⟨none, some 1, some 2, 10⟩, some ⟨some 0, some 3, none, 11⟩,
        some ⟨some 0, none, none, 12⟩, some ⟨some 1, none, none, 13⟩] : heap Nat) ⟨some 0⟩
      (path.plug [frame.left 0 10 (.node 2 12 .leaf .leaf)]
        (.node 1 11 (.node 3 13 .leaf .leaf) .leaf)) :=
    ⟨rfl, by simp [path.plug, frame.fill, owns, heap.read, btree.ptr], by decide⟩
  constructor
  · obtain ⟨h1, e, hrep1, _, dead, _⟩ :=
      (erase_child_removes_child_subtree 1 _ _ _ 1 11 _ _ hrep).1 (by decide)
    exact ⟨h1, e, hrep1, dead 3 (by decide)⟩
  · obtain ⟨h1, e, _, _, _, _, _, _, hleaf⟩ :=
      (erase_child_removes_child_subtree 0 _ _ _ 1 11 _ _ hrep).2 (by decide)
    rw [hleaf rfl] at e
    exact e

/-- C14 (reserve consistency): let the tree `t` be well formed in the store, let `n` be the
node at `p` whose left child is the node at `c` with subtree `node c dc cl cr`, `o` the
right subtree of `n`, `ctx` the way from `n` up to the root, and let the fuel cover `n` and
`o`. Then `reserve_left` on a handle of `n` returns a handle of `c`; the tree is the old
one with the subtree of `c` in the place of `n`: `c` is the root if `n` was, else `c` is in
the child slot of the former parent of `n` that held `n`; the parent link of `c` is the
former parent link of `n`, its payload and children are unchanged and so are the cells
below it; `n` is deleted and is not reached from the root any more. The same holds for
`reserve_right` and the right child. -/
theorem reserve_keeps_child_in_place (fuel : Nat) (h : heap T) (t : tree_type T)
    (ctx : path T) (p : Nat) (d : T) (c : Nat) (dc : T) (cl cr o : btree T)
    (hf : 1 + o.height ≤ fuel) :
    (represents h t (ctx.plug (.node p d (.node c dc cl cr) o)) →
      ∃ h4 t1, reserve_left fuel h t ⟨some p⟩ = .ok ⟨some c⟩ (h4, t1) ∧
        represents h4 t1 (ctx.plug (.node c dc cl cr)) ∧
        (ctx = [] → t1.mRoot = some c) ∧
        (∀ f rest, ctx = f :: rest → t1 = t ∧
          heap.read h f.addr = some (f.cell (path.parent rest none) (some p)) ∧
          heap.read h4 f.addr = some (f.cell (path.parent rest none) (some c))) ∧
        heap.read h c = some ⟨some p, cl.ptr, cr.ptr, dc⟩ ∧
        heap.read h4 c = some ⟨ctx.parent none, cl.ptr, cr.ptr, dc⟩ ∧
        heap.read h p = some ⟨ctx.parent none, some c, o.ptr, d⟩ ∧
        (∀ a, a ∈ cl.addrs ∨ a ∈ cr.addrs → heap.read h4 a = heap.read h a) ∧
        heap.read h4 p = none ∧
        (∀ k, p ∉ nodes k h4 t1.mRoot)) ∧
    (represents h t (ctx.plug (.node p d o (.node c dc cl cr))) →
      ∃ h4 t1, reserve_right fuel h t ⟨some p⟩ = .ok ⟨some c⟩ (h4, t1) ∧
        represents h4 t1 (ctx.plug (.node c dc cl cr)) ∧
        (ctx = [] → t1.mRoot = some c) ∧
        (∀ f rest, ctx = f :: rest → t1 = t ∧
          heap.read h f.addr = some (f.cell (path.parent rest none) (some p)) ∧
          heap.read h4 f.addr = some (f.cell (path.parent rest none) (some c))) ∧
        heap.read h c = some ⟨some p, cl.ptr, cr.ptr, dc⟩ ∧
        heap.read h4 c = some ⟨ctx.parent none, cl.ptr, cr.ptr, dc⟩ ∧
        heap.read h p = some ⟨ctx.parent none, o.ptr, some c, d⟩ ∧
        (∀ a, a ∈ cl.addrs ∨ a ∈ cr.addrs → heap.read h4 a = heap.read h a) ∧
        heap.read h4 p = none ∧
        (∀ k, p ∉ nodes k h4 t1.mRoot)) := by
  constructor
  · intro hrep
    obtain ⟨h4, t1, e, ht1, hrep1, len4, deadp, deado, r4c, hcell, keep⟩ :=
      reserve_left_ok fuel h t ctx p d c dc cl cr o hrep hf
    obtain ⟨hroot, hsub, hpath, hnds, hndc, hdisj⟩ := represents_plug hrep
    have hpnew : p ∉ (ctx.plug (.node c dc cl cr)).addrs := by
      rw [path.mem_plug_addrs]
      simp only [btree.addrs, List.nodup_cons, List.mem_append, List.mem_cons, not_or] at hnds
      rintro (hc | hc)
      · simp only [btree.addrs, List.mem_cons, List.mem_append] at hc
        tauto
      · exact hdisj p (by simp [btree.addrs]) hc
    refine ⟨h4, t1, e, hrep1, ?_, ?_, hsub.2.1.1, r4c, hsub.1, ?_, deadp, ?_⟩
    · intro hc; subst hc; subst ht1; rfl
    · intro f rest hc
      subst hc
      exact ⟨by simpa using ht1, hpath.1, hcell f rest rfl⟩
    · intro a ha
      have hin : a ∈ (btree.node c dc cl cr).addrs := by
        simp only [btree.addrs, List.mem_cons, List.mem_append]; tauto
      have hsubin : a ∈ (btree.node p d (.node c dc cl cr) o).addrs := by
        simp only [btree.addrs, List.mem_cons, List.mem_append] at hin ⊢; tauto
      simp only [btree.addrs, List.nodup_cons, List.mem_append, List.mem_cons, not_or] at hnds
      rw [List.nodup_append] at hnds
      have hdj := hnds.2.2.2
      refine keep a ?_ ?_ ?_ ?_
      · rintro rfl; tauto
      · intro hc
        exact hdj hin hc
      · rintro rfl
        have := hnds.2.1
        simp only [List.nodup_cons, List.mem_append, not_or] at this
        tauto
      · intro hc
        cases ctx with
        | nil => simp [path.parent] at hc
        | cons f rest =>
          simp only [path.parent, Option.some.injEq] at hc
          exact hdisj a hsubin (hc ▸ by simp [path.addrs, frame.addrs])
    · intro k hk
      have := nodes_subset _ k h4 none hrep1.2.1 p (by rw [← hrep1.1]; exact hk)
      exact hpnew this
  · intro hrep
    obtain ⟨h4, t1, e, ht1, hrep1, len4, deadp, deado, r4c, hcell, keep⟩ :=
      reserve_right_ok fuel h t ctx p d c dc cl cr o hrep hf
    obtain ⟨hroot, hsub, hpath, hnds, hndc, hdisj⟩ := represents_plug hrep
    have hpnew : p ∉ (ctx.plug (.node c dc cl cr)).addrs := by
      rw [path.mem_plug_addrs]
      simp only [btree.addrs, List.nodup_cons, List.mem_append, List.mem_cons, not_or] at hnds
      rintro (hc | hc)
      · simp only [btree.addrs, List.mem_cons, List.mem_append] at hc
        tauto
      · exact hdisj p (by simp [btree.addrs]) hc
    refine ⟨h4, t1, e, hrep1, ?_, ?_, hsub.2.2.1, r4c, hsub.1, ?_, deadp, ?_⟩
    · intro hc; subst hc; subst ht1; rfl
    · intro f rest hc
      subst hc
      exact ⟨by simpa using ht1, hpath.1, hcell f rest rfl⟩
    · intro a ha
      have hin : a ∈ (btree.node c dc cl cr).addrs := by
        simp only [btree.addrs, List.mem_cons, List.mem_append]; tauto
      have hsubin : a ∈ (btree.node p d o (.node c dc cl cr)).addrs := by
        simp only [btree.addrs, List.mem_cons, List.mem_append] at hin ⊢; tauto
      simp only [btree.addrs, List.nodup_cons, List.mem_append, List.mem_cons, not_or] at hnds
      rw [List.nodup_append] at hnds
      have hdj := hnds.2.2.2
      refine keep a ?_ ?_ ?_ ?_
      · rintro rfl; tauto
      · intro hc
        exact hdj hc hin
      · rintro rfl
        have := hnds.2.2.1
        simp only [List.nodup_cons, List.mem_append, not_or] at this
        tauto
      · intro hc
        cases ctx with
        | nil => simp [path.parent] at hc
        | cons f rest =>
          simp only [path.parent, Option.some.injEq] at hc
          exact hdisj a hsubin (hc ▸ by simp [path.addrs, frame.addrs])
    · intro k hk
      have := nodes_subset _ k h4 none hrep1.2.1 p (by rw [← hrep1.1]; exact hk)
      exact hpnew this

/-- Witness of C14: in the tree with root 0 and children 1 and 2, where 1 has the left
child 3, `reserve_left` at node 1 puts node 3 in the left slot of the root. -/
theorem reserve_keeps_child_in_place_witness :
    ∃ h4 t1,
      reserve_left 1 ([some ⟨none, some 1, some 2, 10⟩, some ⟨some 0, some 3, none, 11⟩,
        some ⟨some 0, none, none, 12⟩, some ⟨some 1, none, none, 13⟩] : heap Nat)
        ⟨some 0⟩ ⟨some 1⟩ = .ok ⟨some 3⟩ (h4, t1) ∧
      represents h4 t1 (.node 0 10 (.node 3 13 .leaf .leaf) (.node 2 12 .leaf .leaf)) ∧
      heap.read h4 1 = none := by
  obtain ⟨h4, t1, e, hrep1, _, _, _, _, _, _, dead, _⟩ :=
    (reserve_keeps_child_in_place 1 ([some ⟨none, some 1, some 2, 10⟩, some ⟨some 0, some 3, none, 11⟩,
        some ⟨some 0, none, none, 12⟩, some ⟨some 1, none, none, 13⟩] : heap Nat)
      ⟨some 0⟩ [frame.left 0 10 (.node 2 12 .leaf .leaf)] 1 11 3 13 .leaf .leaf .leaf
      (by decide)).1
      ⟨rfl, by simp [path.plug, frame.fill, owns, heap.read, btree.ptr], by decide⟩
  exact ⟨h4, t1, e, hrep1, dead⟩

/-- Counterexample to C15: in the tree with root 0 and children 1 and 2, `reserve_left` at
the root deletes the root and also node 2, its right child: afterwards the tree consists
of node 1 alone, although node 2 was a descendant of the root. -/
theorem reserve_left_deletes_other_subtree :
    reserve_left 2 ([some ⟨none, some 1, some 2, 10⟩, some ⟨some 0, none, none, 11⟩,
        some ⟨some 0, none, none, 12⟩] : heap Nat) ⟨some 0⟩ ⟨some 0⟩
      = .ok ⟨some 1⟩ ([none, some ⟨none, none, none, 11⟩, none], ⟨some 1⟩) ∧
    nodes 3 ([some ⟨none, some 1, some 2, 10⟩, some ⟨some 0, none, none, 11⟩,
        some ⟨some 0, none, none, 12⟩] : heap Nat) (some 0) = [0, 1, 2] ∧
    nodes 3 ([none, some ⟨none, none, none, 11⟩, none] : heap Nat) (some 1) = [1] ∧
    heap.read ([none, some ⟨none, none, none, 11⟩, none] : heap Nat) 2 = none ∧
    ¬ (∀ a, a ∈ nodes 3 ([none, some ⟨none, none, none, 11⟩, none] : heap Nat) (some 1) ↔
        a ∈ nodes 3 ([some ⟨none, some 1, some 2, 10⟩, some ⟨some 0, none, none, 11⟩,
          some ⟨some 0, none, none, 12⟩] : heap Nat) (some 0) ∧ a ≠ 0) := by
  refine ⟨by decide, by decide, by decide, by decide, ?_⟩
  intro hall
  have h2 := (hall 2).2 (by decide)
  revert h2
  decide

theorem reserve_nodes_aux (ctx : path T) (p : Nat) (sub new o : btree T)
    (hnd : (ctx.plug sub).addrs.Nodup)
    (hsub : ∀ a, a ∈ sub.addrs ↔ a = p ∨ a ∈ new.addrs ∨ a ∈ o.addrs)
    (hp : p ∉ new.addrs) (hno : ∀ a, a ∈ new.addrs → a ∉ o.addrs) (a : Nat) :
    a ∈ (ctx.plug new).addrs ↔ a ∈ (ctx.plug sub).addrs ∧ a ≠ p ∧ a ∉ o.addrs := by
  rw [path.nodup_plug_addrs, List.nodup_append] at hnd
  have hdisj : ∀ x, x ∈ sub.addrs → x ∉ ctx.addrs := fun x hx hc => hnd.2.2 hx hc
  rw [path.mem_plug_addrs, path.mem_plug_addrs, hsub]
  have h1 := hsub a
  have h2 := hsub p
  have h3 := hdisj a
  have h4 := hdisj p
  have h5 := hno a
  constructor
  · rintro (ha | ha)
    · refine ⟨Or.inl (Or.inr (Or.inl ha)), ?_, h5 ha⟩
      rintro rfl
      exact hp ha
    · refine ⟨Or.inr ha, ?_, ?_⟩
      · rintro rfl
        exact h4 (h2.2 (Or.inl rfl)) ha
      · intro hc
        exact h3 (h1.2 (Or.inr (Or.inr hc))) ha
  · rintro ⟨(ha | ha | ha) | ha, hap, hao⟩
    · exact absurd ha hap
    · exact Or.inl ha
    · exact absurd ha hao
    · exact Or.inr ha

/-- C15, as the code has it: under the conditions of C14, `reserve_left` (`reserve_right`)
deletes the node `n` and every node of its other subtree `o`; the nodes of the tree after
the call are those before the call except `n` and the nodes of `o`; every node of the
subtree of the named child is still a live node of the tree; and when the other child is
absent the nodes after the call are those before the call except `n` alone. -/
theorem reserve_deletes_node_and_other_subtree (fuel : Nat) (h : heap T) (t : tree_type T)
    (ctx : path T) (p : Nat) (d : T) (c : Nat) (dc : T) (cl cr o : btree T)
    (hf : 1 + o.height ≤ fuel) :
    (represents h t (ctx.plug (.node p d (.node c dc cl cr) o)) →
      ∃ h4 t1, reserve_left fuel h t ⟨some p⟩ = .ok ⟨some c⟩ (h4, t1) ∧
        represents h4 t1 (ctx.plug (.node c dc cl cr)) ∧
        heap.read h4 p = none ∧
        (∀ a ∈ o.addrs, heap.read h4 a = none) ∧
        (∀ a, a ∈ (ctx.plug (.node c dc cl cr)).addrs ↔
          a ∈ (ctx.plug (.node p d (.node c dc cl cr) o)).addrs ∧ a ≠ p ∧ a ∉ o.addrs) ∧
        (∀ a ∈ (btree.node c dc cl cr).addrs,
          a ∈ (ctx.plug (.node c dc cl cr)).addrs ∧ ∃ n, heap.read h4 a = some n) ∧
        (o = .leaf → ∀ a, a ∈ (ctx.plug (.node c dc cl cr)).addrs ↔
          a ∈ (ctx.plug (.node p d (.node c dc cl cr) o)).addrs ∧ a ≠ p)) ∧
    (represents h t (ctx.plug (.node p d o (.node c dc cl cr))) →
      ∃ h4 t1, reserve_right fuel h t ⟨some p⟩ = .ok ⟨some c⟩ (h4, t1) ∧
        represents h4 t1 (ctx.plug (.node c dc cl cr)) ∧
        heap.read h4 p = none ∧
        (∀ a ∈ o.addrs, heap.read h4 a = none) ∧
        (∀ a, a ∈ (ctx.plug (.node c dc cl cr)).addrs ↔
          a ∈ (ctx.plug (.node p d o (.node c dc cl cr))).addrs ∧ a ≠ p ∧ a ∉ o.addrs) ∧
        (∀ a ∈ (btree.node c dc cl cr).addrs,
          a ∈ (ctx.plug (.node c dc cl cr)).addrs ∧ ∃ n, heap.read h4 a = some n) ∧
        (o = .leaf → ∀ a, a ∈ (ctx.plug (.node c dc cl cr)).addrs ↔
          a ∈ (ctx.plug (.node p d o (.node c dc cl cr))).addrs ∧ a ≠ p)) := by
  constructor
  · intro hrep
    obtain ⟨h4, t1, e, ht1, hrep1, len4, deadp, deado, r4c, hcell, keep⟩ :=
      reserve_left_ok fuel h t ctx p d c dc cl cr o hrep hf
    have hnds := (represents_plug hrep).2.2.2.1
    simp only [btree.addrs, List.nodup_cons, List.mem_append, List.mem_cons, not_or] at hnds
    rw [List.nodup_append] at hnds
    have hmem := reserve_nodes_aux ctx p (.node p d (.node c dc cl cr) o) (.node c dc cl cr) o
      hrep.2.2 (fun a => by simp only [btree.addrs, List.mem_cons, List.mem_append])
      (by simp only [btree.addrs, List.mem_cons, List.mem_append]; tauto)
      (fun a ha hc => hnds.2.2.2 ha hc)
    refine ⟨h4, t1, e, hrep1, deadp, deado, hmem, ?_, ?_⟩
    · intro a ha
      have hin : a ∈ (ctx.plug (.node c dc cl cr)).addrs :=
        (path.mem_plug_addrs _ _ _).2 (Or.inl ha)
      exact ⟨hin, owns_read _ _ hrep1.2.1 a hin⟩
    · intro ho a
      subst ho
      rw [hmem a]
      simp [btree.addrs]
  · intro hrep
    obtain ⟨h4, t1, e, ht1, hrep1, len4, deadp, deado, r4c, hcell, keep⟩ :=
      reserve_right_ok fuel h t ctx p d c dc cl cr o hrep hf
    have hnds := (represents_plug hrep).2.2.2.1
    simp only [btree.addrs, List.nodup_cons, List.mem_append, List.mem_cons, not_or] at hnds
    rw [List.nodup_append] at hnds
    have hmem := reserve_nodes_aux ctx p (.node p d o (.node c dc cl cr)) (.node c dc cl cr) o
      hrep.2.2 (fun a => by simp only [btree.addrs, List.mem_cons, List.mem_append]; tauto)
      (by simp only [btree.addrs, List.mem_cons, List.mem_append]; tauto)
      (fun a ha hc => hnds.2.2.2 hc ha)
    refine ⟨h4, t1, e, hrep1, deadp, deado, hmem, ?_, ?_⟩
    · intro a ha
      have hin : a ∈ (ctx.plug (.node c dc cl cr)).addrs :=
        (path.mem_plug_addrs _ _ _).2 (Or.inl ha)
      exact ⟨hin, owns_read _ _ hrep1.2.1 a hin⟩
    · intro ho a
      subst ho
      rw [hmem a]
      simp [btree.addrs]

/-- Witness of C15 as amended: in the tree with root 0 and children 1 and 2,
`reserve_left` at the root deletes the root and node 2 and keeps node 1. -/
theorem reserve_deletes_node_and_other_subtree_witness :
    ∃ h4 t1,
      reserve_left 2 ([some ⟨none, some 1, some 2, 10⟩, some ⟨some 0, none, none, 11⟩,
        some ⟨some 0, none, none, 12⟩] : heap Nat) ⟨some 0⟩ ⟨some 0⟩ = .ok ⟨some 1⟩ (h4, t1) ∧
      represents h4 t1 (.node 1 11 .leaf .leaf) ∧
      heap.read h4 0 = none ∧ heap.read h4 2 = none := by
  obtain ⟨h4, t1, e, hrep1, deadp, deado, _⟩ :=
    (reserve_deletes_node_and_other_subtree 2
      ([some ⟨none, some 1, some 2, 10⟩, some ⟨some 0, none, none, 11⟩,
        some ⟨some 0, none, none, 12⟩] : heap Nat) ⟨some 0⟩ [] 0 10 1 11 .leaf .leaf
      (.node 2 12 .leaf .leaf) (by decide)).1
      ⟨rfl, by simp [path.plug, owns, heap.read, btree.ptr], by decide⟩
  exact ⟨h4, t1, e, hrep1, deadp, deado 2 (by decide)⟩

/-- C16 (merge): let the tree `t` be well formed in the store, `n` the node at `p` with
subtree `node p d l r`, `ctx` the way from `n` up to the root, let the donor `D` be a well
formed tree `dtr` that shares no node with `t`, and let the fuel cover the heights of the
subtree of `n` and of the donor. Then `merge` on a handle of `n` returns a handle of the
root of a copy of the donor; the copy has the shape and the payloads of the donor and
consists of new nodes; the tree is the old one with the copy in the place of `n` (the copy
is the root if `n` was, else it is in the child slot of the former parent of `n` that held
`n`, with that parent as parent link of its root); the donor is unchanged; every node of
the former subtree of `n` is deleted; every other old cell, the parent apart, is as
before. -/
theorem merge_grafts_copy (fuel : Nat) (h : heap T) (t : tree_type T) (ctx : path T)
    (p : Nat) (d : T) (l r : btree T) (D : tree_type T) (dtr : btree T)
    (hrep : represents h t (ctx.plug (.node p d l r)))
    (hD : represents h D dtr)
    (hdis : ∀ a, a ∈ dtr.addrs → a ∉ (ctx.plug (.node p d l r)).addrs)
    (hf : (btree.node p d l r).height ≤ fuel) (hfD : dtr.height ≤ fuel) :
    ∃ h3 t1 cp, merge fuel h t ⟨some p⟩ D = .ok ⟨cp.ptr⟩ (h3, t1) ∧
      cp.shape = dtr.shape ∧ cp.payloads = dtr.payloads ∧
      (∀ a ∈ cp.addrs, h.length ≤ a) ∧
      represents h3 t1 (ctx.plug cp) ∧
      owns h3 (ctx.parent none) cp ∧
      (ctx = [] → t1.mRoot = cp.ptr) ∧
      (∀ f rest, ctx = f :: rest → t1 = t ∧
        heap.read h f.addr = some (f.cell (path.parent rest none) (some p)) ∧
        heap.read h3 f.addr = some (f.cell (path.parent rest none) cp.ptr)) ∧
      represents h3 D dtr ∧
      (∀ a ∈ dtr.addrs, heap.read h3 a = heap.read h a) ∧
      (∀ a ∈ (btree.node p d l r).addrs, heap.read h3 a = none) ∧
      (∀ a, a < h.length → a ∉ (btree.node p d l r).addrs → some a ≠ ctx.parent none →
        heap.read h3 a = heap.read h a) := by
  obtain ⟨h3, t1, e, ht1, hrep1, hD1, len3, dead3, hcell, keep⟩ :=
    merge_ok fuel h t ctx p d l r D dtr hrep hD hdis hf hfD
  obtain ⟨hroot, hsub, hpath, hnds, hndc, hdisj⟩ := represents_plug hrep
  refine ⟨h3, t1, dtr.relabel h.length, e, btree.shape_relabel _ _, ?_, ?_, hrep1,
    (represents_plug hrep1).2.1, ?_, ?_, hD1, ?_, dead3, keep⟩
  · rw [← btree.payloads_shape, btree.shape_relabel, btree.payloads_shape]
  · intro a ha
    rw [btree.mem_addrs_relabel] at ha
    exact ha.1
  · intro hc; subst hc; subst ht1; rfl
  · intro f rest hc
    subst hc
    exact ⟨by simpa using ht1, hpath.1, hcell f rest rfl⟩
  · intro a ha
    refine keep a (owns_lt hD.2.1 ha) ?_ ?_
    · intro hc
      exact hdis a ha ((path.mem_plug_addrs _ _ _).2 (Or.inl hc))
    · intro hc
      cases ctx with
      | nil => simp [path.parent] at hc
      | cons f rest =>
        simp only [path.parent, Option.some.injEq] at hc
        exact hdis a ha ((path.mem_plug_addrs _ _ _).2
          (Or.inr (hc ▸ by simp [path.addrs, frame.addrs])))

/-- Witness of C16, the end-to-end scenario: the chain root, root.left, root.left.left is
built with `insert_root_left` on the empty tree and two calls of `insert_left_left`; the
donor is a tree of one node; `merge` at root.left leaves the donor unchanged, puts a node
with the payload of the donor at root.left, and this node has no left child. -/
theorem merge_grafts_copy_witness :
    insert_root_left ([] : heap Nat) new ⟨none⟩ 10
      = .ok ⟨some 0⟩ ([some ⟨none, none, none, 10⟩], ⟨some 0⟩) ∧
    insert_left_left ([some ⟨none, none, none, 10⟩] : heap Nat) ⟨some 0⟩ ⟨some 0⟩ 11
      = .ok ⟨some 1⟩ ([some ⟨none, some 1, none, 10⟩, some ⟨some 0, none, none, 11⟩],
          ⟨some 0⟩) ∧
    insert_left_left ([some ⟨none, some 1, none, 10⟩, some ⟨some 0, none, none, 11⟩] : heap Nat)
        ⟨some 0⟩ ⟨some 1⟩ 12
      = .ok ⟨some 2⟩ ([some ⟨none, some 1, none, 10⟩, some ⟨some 0, some 2, none, 11⟩,
          some ⟨some 1, none, none, 12⟩], ⟨some 0⟩) ∧
    insert_root_left ([some ⟨none, some 1, none, 10⟩, some ⟨some 0, some 2, none, 11⟩,
          some ⟨some 1, none, none, 12⟩] : heap Nat) new ⟨none⟩ 20
      = .ok ⟨some 3⟩ ([some ⟨none, some 1, none, 10⟩, some ⟨some 0, some 2, none, 11⟩,
          some ⟨some 1, none, none, 12⟩, some ⟨none, none, none, 20⟩], ⟨some 3⟩) ∧
    merge 2 ([some ⟨none, some 1, none, 10⟩, some ⟨some 0, some 2, none, 11⟩,
          some ⟨some 1, none, none, 12⟩, some ⟨none, none, none, 20⟩] : heap Nat)
        ⟨some 0⟩ ⟨some 1⟩ ⟨some 3⟩
      = .ok ⟨some 4⟩ ([some ⟨none, some 4, none, 10⟩, none, none,
          some ⟨none, none, none, 20⟩, some ⟨some 0, none, none, 20⟩], ⟨some 0⟩) ∧
    ∃ h3 t1 cp,
      merge 2 ([some ⟨none, some 1, none, 10⟩, some ⟨some 0, some 2, none, 11⟩,
          some ⟨some 1, none, none, 12⟩, some ⟨none, none, none, 20⟩] : heap Nat)
        ⟨some 0⟩ ⟨some 1⟩ ⟨some 3⟩ = .ok ⟨cp.ptr⟩ (h3, t1) ∧
      cp.shape = (btree.node 3 20 .leaf .leaf).shape ∧
      represents h3 t1 (path.plug [frame.left 0 10 .leaf] cp) ∧
      represents h3 ⟨some 3⟩ (.node 3 20 .leaf .leaf) := by
  refine ⟨by decide, by decide, by decide, by decide, by decide, ?_⟩
  obtain ⟨h3, t1, cp, e, hshape, _, _, hrep1, _, _, _, hD1, _⟩ :=
    merge_grafts_copy 2
      ([some ⟨none, some 1, none, 10⟩, some ⟨some 0, some 2, none, 11⟩,
        some ⟨some 1, none, none, 12⟩, some ⟨none, none, none, 20⟩] : heap Nat)
      ⟨some 0⟩ [frame.left 0 10 .leaf] 1 11 (.node 2 12 .leaf .leaf) .leaf ⟨some 3⟩
      (.node 3 20 .leaf .leaf)
      ⟨rfl, by simp [path.plug, frame.fill, owns, heap.read, btree.ptr], by decide⟩
      ⟨rfl, by simp [owns, heap.read, btree.ptr], by decide⟩
      (by decide) (by decide) (by decide)
  exact ⟨h3, t1, cp, e, hshape, hrep1, hD1⟩

/-- C20 (child-relative insertion): let the tree `t` be well formed in the store, `n` the
node at `p` with subtree `node p d l r` and `ctx` the way from `n` up to the root. Each of
`insert_left_left`, `insert_left_right`, `insert_right_left` and `insert_right_right` on a
handle of `n` returns a handle of a new node `x`, at the address `h.length`, with the
payload `v`; `x` is the left (for `insert_left_*`) or right (for `insert_right_*`) child of
`n` and has `n` as parent link; the former subtree in that slot of `n` is the left (for
`*_left`) or right (for `*_right`) child of `x`, its root has `x` as parent link and is
otherwise unchanged, and the other child of `x` is absent; the payload and the other
child of `n` and all other cells are unchanged; the tree has one node more; and the
`emplace_*` operation with the same argument gives the same result. -/
theorem insert_child_relative (h : heap T) (t : tree_type T) (ctx : path T)
    (p : Nat) (d : T) (l r : btree T) (v : T)
    (hrep : represents h t (ctx.plug (.node p d l r))) :
    (∃ h3, insert_left_left h t ⟨some p⟩ v = .ok ⟨some h.length⟩ (h3, t) ∧
      emplace_left_left h t ⟨some p⟩ v = insert_left_left h t ⟨some p⟩ v ∧
      represents h3 t (ctx.plug (.node p d (.node h.length v l .leaf) r)) ∧
      (ctx.plug (.node p d (.node h.length v l .leaf) r)).size = (ctx.plug (.node p d l r)).size + 1 ∧
      h3.length = h.length + 1 ∧
      heap.read h3 p = some ⟨ctx.parent none, some h.length, r.ptr, d⟩ ∧
      heap.read h3 h.length = some ⟨some p, l.ptr, none, v⟩ ∧
      (∀ c n, l.ptr = some c → heap.read h c = some n →
        heap.read h3 c = some { n with root := some h.length }) ∧
      (∀ a, a < h.length → a ≠ p → some a ≠ l.ptr → heap.read h3 a = heap.read h a)) ∧
    (∃ h3, insert_left_right h t ⟨some p⟩ v = .ok ⟨some h.length⟩ (h3, t) ∧
      emplace_left_right h t ⟨some p⟩ v = insert_left_right h t ⟨some p⟩ v ∧
      represents h3 t (ctx.plug (.node p d (.node h.length v .leaf l) r)) ∧
      (ctx.plug (.node p d (.node h.length v .leaf l) r)).size = (ctx.plug (.node p d l r)).size + 1 ∧
      h3.length = h.length + 1 ∧
      heap.read h3 p = some ⟨ctx.parent none, some h.length, r.ptr, d⟩ ∧
      heap.read h3 h.length = some ⟨some p, none, l.ptr, v⟩ ∧
      (∀ c n, l.ptr = some c → heap.read h c = some n →
        heap.read h3 c = some { n with root := some h.length }) ∧
      (∀ a, a < h.length → a ≠ p → some a ≠ l.ptr → heap.read h3 a = heap.read h a)) ∧
    (∃ h3, insert_right_left h t ⟨some p⟩ v = .ok ⟨some h.length⟩ (h3, t) ∧
      emplace_right_left h t ⟨some p⟩ v = insert_right_left h t ⟨some p⟩ v ∧
      represents h3 t (ctx.plug (.node p d l (.node h.length v r .leaf))) ∧
      (ctx.plug (.node p d l (.node h.length v r .leaf))).size = (ctx.plug (.node p d l r)).size + 1 ∧
      h3.length = h.length + 1 ∧
      heap.read h3 p = some ⟨ctx.parent none, l.ptr, some h.length, d⟩ ∧
      heap.read h3 h.length = some ⟨some p, r.ptr, none, v⟩ ∧
      (∀ c n, r.ptr = some c → heap.read h c = some n →
        heap.read h3 c = some { n with root := some h.length }) ∧
      (∀ a, a < h.length → a ≠ p → some a ≠ r.ptr → heap.read h3 a = heap.read h a)) ∧
    (∃ h3, insert_right_right h t ⟨some p⟩ v = .ok ⟨some h.length⟩ (h3, t) ∧
      emplace_right_right h t ⟨some p⟩ v = insert_right_right h t ⟨some p⟩ v ∧
      represents h3 t (ctx.plug (.node p d l (.node h.length v .leaf r))) ∧
      (ctx.plug (.node p d l (.node h.length v .leaf r))).size = (ctx.plug (.node p d l r)).size + 1 ∧
      h3.length = h.length + 1 ∧
      heap.read h3 p = some ⟨ctx.parent none, l.ptr, some h.length, d⟩ ∧
      heap.read h3 h.length = some ⟨some p, none, r.ptr, v⟩ ∧
      (∀ c n, r.ptr = some c → heap.read h c = some n →
        heap.read h3 c = some { n with root := some h.length }) ∧
      (∀ a, a < h.length → a ≠ p → some a ≠ r.ptr → heap.read h3 a = heap.read h a)) := by
  refine ⟨?_, ?_, ?_, ?_⟩
  · obtain ⟨h3, e, hrep1, len3, r3p, r3b, hre, keep⟩ :=
      insert_left_left_ok h t ctx p d l r v hrep
    refine ⟨h3, e, rfl, hrep1, ?_, len3, r3p, r3b, hre, keep⟩
    rw [path.plug_size, path.plug_size]
    simp only [btree.size]
    omega
  · obtain ⟨h3, e, hrep1, len3, r3p, r3b, hre, keep⟩ :=
      insert_left_right_ok h t ctx p d l r v hrep
    refine ⟨h3, e, rfl, hrep1, ?_, len3, r3p, r3b, hre, keep⟩
    rw [path.plug_size, path.plug_size]
    simp only [btree.size]
    omega
  · obtain ⟨h3, e, hrep1, len3, r3p, r3b, hre, keep⟩ :=
      insert_right_left_ok h t ctx p d l r v hrep
    refine ⟨h3, e, rfl, hrep1, ?_, len3, r3p, r3b, hre, keep⟩
    rw [path.plug_size, path.plug_size]
    simp only [btree.size]
    omega
  · obtain ⟨h3, e, hrep1, len3, r3p, r3b, hre, keep⟩ :=
      insert_right_right_ok h t ctx p d l r v hrep
    refine ⟨h3, e, rfl, hrep1, ?_, len3, r3p, r3b, hre, keep⟩
    rw [path.plug_size, path.plug_size]
    simp only [btree.size]
    omega

/-- Witness of C20: in the tree with root 0 and left child 1, `insert_left_left` at the
root puts the new node 2 between the root and node 1. -/
theorem insert_child_relative_witness :
    ∃ h3,
      insert_left_left ([some ⟨none, some 1, none, 10⟩, some ⟨some 0, none, none, 11⟩] : heap Nat)
        ⟨some 0⟩ ⟨some 0⟩ 12 = .ok ⟨some 2⟩ (h3, ⟨some 0⟩) ∧
      represents h3 ⟨some 0⟩ (.node 0 10 (.node 2 12 (.node 1 11 .leaf .leaf) .leaf) .leaf) ∧
      heap.read h3 1 = some ⟨some 2, none, none, 11⟩ := by
  obtain ⟨h3, e, _, hrep1, _, _, _, _, hre, _⟩ :=
    (insert_child_relative
      ([some ⟨none, some 1, none, 10⟩, some ⟨some 0, none, none, 11⟩] : heap Nat)
      ⟨some 0⟩ [] 0 10 (.node 1 11 .leaf .leaf) .leaf 12
      ⟨rfl, by simp [path.plug, owns, heap.read, btree.ptr], by decide⟩).1
  exact ⟨h3, e, hrep1, hre 1 ⟨some 0, none, none, 11⟩ rfl (by decide)⟩

end tree_type

namespace garbage_collector

/-- C19 (collector scoped cleanup): for every sequence of `add` and `remove` calls on a
fresh collector in which the added pointers are pairwise distinct, no call of the sequence
deletes anything, and the destructor calls `delete` exactly once on every added pointer
that was never passed to `remove` and never on a pointer that was passed to `remove`. -/
theorem collector_scoped_cleanup (calls : List call) (hnd : (added calls).Nodup) :
    (new.run calls).2 = [] ∧
    (∀ g c, (exec g c).2 = []) ∧
    ∀ p, (p ∈ added calls → p ∉ removed calls → (new.run calls).1.dtor.count p = 1) ∧
      (p ∈ removed calls → (new.run calls).1.dtor.count p = 0) := by
  refine ⟨(run_eq calls new).2, ?_, ?_⟩
  · intro g c
    cases c <;> rfl
  · intro p
    rw [dtor_run]
    constructor
    · intro ha hr
      apply List.count_eq_one_of_mem
      · exact (List.nodup_reverse.2 hnd).filter _
      · simp [List.mem_filter, ha, hr]
    · intro hr
      rw [List.count_eq_zero]
      simp [List.mem_filter, hr]

/-- Witness of C19: with 1, 2 and 3 added and only 2 removed, the destructor deletes 1 and
3 once each and does not delete 2. -/
theorem collector_scoped_cleanup_witness :
    (new.run [.add 1, .add 2, .add 3, .remove 2]).1.dtor.count 1 = 1 ∧
    (new.run [.add 1, .add 2, .add 3, .remove 2]).1.dtor.count 3 = 1 ∧
    (new.run [.add 1, .add 2, .add 3, .remove 2]).1.dtor.count 2 = 0 ∧
    (new.run [.add 1, .add 2, .add 3, .remove 2]).2 = [] :=
  ⟨((collector_scoped_cleanup [.add 1, .add 2, .add 3, .remove 2] (by decide)).2.2 1).1
      (by decide) (by decide),
   ((collector_scoped_cleanup [.add 1, .add 2, .add 3, .remove 2] (by decide)).2.2 3).1
      (by decide) (by decide),
   ((collector_scoped_cleanup [.add 1, .add 2, .add 3, .remove 2] (by decide)).2.2 2).2
      (by decide),
   (collector_scoped_cleanup [.add 1, .add 2, .add 3, .remove 2] (by decide)).1⟩

end garbage_collector

namespace tree_type

variable {T : Type}

/-- C11, evaluated where the code breaks it: on the one-node tree with root 0,
`emplace_root_left` (and `insert_root_left`) on a handle of the root returns a handle of
the new node 1, which becomes the root with node 0 as its left child and no right child,
but the parent link of node 0 stays null instead of pointing to the new node, so the store
does not hold the tree with node 0 below node 1. When the node is not the root the parent
link is set: in the tree with root 0 and left child 1, `emplace_root_left` on a handle of
node 1 puts the new node 2 in the left slot of the root, above node 1, whose parent link
becomes node 2. -/
theorem root_insertion_does_not_reparent :
    emplace_root_left ([some ⟨none, none, none, 7⟩] : heap Nat) ⟨some 0⟩ ⟨some 0⟩ 8
      = .ok ⟨some 1⟩
          ([some ⟨none, none, none, 7⟩, some ⟨none, some 0, none, 8⟩], ⟨some 1⟩) ∧
    insert_root_left ([some ⟨none, none, none, 7⟩] : heap Nat) ⟨some 0⟩ ⟨some 0⟩ 8
      = .ok ⟨some 1⟩
          ([some ⟨none, none, none, 7⟩, some ⟨none, some 0, none, 8⟩], ⟨some 1⟩) ∧
    (heap.read ([some ⟨none, none, none, 7⟩, some ⟨none, some 0, none, 8⟩] : heap Nat) 0).map
      tree_node.root = some none ∧
    ¬ represents ([some ⟨none, none, none, 7⟩, some ⟨none, some 0, none, 8⟩] : heap Nat)
        ⟨some 1⟩ (.node 1 8 (.node 0 7 .leaf .leaf) .leaf) ∧
    emplace_root_left ([some ⟨none, some 1, none, 7⟩, some ⟨some 0, none, none, 8⟩] : heap Nat)
        ⟨some 0⟩ ⟨some 1⟩ 9
      = .ok ⟨some 2⟩
          ([some ⟨none, some 2, none, 7⟩, some ⟨some 2, none, none, 8⟩,
            some ⟨some 0, some 1, none, 9⟩], ⟨some 0⟩) ∧
    represents ([some ⟨none, some 2, none, 7⟩, some ⟨some 2, none, none, 8⟩,
        some ⟨some 0, some 1, none, 9⟩] : heap Nat) ⟨some 0⟩
      (.node 0 7 (.node 2 9 (.node 1 8 .leaf .leaf) .leaf) .leaf) := by
  refine ⟨by decide, by decide, by decide, ?_, by decide, ?_⟩
  · rintro ⟨_, ho, _⟩
    have h0 := ho.2.1.1
    revert h0
    simp [heap.read, btree.ptr]
  · exact ⟨rfl, by simp [owns, heap.read, btree.ptr], by decide⟩

/-- Counterexample to C18: move-assigning the one-node tree `B` (node 1) into the one-node
tree `A` (node 0) leaves `B` holding node 0, the former node of `A`: `B` is not empty. -/
theorem move_assign_source_not_empty :
    move_assign (⟨some 0⟩ : tree_type Nat) ⟨some 1⟩ = (⟨some 1⟩, ⟨some 0⟩) ∧
    (move_assign (⟨some 0⟩ : tree_type Nat) ⟨some 1⟩).2.empty = false ∧
    represents ([some ⟨none, none, none, 7⟩, some ⟨none, none, none, 8⟩] : heap Nat)
      (⟨some 0⟩ : tree_type Nat) (.node 0 7 .leaf .leaf) ∧
    represents ([some ⟨none, none, none, 7⟩, some ⟨none, none, none, 8⟩] : heap Nat)
      (⟨some 1⟩ : tree_type Nat) (.node 1 8 .leaf .leaf) ∧
    represents ([some ⟨none, none, none, 7⟩, some ⟨none, none, none, 8⟩] : heap Nat)
      (move_assign (⟨some 0⟩ : tree_type Nat) ⟨some 1⟩).2 (.node 0 7 .leaf .leaf) := by
  refine ⟨rfl, rfl, ?_, ?_, ?_⟩
  · exact ⟨rfl, by simp [owns, heap.read, btree.ptr], by decide⟩
  · exact ⟨rfl, by simp [owns, heap.read, btree.ptr], by decide⟩
  · exact ⟨rfl, by simp [owns, heap.read, btree.ptr], by decide⟩

/-- C18, as the code has it: move construction from `B` gives a tree with the root of `B`,
so with exactly the nodes of `B` in the unchanged store, and leaves `B` empty; move
assignment of `B` into `A` exchanges the roots: `A` gets the root, and so exactly the
nodes, of `B`, and `B` gets the root and the nodes of `A`; so after the assignment `B` is
empty exactly when `A` was empty before. No call touches the store, so no node is
cloned. -/
theorem move_swaps_roots (A B : tree_type T) :
    move_ctor B = (⟨B.mRoot⟩, ⟨none⟩) ∧
    (move_ctor B).2.empty = true ∧
    move_assign A B = (⟨B.mRoot⟩, ⟨A.mRoot⟩) ∧
    (move_assign A B).2.empty = A.empty ∧
    (∀ (h : heap T) (tr : btree T), represents h B tr →
      represents h (move_ctor B).1 tr ∧ represents h (move_assign A B).1 tr) ∧
    (∀ (h : heap T) (tr : btree T), represents h A tr →
      represents h (move_assign A B).2 tr) := by
  refine ⟨rfl, rfl, rfl, rfl, ?_, ?_⟩
  · intro h tr hrep
    exact ⟨hrep, hrep⟩
  · intro h tr hrep
    exact hrep

/-- Witness of C18 as amended: the one-node tree at node 1 is moved into a new tree and
into the one-node tree at node 0. -/
theorem move_swaps_roots_witness :
    represents ([some ⟨none, none, none, 7⟩, some ⟨none, none, none, 8⟩] : heap Nat)
      (move_ctor (⟨some 1⟩ : tree_type Nat)).1 (.node 1 8 .leaf .leaf) ∧
    represents ([some ⟨none, none, none, 7⟩, some ⟨none, none, none, 8⟩] : heap Nat)
      (move_assign (⟨some 0⟩ : tree_type Nat) ⟨some 1⟩).1 (.node 1 8 .leaf .leaf) ∧
    represents ([some ⟨none, none, none, 7⟩, some ⟨none, none, none, 8⟩] : heap Nat)
      (move_assign (⟨some 0⟩ : tree_type Nat) ⟨some 1⟩).2 (.node 0 7 .leaf .leaf) :=
  ⟨((move_swaps_roots (⟨some 0⟩ : tree_type Nat) ⟨some 1⟩).2.2.2.2.1
      ([some ⟨none, none, none, 7⟩, some ⟨none, none, none, 8⟩] : heap Nat) (.node 1 8 .leaf .leaf)
      ⟨rfl, by simp [owns, heap.read, btree.ptr], by decide⟩).1,
   ((move_swaps_roots (⟨some 0⟩ : tree_type Nat) ⟨some 1⟩).2.2.2.2.1
      ([some ⟨none, none, none, 7⟩, some ⟨none, none, none, 8⟩] : heap Nat) (.node 1 8 .leaf .leaf)
      ⟨rfl, by simp [owns, heap.read, btree.ptr], by decide⟩).2,
   (move_swaps_roots (⟨some 0⟩ : tree_type Nat) ⟨some 1⟩).2.2.2.2.2
      ([some ⟨none, none, none, 7⟩, some ⟨none, none, none, 8⟩] : heap Nat) (.node 0 7 .leaf .leaf)
      ⟨rfl, by simp [owns, heap.read, btree.ptr], by decide⟩⟩

end tree_type

namespace tree_type

variable {T : Type}

/-- C17: tree copy independence. Let `t` be a tree whose nodes are stored as the finite
binary tree `tr` (nothing is asked of the parent links), and let `this` be a second tree
object whose old nodes `old` are apart from those of `t`; the fuel covers the heights. Then
the copy constructor, copy assignment (`operator=`) and `assign` all return, and the copy
is the tree `tr.relabel h.length`: it has the shape of `tr` with equal payloads at
corresponding positions, hence the same payload sequence, and none of its nodes is a node
of `tr`. In the store after any of the three, the copy is a well-formed tree, `t` still
has its nodes, every sequence of payload writes and structural operations made on the copy
through handles on nodes created by or after the copy leaves the shape and the payloads of
`t` as they were, and (when no link of the store points to a cell never allocated) every
such sequence made on `t` through handles that denote no node of the copy leaves the copy
as it was. -/
theorem tree_copy_independence (fuel : Nat) (h : heap T) (t this : tree_type T)
    (tr old : btree T)
    (ht : t.mRoot = tr.ptr) (hh : holds h tr) (hf : tr.height ≤ fuel)
    (hthis : this.mRoot = old.ptr) (hold : holds h old) (hnd : old.addrs.Nodup)
    (hfo : old.height ≤ fuel) (hdis : ∀ a ∈ old.addrs, a ∉ tr.addrs) :
    ∃ hc ha : heap T,
      copy_ctor fuel h t = .ok ⟨(tr.relabel h.length).ptr⟩ hc ∧
      copy_assign fuel h this (some t) = .ok () (ha, ⟨(tr.relabel h.length).ptr⟩) ∧
      assign fuel h this (some t) = .ok () (ha, ⟨(tr.relabel h.length).ptr⟩) ∧
      (tr.relabel h.length).shape = tr.shape ∧
      (tr.relabel h.length).payloads = tr.payloads ∧
      (∀ a, a ∈ (tr.relabel h.length).addrs → a ∉ tr.addrs) ∧
      ∀ h1, h1 = hc ∨ h1 = ha →
        represents h1 ⟨(tr.relabel h.length).ptr⟩ (tr.relabel h.length) ∧
        holds h1 tr ∧
        (∀ (fuel2 : Nat) (calls : List (call T)) (s : heap T × tree_type T),
          (∀ c ∈ calls, ptr_in (fun a => h.length ≤ a) (call.handle c).mData) →
          run fuel2 h1 ⟨(tr.relabel h.length).ptr⟩ calls = some s → holds s.1 tr) ∧
        (links_allocated h →
          ∀ (fuel2 : Nat) (calls : List (call T)) (s : heap T × tree_type T),
          (∀ c ∈ calls,
            ptr_in (fun a => a ∉ (tr.relabel h.length).addrs) (call.handle c).mData) →
          run fuel2 h1 t calls = some s →
          represents s.1 ⟨(tr.relabel h.length).ptr⟩ (tr.relabel h.length)) := by
  obtain ⟨hc, ec, _, _, repc, hhc, ic1, ic2⟩ := copy_independent fuel h t tr ht hh hf
  obtain ⟨hd, ed, lend, deadd, keepd⟩ := destroy_holds old fuel h hold hnd hfo
  have hhd : holds hd tr :=
    holds_congr tr (fun a ha => keepd a (fun ho => hdis a ho ha)) hh
  obtain ⟨ha, ea, _, _, repa, hha, ia1, ia2⟩ := copy_independent fuel hd t tr ht hhd hf
  rw [lend] at ea repa ia1 ia2
  have hlad : links_allocated h → links_allocated hd :=
    destroy_links_allocated lend (fun a => by
      by_cases hao : a ∈ old.addrs
      · exact Or.inl (deadd a hao)
      · exact Or.inr (keepd a hao))
  refine ⟨hc, ha, ?_, ?_, ?_, btree.shape_relabel tr _, ?_, ?_, ?_⟩
  · simp only [copy_ctor, ec, result.and_then]
  · simp only [copy_assign, hthis, ed, ea, result.and_then]
  · simp only [assign, hthis, ed, ea, result.and_then]
  · rw [← btree.payloads_shape, btree.shape_relabel, btree.payloads_shape]
  · intro a ha1 ha2
    have h1 := (btree.mem_addrs_relabel tr _ a).1 ha1
    have h2 := holds_lt tr hh a ha2
    omega
  · intro h1 hh1
    rcases hh1 with rfl | rfl
    · exact ⟨repc, hhc, ic1, ic2⟩
    · exact ⟨repa, hha, ia1, fun hla => ia2 (hlad hla)⟩

end tree_type

namespace tree_type

/-- Witness for C17: the tree `t` has the root 0 (payload 10) with the left child 1
(payload 11), the tree `this` is the single node 2 (payload 20). The copy constructor puts
the copy at the fresh addresses 3 and 4; copy assignment and `assign` delete node 2 first
and put the same copy there. A payload write and `erase_left` on the copy leave the cells
of `t` as they were, and whatever is done to the copy, `t` keeps its shape and payloads. -/
theorem tree_copy_independence_witness :
    copy_ctor 2 ([some ⟨none, some 1, none, 10⟩, some ⟨some 0, none, none, 11⟩,
        some ⟨none, none, none, 20⟩] : heap Nat) ⟨some 0⟩
      = .ok ⟨some 3⟩ [some ⟨none, some 1, none, 10⟩, some ⟨some 0, none, none, 11⟩,
          some ⟨none, none, none, 20⟩, some ⟨none, some 4, none, 10⟩,
          some ⟨some 3, none, none, 11⟩] ∧
    copy_assign 2 ([some ⟨none, some 1, none, 10⟩, some ⟨some 0, none, none, 11⟩,
        some ⟨none, none, none, 20⟩] : heap Nat) ⟨some 2⟩ (some ⟨some 0⟩)
      = .ok () ([some ⟨none, some 1, none, 10⟩, some ⟨some 0, none, none, 11⟩,
          none, some ⟨none, some 4, none, 10⟩, some ⟨some 3, none, none, 11⟩], ⟨some 3⟩) ∧
    run 2 ([some ⟨none, some 1, none, 10⟩, some ⟨some 0, none, none, 11⟩,
          some ⟨none, none, none, 20⟩, some ⟨none, some 4, none, 10⟩,
          some ⟨some 3, none, none, 11⟩] : heap Nat) ⟨some 3⟩
        [.write ⟨some 3⟩ 99, .erase_left ⟨some 3⟩]
      = some ([some ⟨none, some 1, none, 10⟩, some ⟨some 0, none, none, 11⟩,
          some ⟨none, none, none, 20⟩, some ⟨none, none, none, 99⟩, none], ⟨some 3⟩) ∧
    ∃ hc ha : heap Nat,
      copy_ctor 2 ([some ⟨none, some 1, none, 10⟩, some ⟨some 0, none, none, 11⟩,
        some ⟨none, none, none, 20⟩] : heap Nat) ⟨some 0⟩ = .ok ⟨some 3⟩ hc ∧
      assign 2 ([some ⟨none, some 1, none, 10⟩, some ⟨some 0, none, none, 11⟩,
        some ⟨none, none, none, 20⟩] : heap Nat) ⟨some 2⟩ (some ⟨some 0⟩)
        = .ok () (ha, ⟨some 3⟩) ∧
      ∀ h1, h1 = hc ∨ h1 = ha →
        holds h1 (.node 0 10 (.node 1 11 .leaf .leaf) .leaf) ∧
        ∀ (calls : List (call Nat)) (s : heap Nat × tree_type Nat),
          (∀ c ∈ calls, ptr_in (fun a => 3 ≤ a) (call.handle c).mData) →
          run 2 h1 ⟨some 3⟩ calls = some s →
          holds s.1 (.node 0 10 (.node 1 11 .leaf .leaf) .leaf) := by
  refine ⟨by decide, by decide, by decide, ?_⟩
  obtain ⟨hc, ha, e1, _, e3, _, _, _, hall⟩ :=
    tree_copy_independence 2
      ([some ⟨none, some 1, none, 10⟩, some ⟨some 0, none, none, 11⟩,
        some ⟨none, none, none, 20⟩] : heap Nat) ⟨some 0⟩ ⟨some 2⟩
      (.node 0 10 (.node 1 11 .leaf .leaf) .leaf) (.node 2 20 .leaf .leaf)
      rfl (by simp [holds, heap.read, btree.ptr]) (by decide)
      rfl (by simp [holds, heap.read, btree.ptr]) (by decide) (by decide) (by decide)
  exact ⟨hc, ha, e1, e3, fun h1 hh1 =>
    ⟨(hall h1 hh1).2.1, fun calls s hcalls hrun => (hall h1 hh1).2.2.1 2 calls s hcalls hrun⟩⟩

end tree_type

namespace allocator_type

variable {T : Type} {blck_size : Nat}

theorem ctor_loop_done (fuel : Nat) (a : allocator_type T blck_size)
    (h : ¬ 2 * a.mOffset < blck_size) : ctor_loop fuel a = a := by
  cases fuel with
  | zero => rfl
  | succ k => rw [ctor_loop, if_neg h]

theorem ctor_loop_fuel (fuel : Nat) :
    ∀ a : allocator_type T blck_size, (blck_size + 1) / 2 - a.mOffset ≤ fuel →
      ∀ k, ctor_loop (fuel + k) a = ctor_loop fuel a := by
  induction fuel with
  | zero =>
    intro a h k
    have hc : ¬ 2 * a.mOffset < blck_size := by omega
    rw [ctor_loop_done _ a hc, ctor_loop_done _ a hc]
  | succ fuel ih =>
    intro a h k
    by_cases hc : 2 * a.mOffset < blck_size
    · have e : fuel + 1 + k = (fuel + k) + 1 := by omega
      rw [e, ctor_loop, ctor_loop, if_pos hc, if_pos hc]
      exact ih _ (by simp only; omega) k
    · rw [ctor_loop_done _ a hc, ctor_loop_done _ a hc]

theorem ctor_loop_spec (fuel : Nat) :
    ∀ a : allocator_type T blck_size, a.mOffset ≤ (blck_size + 1) / 2 →
      (blck_size + 1) / 2 - a.mOffset ≤ fuel →
      (ctor_loop fuel a).mOffset = (blck_size + 1) / 2 ∧
      (ctor_loop fuel a).mAlloc.allocated
        = a.mAlloc.allocated + ((blck_size + 1) / 2 - a.mOffset) ∧
      (ctor_loop fuel a).mAlloc.deallocated = a.mAlloc.deallocated ∧
      (ctor_loop fuel a).mAlloc.objects = a.mAlloc.objects ∧
      (∀ i, a.mOffset ≤ i → i < (blck_size + 1) / 2 →
        (ctor_loop fuel a).mPool i = a.mAlloc.allocated + (i - a.mOffset)) ∧
      (∀ i, i < a.mOffset → (ctor_loop fuel a).mPool i = a.mPool i) := by
  induction fuel with
  | zero =>
    intro a h1 h2
    refine ⟨?_, ?_, rfl, rfl, ?_, fun _ _ => rfl⟩
    · show a.mOffset = _
      omega
    · show a.mAlloc.allocated = _
      omega
    · intro i hi1 hi2
      omega
  | succ fuel ih =>
    intro a h1 h2
    by_cases hc : 2 * a.mOffset < blck_size
    · rw [ctor_loop, if_pos hc]
      obtain ⟨e1, e2, e3, e4, e5, e6⟩ := ih
        { mPool := Function.update a.mPool a.mOffset a.mAlloc.allocate.1
          mAlloc := a.mAlloc.allocate.2
          mOffset := a.mOffset + 1 } (by simp only; omega) (by simp only; omega)
      simp only [counting_allocator.allocate] at e2 e3 e4 e5 e6
      refine ⟨e1, ?_, e3, e4, ?_, ?_⟩
      · simp only [counting_allocator.allocate]
        rw [e2]
        omega
      · intro i hi1 hi2
        simp only [counting_allocator.allocate]
        by_cases hi : i = a.mOffset
        · subst hi
          rw [e6 _ (Nat.lt_succ_self _)]
          simp
        · rw [e5 i (by omega) hi2]
          omega
      · intro i hi
        simp only [counting_allocator.allocate]
        rw [e6 i (by omega), Function.update_noteq (by omega)]
    · rw [ctor_loop_done _ a hc]
      refine ⟨by omega, by omega, rfl, rfl, ?_, fun _ _ => rfl⟩
      intro i hi1 hi2
      omega

/-- Counterexample to C21: with `blck_size = 1` the constructor pools one slot, obtained by
one backing allocation, where `blck_size / 2` is 0; with `blck_size = 3` it pools two
slots, where `blck_size / 2` is 1: the loop runs while `mOffset < 0.5 * blck_size`, and
`0 < 0.5` and `1 < 1.5` hold. -/
theorem pool_preallocation_rounds_up :
    (new : allocator_type Nat 1).mOffset = 1 ∧
    (new : allocator_type Nat 1).mAlloc.allocated = 1 ∧
    (new : allocator_type Nat 1).mOffset ≠ 1 / 2 ∧
    (new : allocator_type Nat 3).mOffset = 2 ∧
    (new : allocator_type Nat 3).mAlloc.allocated = 2 ∧
    (new : allocator_type Nat 3).mOffset ≠ 3 / 2 := by
  refine ⟨by decide, by decide, by decide, by decide, by decide, by decide⟩

/-- C21, as the code has it: for every `blck_size` the constructor returns (the loop ends
after `(blck_size + 1) / 2` rounds, and more fuel changes nothing) and the fresh pool holds
`(blck_size + 1) / 2` slots, the half of `blck_size` rounded up, obtained by exactly that
many calls of `allocate(1)` and no call of `deallocate`; slot `i` holds the result of the
`i`-th backing allocation. The pooled count is `blck_size / 2` exactly when `blck_size` is
even. -/
theorem pool_preallocation (T : Type) (blck_size : Nat) :
    (new : allocator_type T blck_size).mOffset = (blck_size + 1) / 2 ∧
    (new : allocator_type T blck_size).mAlloc.allocated = (blck_size + 1) / 2 ∧
    (new : allocator_type T blck_size).mAlloc.deallocated = 0 ∧
    (new : allocator_type T blck_size).mAlloc.objects = [] ∧
    ¬ (2 * (new : allocator_type T blck_size).mOffset < blck_size) ∧
    (∀ fuel, (blck_size + 1) / 2 ≤ fuel →
      ctor_loop fuel (⟨fun _ => 0, counting_allocator.new, 0⟩ : allocator_type T blck_size)
        = new) ∧
    (∀ i, i < (blck_size + 1) / 2 → (new : allocator_type T blck_size).mPool i = i) ∧
    ((new : allocator_type T blck_size).mOffset = blck_size / 2 ↔ blck_size % 2 = 0) := by
  obtain ⟨e1, e2, e3, e4, e5, _⟩ := @ctor_loop_spec T blck_size blck_size
    ⟨fun _ => 0, counting_allocator.new, 0⟩ (Nat.zero_le _) (by simp only; omega)
  simp only [counting_allocator.new, Nat.sub_zero, Nat.zero_add] at e2 e3 e4 e5
  have hnew : (new : allocator_type T blck_size)
      = ctor_loop blck_size ⟨fun _ => 0, counting_allocator.new, 0⟩ := rfl
  refine ⟨e1, e2, e3, e4, ?_, ?_, ?_, ?_⟩
  · rw [hnew, e1]
    omega
  · intro fuel hf
    rcases Nat.le_total fuel blck_size with hle | hle
    · obtain ⟨k, rfl⟩ := Nat.exists_eq_add_of_le hle
      rw [hnew]
      exact (ctor_loop_fuel fuel _ (by simp only; omega) k).symm
    · obtain ⟨k, rfl⟩ := Nat.exists_eq_add_of_le hle
      rw [hnew]
      exact ctor_loop_fuel blck_size _ (by simp only; omega) k
  · intro i hi
    exact e5 i (Nat.zero_le _) hi
  · rw [hnew, e1]
    omega

/-- Witness of C21 as amended: pools of block size 4 and 5 start with 2 and 3 slots. -/
theorem pool_preallocation_witness :
    (new : allocator_type Nat 4).mOffset = 2 ∧
    (new : allocator_type Nat 5).mOffset = 3 ∧
    (new : allocator_type Nat 5).mAlloc.allocated = 3 ∧
    (new : allocator_type Nat 5).mPool 2 = 2 ∧
    ctor_loop 7 (⟨fun _ => 0, counting_allocator.new, 0⟩ : allocator_type Nat 5) = new :=
  ⟨(pool_preallocation Nat 4).1, (pool_preallocation Nat 5).1, (pool_preallocation Nat 5).2.1,
    (pool_preallocation Nat 5).2.2.2.2.2.2.1 2 (by decide),
    (pool_preallocation Nat 5).2.2.2.2.2.1 7 (by decide)⟩

end allocator_type

namespace garbage_collector

theorem added_append (xs ys : List call) : added (xs ++ ys) = added xs ++ added ys := by
  induction xs with
  | nil => rfl
  | cons c cs ih => cases c <;> simp [added, ih]

theorem removed_append (xs ys : List call) :
    removed (xs ++ ys) = removed xs ++ removed ys := by
  induction xs with
  | nil => rfl
  | cons c cs ih => cases c <;> simp [removed, ih]

theorem dtor_congr (calls calls2 : List call) (ha : added calls2 = added calls)
    (hr : ∀ p, p ∈ removed calls2 ↔ p ∈ removed calls) :
    (new.run calls2).1.dtor = (new.run calls).1.dtor := by
  rw [dtor_run, dtor_run, ha]
  apply List.filter_congr
  intro x _
  simp [hr x]

/-- C22 (collector teardown): after every sequence of `add` and `remove` calls on a fresh
collector, the pointers the destructor calls `delete` on are, in the order of the calls,
the added pointers in reverse order of addition, each as often as it was added, without
those that were passed to `remove` at any time. So two sequences with the same additions
and the same set of removed pointers are torn down alike; a pointer passed to `remove` is
not deleted, also when the `remove` comes before the `add`; a further `remove` of a
pointer already removed, and a `remove` of a pointer that is never added, change nothing;
and a pointer that is never removed is deleted as often as it was added. -/
theorem collector_teardown_order (calls : List call) :
    (new.run calls).1.dtor = (added calls).reverse.filter (fun p => p ∉ removed calls) ∧
    (∀ calls2, added calls2 = added calls →
      (∀ p, p ∈ removed calls2 ↔ p ∈ removed calls) →
      (new.run calls2).1.dtor = (new.run calls).1.dtor) ∧
    (∀ p, p ∈ removed calls → p ∉ (new.run calls).1.dtor) ∧
    (∀ pre post p, calls = pre ++ .remove p :: post → p ∉ (new.run calls).1.dtor) ∧
    (∀ pre post p, calls = pre ++ post → p ∈ removed calls →
      (new.run (pre ++ .remove p :: post)).1.dtor = (new.run calls).1.dtor) ∧
    (∀ pre post p, calls = pre ++ post → p ∉ added calls →
      (new.run (pre ++ .remove p :: post)).1.dtor = (new.run calls).1.dtor) ∧
    (∀ p, p ∉ removed calls → (new.run calls).1.dtor.count p = (added calls).count p) := by
  refine ⟨dtor_run calls, fun calls2 ha hr => dtor_congr calls calls2 ha hr, ?_, ?_, ?_, ?_, ?_⟩
  · intro p hp
    rw [dtor_run]
    simp [List.mem_filter, hp]
  · intro pre post p hc
    rw [dtor_run]
    have hp : p ∈ removed calls := by
      rw [hc, removed_append]
      simp [removed]
    simp [List.mem_filter, hp]
  · intro pre post p hc hp
    apply dtor_congr
    · rw [hc, added_append, added_append]
      rfl
    · intro x
      rw [hc, removed_append] at hp
      rw [hc, removed_append, removed_append]
      simp only [removed, List.mem_append, List.mem_cons]
      constructor
      · rintro (h | rfl | h)
        · exact Or.inl h
        · exact List.mem_append.1 hp
        · exact Or.inr h
      · rintro (h | h)
        · exact Or.inl h
        · exact Or.inr (Or.inr h)
  · intro pre post p hc hp
    rw [dtor_run, dtor_run]
    have ea : added (pre ++ .remove p :: post) = added calls := by
      rw [hc, added_append, added_append]
      rfl
    rw [ea]
    apply List.filter_congr
    intro x hx
    have hxa : x ∈ added calls := List.mem_reverse.1 hx
    have hxp : x ≠ p := fun e => hp (e ▸ hxa)
    rw [hc, removed_append, removed_append]
    simp [removed, hxp]
  · intro p hp
    rw [dtor_run, List.count_filter (by simpa using hp), List.count_reverse]

/-- Witness of C22: `remove 2` comes before `add 2`, 1 is added twice, 2 is removed twice
and 9 is removed without being added; the destructor deletes 1, 3 and 1 in this order. -/
theorem collector_teardown_order_witness :
    (new.run [.remove 2, .add 1, .add 2, .add 3, .add 1, .remove 2, .remove 9]).1.dtor
      = [1, 3, 1] ∧
    (new.run [.remove 2, .add 1, .add 2, .add 3, .add 1, .remove 2, .remove 9]).1.dtor.count 1
      = 2 ∧
    2 ∉ (new.run [.remove 2, .add 1, .add 2, .add 3, .add 1, .remove 2, .remove 9]).1.dtor ∧
    (new.run ([.remove 2, .add 1] ++ .remove 2 :: [.add 2, .add 3, .add 1])).1.dtor
      = (new.run [.remove 2, .add 1, .add 2, .add 3, .add 1]).1.dtor ∧
    (new.run ([.remove 2, .add 1] ++ .remove 9 :: [.add 2, .add 3, .add 1])).1.dtor
      = (new.run [.remove 2, .add 1, .add 2, .add 3, .add 1]).1.dtor :=
  ⟨(collector_teardown_order
      [.remove 2, .add 1, .add 2, .add 3, .add 1, .remove 2, .remove 9]).1.trans (by decide),
   ((collector_teardown_order
      [.remove 2, .add 1, .add 2, .add 3, .add 1, .remove 2, .remove 9]).2.2.2.2.2.2 1
        (by decide)).trans (by decide),
   (collector_teardown_order
      [.remove 2, .add 1, .add 2, .add 3, .add 1, .remove 2, .remove 9]).2.2.1 2 (by decide),
   (collector_teardown_order [.remove 2, .add 1, .add 2, .add 3, .add 1]).2.2.2.2.1
      [.remove 2, .add 1] [.add 2, .add 3, .add 1] 2 rfl (by decide),
   (collector_teardown_order [.remove 2, .add 1, .add 2, .add 3, .add 1]).2.2.2.2.2.1
      [.remove 2, .add 1] [.add 2, .add 3, .add 1] 9 rfl (by decide)⟩

end garbage_collector

namespace tree_type

variable {T : Type}

theorem reserve_left_absent (fuel : Nat) (h : heap T) (t : tree_type T) (p : Nat)
    (n : tree_node T) (hn : h.read p = some n) (hl : n.left = none) :
    reserve_left fuel h t ⟨some p⟩ = .fault := by
  simp [reserve_left, iterator.usable, hn, hl, heap.set_left_eq hn]

theorem reserve_right_absent (fuel : Nat) (h : heap T) (t : tree_type T) (p : Nat)
    (n : tree_node T) (hn : h.read p = some n) (hr : n.right = none) :
    reserve_right fuel h t ⟨some p⟩ = .fault := by
  simp [reserve_right, iterator.usable, hn, hr, heap.set_right_eq hn]

/-- C23 (reserve is not total on usable handles): if the handle denotes a live node whose
left (right) child is absent, `reserve_left` (`reserve_right`) does not throw `E000E`: it
writes the parent link of the absent child, which is the fault of the embedding, in every
store, for every tree and all fuel. On a well-formed tree, for the node at `p` with
subtree `node p d l r` and fuel covering the other subtree, the fault is reached exactly
when the named child is absent, and for a handle that is null or denotes the node the
call returns exactly when the handle is usable and the named child exists (with the null
handle it throws `E000E`). -/
theorem reserve_absent_child_faults (fuel : Nat) (h : heap T) (t : tree_type T) (p : Nat) :
    iterator.usable ⟨some p⟩ = true ∧
    (∀ n, h.read p = some n → n.left = none →
      reserve_left fuel h t ⟨some p⟩ = .fault ∧
      reserve_left fuel h t ⟨some p⟩ ≠ .throw .E000E (h, t)) ∧
    (∀ n, h.read p = some n → n.right = none →
      reserve_right fuel h t ⟨some p⟩ = .fault ∧
      reserve_right fuel h t ⟨some p⟩ ≠ .throw .E000E (h, t)) ∧
    ∀ (ctx : path T) (d : T) (l r : btree T),
      represents h t (ctx.plug (.node p d l r)) →
      (1 + r.height ≤ fuel →
        (reserve_left fuel h t ⟨some p⟩ = .fault ↔ l = .leaf) ∧
        ∀ it : iterator, it = ⟨none⟩ ∨ it = ⟨some p⟩ →
          ((∃ x s, reserve_left fuel h t it = .ok x s) ↔ it.usable = true ∧ l ≠ .leaf)) ∧
      (1 + l.height ≤ fuel →
        (reserve_right fuel h t ⟨some p⟩ = .fault ↔ r = .leaf) ∧
        ∀ it : iterator, it = ⟨none⟩ ∨ it = ⟨some p⟩ →
          ((∃ x s, reserve_right fuel h t it = .ok x s) ↔ it.usable = true ∧ r ≠ .leaf)) := by
  refine ⟨rfl, ?_, ?_, ?_⟩
  · intro n hn hl
    rw [reserve_left_absent fuel h t p n hn hl]
    exact ⟨rfl, fun e => by cases e⟩
  · intro n hn hr
    rw [reserve_right_absent fuel h t p n hn hr]
    exact ⟨rfl, fun e => by cases e⟩
  · intro ctx d l r hrep
    have hrp : heap.read h p = some ⟨ctx.parent none, l.ptr, r.ptr, d⟩ :=
      (represents_plug hrep).2.1.1
    constructor
    · intro hf
      have hleaf : l = .leaf → reserve_left fuel h t ⟨some p⟩ = .fault := by
        intro hl
        subst hl
        exact reserve_left_absent fuel h t p _ hrp rfl
      have hnode : l ≠ .leaf → ∃ x s, reserve_left fuel h t ⟨some p⟩ = .ok x s := by
        intro hl
        cases l with
        | leaf => exact absurd rfl hl
        | node c dc cl cr =>
          obtain ⟨h4, t1, e, _⟩ := reserve_left_ok fuel h t ctx p d c dc cl cr r hrep hf
          exact ⟨_, _, e⟩
      refine ⟨⟨fun hfault => ?_, hleaf⟩, ?_⟩
      · by_contra hl
        obtain ⟨x, s, e⟩ := hnode hl
        rw [hfault] at e
        cases e
      · intro it hit
        rcases hit with rfl | rfl
        · constructor
          · rintro ⟨x, s, e⟩
            simp [reserve_left, iterator.usable] at e
          · rintro ⟨hu, _⟩
            simp [iterator.usable] at hu
        · constructor
          · rintro ⟨x, s, e⟩
            refine ⟨rfl, fun hl => ?_⟩
            rw [hleaf hl] at e
            cases e
          · rintro ⟨_, hl⟩
            exact hnode hl
    · intro hf
      have hleaf : r = .leaf → reserve_right fuel h t ⟨some p⟩ = .fault := by
        intro hr
        subst hr
        exact reserve_right_absent fuel h t p _ hrp rfl
      have hnode : r ≠ .leaf → ∃ x s, reserve_right fuel h t ⟨some p⟩ = .ok x s := by
        intro hr
        cases r with
        | leaf => exact absurd rfl hr
        | node c dc cl cr =>
          obtain ⟨h4, t1, e, _⟩ := reserve_right_ok fuel h t ctx p d c dc cl cr l hrep hf
          exact ⟨_, _, e⟩
      refine ⟨⟨fun hfault => ?_, hleaf⟩, ?_⟩
      · by_contra hr
        obtain ⟨x, s, e⟩ := hnode hr
        rw [hfault] at e
        cases e
      · intro it hit
        rcases hit with rfl | rfl
        · constructor
          · rintro ⟨x, s, e⟩
            simp [reserve_right, iterator.usable] at e
          · rintro ⟨hu, _⟩
            simp [iterator.usable] at hu
        · constructor
          · rintro ⟨x, s, e⟩
            refine ⟨rfl, fun hr => ?_⟩
            rw [hleaf hr] at e
            cases e
          · rintro ⟨_, hr⟩
            exact hnode hr

/-- Witness of C23: in the tree with root 0 and left child 1, `reserve_right` at the root
and `reserve_left` at node 1 reach the fault, `reserve_left` at the root returns a handle
of node 1, which becomes the root, and `reserve_left` with the null handle throws. -/
theorem reserve_absent_child_faults_witness :
    reserve_right 2 ([some ⟨none, some 1, none, 10⟩, some ⟨some 0, none, none, 11⟩] : heap Nat)
      ⟨some 0⟩ ⟨some 0⟩ = .fault ∧
    reserve_left 2 ([some ⟨none, some 1, none, 10⟩, some ⟨some 0, none, none, 11⟩] : heap Nat)
      ⟨some 0⟩ ⟨some 1⟩ = .fault ∧
    reserve_left 2 ([some ⟨none, some 1, none, 10⟩, some ⟨some 0, none, none, 11⟩] : heap Nat)
      ⟨some 0⟩ ⟨some 0⟩ = .ok ⟨some 1⟩ ([none, some ⟨none, none, none, 11⟩], ⟨some 1⟩) ∧
    reserve_left 2 ([some ⟨none, some 1, none, 10⟩, some ⟨some 0, none, none, 11⟩] : heap Nat)
      ⟨some 0⟩ ⟨none⟩ = .throw .E000E
        ([some ⟨none, some 1, none, 10⟩, some ⟨some 0, none, none, 11⟩], ⟨some 0⟩) ∧
    (∃ x s, reserve_left 2
      ([some ⟨none, some 1, none, 10⟩, some ⟨some 0, none, none, 11⟩] : heap Nat)
      ⟨some 0⟩ ⟨some 0⟩ = .ok x s) ∧
    ¬ (∃ x s, reserve_right 2
      ([some ⟨none, some 1, none, 10⟩, some ⟨some 0, none, none, 11⟩] : heap Nat)
      ⟨some 0⟩ ⟨some 0⟩ = .ok x s) := by
  have hrep : represents
      ([some ⟨none, some 1, none, 10⟩, some ⟨some 0, none, none, 11⟩] : heap Nat) ⟨some 0⟩
      (path.plug [] (.node 0 10 (.node 1 11 .leaf .leaf) .leaf)) :=
    ⟨rfl, by simp [path.plug, owns, heap.read, btree.ptr], by decide⟩
  have key := reserve_absent_child_faults 2
    ([some ⟨none, some 1, none, 10⟩, some ⟨some 0, none, none, 11⟩] : heap Nat) ⟨some 0⟩ 0
  have key1 := reserve_absent_child_faults 2
    ([some ⟨none, some 1, none, 10⟩, some ⟨some 0, none, none, 11⟩] : heap Nat) ⟨some 0⟩ 1
  refine ⟨(key.2.2.1 _ rfl rfl).1, (key1.2.1 _ rfl rfl).1, by decide, by decide, ?_, ?_⟩
  · exact (((key.2.2.2 [] 10 _ _ hrep).1 (by decide)).2 ⟨some 0⟩ (Or.inr rfl)).2
      ⟨rfl, by simp⟩
  · intro hex
    exact ((((key.2.2.2 [] 10 _ _ hrep).2 (by decide)).2 ⟨some 0⟩ (Or.inr rfl)).1 hex).2 rfl

end tree_type

end cs
